import Mathlib

/-!
# MULTPRED: combining multiple numeric predictors

A shallow embedding of `MULTPRED.CPP`, of `Bilinear::evaluate` from
`BILINEAR.CPP` and of `boot_bias_var` from `BOOT_P_3.CPP`.

Conventions of the embedding.

* A C `double` is an exact rational (`ℚ`): a statement about a function of
  that reading is about the expressions the code evaluates, in exact
  arithmetic, without floating-point rounding.
* The same source lines are read a second time over `F64`, a model of IEEE 754
  binary64 (round to nearest, ties to even, infinities and NaN); the names of
  that reading end in `64`.  It serves to run the code on doubles at concrete
  inputs, where rounding, overflow or underflow give another result than
  exact arithmetic does.
* A `double *` is the list of the values stored from the pointed-at cell
  onwards; `p[i]` is `rd p i`, `p[i] = v` is `wr p i v`, and `p + k` is
  `p.drop k`.
* `for (i=0 ; i<n ; i++) body` is `forLoop n body`, acting on the variables
  the body assigns.
* The loop counters and sizes (`n`, `nin`, `nmods`) are natural numbers.
* `malloc` gives cells holding 0; the code writes every cell before reading it.
* `Average::numeric_predict` divides by the caller's `nmodels`, which nothing
  guards: that division is `fdiv`, with `none` for a zero divisor.  Every other
  division has a divisor that the code keeps positive (an accumulator started
  at `1.e-60`, a sum of positive reciprocals, a sum floored at `1.e-60`, or
  `nmodels` inside a loop over the models) and is the division of `ℚ`.
* A trained model (`MLFN`) is known only through `predict`, a deterministic
  function of the input it is pointed at.  The file-level pointer `models`
  is an explicit argument of everything that reads it.
* A constructor `T::T` is `T.ctor`.
* `powell` is declared but not defined in the source; it is an argument of
  the constructors that call it.
-/

namespace MultPred

/-! ## Memory and control primitives -/

/-- Read `p[i]`. -/
def rd (p : List ℚ) (i : ℕ) : ℚ := p.getD i 0

/-- Write `p[i] = v`. -/
def wr (p : List ℚ) (i : ℕ) (v : ℚ) : List ℚ := p.set i v

/-- Allocate `k` cells with `malloc`. -/
def malloc (k : ℕ) : List ℚ := List.replicate k 0

/-- The loop `for (i=0 ; i<n ; i++) s = body i s`. -/
def forLoop {σ : Type} (n : ℕ) (body : ℕ → σ → σ) (s : σ) : σ :=
  match n with
  | 0 => s
  | k + 1 => body k (forLoop k body s)

/-- Division of doubles: the quotient when it is a number, `none` when the
divisor is zero (the IEEE result is then NaN or an infinity). -/
def fdiv (a b : ℚ) : Option ℚ := if b = 0 then none else some (a / b)

/-- The literal `1.e-60`. -/
def tiny : ℚ := 1e-60

/-- The literal `1.e30`. -/
def big : ℚ := 1e30

/-- A trained model, seen through `predict ( input , &out )`. -/
abbrev Predictor := List ℚ → ℚ

/-! ## Average -/

/-- The private data of `class Average`. -/
structure Average where
  nmodels : ℕ
deriving DecidableEq, Repr

/-- The constructor `Average::Average ( n , nin , tset , nmods )`. -/
def Average.ctor (_n _nin : ℕ) (_tset : List ℚ) (nmods : ℕ) : Average :=
  { nmodels := nmods }

/-- The sum that `Average::numeric_predict` holds in `*output` before the
final division. -/
def Average.total (models : ℕ → Predictor) (self : Average) (input : List ℚ) : ℚ :=
  forLoop self.nmodels (fun imodel output =>
    let outwork := models imodel input
    output + outwork) 0

/-- The method `Average::numeric_predict ( input , output )`; the result is
the final `*output`. -/
def Average.numeric_predict (models : ℕ → Predictor) (self : Average)
    (input : List ℚ) : Option ℚ :=
  fdiv (Average.total models self input) (self.nmodels : ℚ)

/-! ## Weighted -/

/-- The private data of `class Weighted`. -/
structure Weighted where
  nmodels : ℕ
  coefs : List ℚ
deriving DecidableEq, Repr

/-- First loop of `Weighted::Weighted`: every accumulator starts at `1.e-60`. -/
def Weighted.init (nmodels : ℕ) (coefs : List ℚ) : List ℚ :=
  forLoop nmodels (fun i coefs => wr coefs i tiny) coefs

/-- Second loop of `Weighted::Weighted`: cumulate the squared error of each
model over the `n` training cases. -/
def Weighted.cumulate (models : ℕ → Predictor) (n nin : ℕ) (tset : List ℚ)
    (nmodels : ℕ) (coefs : List ℚ) : List ℚ :=
  forLoop n (fun i coefs =>
    let tptr := tset.drop (i * (nin + 1))
    forLoop nmodels (fun imodel coefs =>
      let out := models imodel tptr
      let diff := out - rd tptr nin
      wr coefs imodel (rd coefs imodel + diff * diff)) coefs) coefs

/-- Third loop of `Weighted::Weighted`: replace each accumulator by its
reciprocal and sum the reciprocals.  The state is `(coefs, sum)`. -/
def Weighted.recip (nmodels : ℕ) (coefs : List ℚ) : List ℚ × ℚ :=
  forLoop nmodels (fun imodel (s : List ℚ × ℚ) =>
    let coefs := wr s.1 imodel (1 / rd s.1 imodel)
    let sum := s.2 + rd coefs imodel
    (coefs, sum)) (coefs, 0)

/-- Fourth loop of `Weighted::Weighted`: divide every weight by `sum`. -/
def Weighted.normalize (nmodels : ℕ) (coefs : List ℚ) (sum : ℚ) : List ℚ :=
  forLoop nmodels (fun imodel coefs => wr coefs imodel (rd coefs imodel / sum)) coefs

/-- The constructor `Weighted::Weighted ( n , nin , tset , nmods )`. -/
def Weighted.ctor (models : ℕ → Predictor) (n nin : ℕ) (tset : List ℚ) (nmods : ℕ) :
    Weighted :=
  let nmodels := nmods
  let coefs := malloc nmodels
  let coefs := Weighted.init nmodels coefs
  let coefs := Weighted.cumulate models n nin tset nmodels coefs
  let s := Weighted.recip nmodels coefs
  let coefs := Weighted.normalize nmodels s.1 s.2
  { nmodels := nmodels, coefs := coefs }

/-! ## Unbiased -/

/-- The file-level statics through which `unbiased_crit` gets its data. -/
structure UnbiasedStatics where
  unbiased_ncases : ℕ
  unbiased_nvars : ℕ
  unbiased_x : List ℚ
  unbiased_y : List ℚ
  unbiased_work : List ℚ
deriving DecidableEq, Repr

/-- First part of `unbiased_crit`: the sum of the raw weights, floored at `1.e-60`. -/
def unbiased_divisor (nvars : ℕ) (wts : List ℚ) : ℚ :=
  let sum := forLoop nvars (fun j sum => sum + rd wts j) 0
  if sum < tiny then tiny else sum

/-- The function `unbiased_crit ( wts )`; the returned value.  The work area
is written for every `j < unbiased_nvars` before it is read. -/
def unbiased_crit (st : UnbiasedStatics) (wts : List ℚ) : ℚ :=
  let sum := unbiased_divisor st.unbiased_nvars wts
  let work := forLoop st.unbiased_nvars (fun j work => wr work j (rd wts j / sum))
    st.unbiased_work
  let err := forLoop st.unbiased_ncases (fun i err =>
    let xptr := st.unbiased_x.drop (i * st.unbiased_nvars)
    let pred := forLoop st.unbiased_nvars (fun j pred => pred + rd xptr j * rd work j) 0
    let diff := pred - rd st.unbiased_y i
    err + diff * diff) 0
  let penalty := forLoop st.unbiased_nvars (fun j penalty =>
    if rd wts j < 0 then penalty - big * rd wts j else penalty) 0
  err + penalty

/-- The loop that fills the design data in `Unbiased::Unbiased` and in
`Biased::Biased`: each model's prediction for each case goes to `cases`, the
true value of each case to `outs`.  The state is `(cases, outs)`. -/
def buildDesign (models : ℕ → Predictor) (n nin : ℕ) (tset : List ℚ) (nmodels : ℕ)
    (cases outs : List ℚ) : List ℚ × List ℚ :=
  forLoop n (fun i (s : List ℚ × List ℚ) =>
    let tptr := tset.drop (i * (nin + 1))
    let cases := forLoop nmodels (fun imodel cases =>
      wr cases (i * nmodels + imodel) (models imodel tptr)) s.1
    let outs := wr s.2 i (rd tptr nin)
    (cases, outs)) (cases, outs)

/-- The arguments of one call `powell ( maxits , critlim , tol , criter , n ,
x , ystart , base , p0 , direc )`.  The work areas `base`, `p0` and `direc`
are passed uninitialized and never read by the caller; they are left out. -/
structure PowellCall where
  maxits : ℕ
  critlim : ℚ
  tol : ℚ
  criter : List ℚ → ℚ
  n : ℕ
  x : List ℚ
  ystart : ℚ

/-- The external optimizer: from the arguments of a call, the value it
returns and the content it leaves in `x`. -/
abbrev Powell := PowellCall → ℚ × List ℚ

/-- The private data of `class Unbiased`. -/
structure Unbiased where
  nmodels : ℕ
  coefs : List ℚ
deriving DecidableEq, Repr

/-- What running the constructor of `Unbiased` produces: the object, and the
calls made to `powell`, in order. -/
structure UnbiasedRun where
  self : Unbiased
  calls : List PowellCall

/-- The statics as `Unbiased::Unbiased` sets them before optimizing. -/
def Unbiased.statics (models : ℕ → Predictor) (n nin : ℕ) (tset : List ℚ) (nmods : ℕ) :
    UnbiasedStatics :=
  let nmodels := nmods
  let cases := malloc (n * nmodels)
  let outs := malloc n
  let unbiased_work := malloc nmodels
  let d := buildDesign models n nin tset nmodels cases outs
  { unbiased_ncases := n, unbiased_nvars := nmodels, unbiased_x := d.1, unbiased_y := d.2,
    unbiased_work := unbiased_work }

/-- The starting point: `coefs[i] = 1.0 / nmodels` for every `i`. -/
def Unbiased.start (nmodels : ℕ) (coefs : List ℚ) : List ℚ :=
  forLoop nmodels (fun i coefs => wr coefs i (1 / (nmodels : ℚ))) coefs

/-- The call to `powell` made by `Unbiased::Unbiased`. -/
def Unbiased.call (models : ℕ → Predictor) (n nin : ℕ) (tset : List ℚ) (nmods : ℕ) :
    PowellCall :=
  let nmodels := nmods
  let st := Unbiased.statics models n nin tset nmods
  let coefs := Unbiased.start nmodels (malloc nmodels)
  let ystart := unbiased_crit st coefs
  { maxits := 20, critlim := 0, tol := 1e-6, criter := unbiased_crit st, n := nmodels,
    x := coefs, ystart := ystart }

/-- The last part of `Unbiased::Unbiased`: divide the weights by their sum,
floored at `1.e-60`. -/
def Unbiased.normalize (nmodels : ℕ) (coefs : List ℚ) : List ℚ :=
  let sum := forLoop nmodels (fun i sum => sum + rd coefs i) 0
  let sum := if sum < tiny then tiny else sum
  forLoop nmodels (fun i coefs => wr coefs i (rd coefs i / sum)) coefs

/-- The constructor `Unbiased::Unbiased ( n , nin , tset , nmods )`, with the
calls it makes to `powell`. -/
def Unbiased.run (powell : Powell) (models : ℕ → Predictor) (n nin : ℕ) (tset : List ℚ)
    (nmods : ℕ) : UnbiasedRun :=
  let nmodels := nmods
  let call := Unbiased.call models n nin tset nmods
  let r := powell call
  let coefs := r.2
  let coefs := Unbiased.normalize nmodels coefs
  { self := { nmodels := nmodels, coefs := coefs }, calls := [call] }

/-- The object built by `Unbiased::Unbiased`. -/
def Unbiased.ctor (powell : Powell) (models : ℕ → Predictor) (n nin : ℕ) (tset : List ℚ)
    (nmods : ℕ) : Unbiased :=
  (Unbiased.run powell models n nin tset nmods).self

/-! ## Biased -/

/-- The file-level statics through which `biased_crit` gets its data. -/
structure BiasedStatics where
  biased_ncases : ℕ
  biased_nvars : ℕ
  biased_x : List ℚ
  biased_y : List ℚ
deriving DecidableEq, Repr

/-- The function `biased_crit ( wts )`; the returned value. -/
def biased_crit (st : BiasedStatics) (wts : List ℚ) : ℚ :=
  let err := forLoop st.biased_ncases (fun i err =>
    let xptr := st.biased_x.drop (i * st.biased_nvars)
    let pred := forLoop st.biased_nvars (fun j pred => pred + rd xptr j * rd wts j)
      (rd wts st.biased_nvars)
    let diff := pred - rd st.biased_y i
    err + diff * diff) 0
  let penalty := forLoop st.biased_nvars (fun j penalty =>
    if rd wts j < 0 then penalty - big * rd wts j else penalty) 0
  err + penalty

/-- The design data and the statics as `Biased::Biased` sets them before
optimizing. -/
def Biased.statics (models : ℕ → Predictor) (n nin : ℕ) (tset : List ℚ) (nmods : ℕ) :
    BiasedStatics :=
  let nmodels := nmods
  let cases := malloc (n * nmodels)
  let outs := malloc n
  let d := buildDesign models n nin tset nmodels cases outs
  { biased_ncases := n, biased_nvars := nmodels, biased_x := d.1, biased_y := d.2 }

/-- The private data of `class Biased`. -/
structure Biased where
  nmodels : ℕ
  coefs : List ℚ
deriving DecidableEq, Repr

/-- What running the constructor of `Biased` produces: the object, and the
calls made to `powell`, in order. -/
structure BiasedRun where
  self : Biased
  calls : List PowellCall

/-- The starting point of `Biased::Biased`: `1.0 / nmodels` for every model
and `0.0` for the constant term. -/
def Biased.start (nmodels : ℕ) (coefs : List ℚ) : List ℚ :=
  let coefs := forLoop nmodels (fun i coefs => wr coefs i (1 / (nmodels : ℚ))) coefs
  wr coefs nmodels 0

/-- The call to `powell` made by `Biased::Biased`. -/
def Biased.call (models : ℕ → Predictor) (n nin : ℕ) (tset : List ℚ) (nmods : ℕ) :
    PowellCall :=
  let nmodels := nmods
  let st := Biased.statics models n nin tset nmods
  let coefs := Biased.start nmodels (malloc (nmodels + 1))
  let ystart := biased_crit st coefs
  { maxits := 20, critlim := 0, tol := 1e-6, criter := biased_crit st, n := nmodels + 1,
    x := coefs, ystart := ystart }

/-- The constructor `Biased::Biased ( n , nin , tset , nmods )`, with the
calls it makes to `powell`. -/
def Biased.run (powell : Powell) (models : ℕ → Predictor) (n nin : ℕ) (tset : List ℚ)
    (nmods : ℕ) : BiasedRun :=
  let nmodels := nmods
  let call := Biased.call models n nin tset nmods
  let r := powell call
  let coefs := r.2
  { self := { nmodels := nmodels, coefs := coefs }, calls := [call] }

/-- The object built by `Biased::Biased`. -/
def Biased.ctor (powell : Powell) (models : ℕ → Predictor) (n nin : ℕ) (tset : List ℚ)
    (nmods : ℕ) : Biased :=
  (Biased.run powell models n nin tset nmods).self

/-- The private data of `class Unconstrained` that `numeric_predict` reads.
The `LinReg` object that computes `coefs` is outside the source. -/
structure Unconstrained where
  nmodels : ℕ
  coefs : List ℚ
deriving DecidableEq, Repr

/-! ## The `numeric_predict` methods of the linear combiners -/

/-- The method `Unconstrained::numeric_predict ( input , output )`; the result
is the final `*output`. -/
def Unconstrained.numeric_predict (models : ℕ → Predictor) (self : Unconstrained)
    (input : List ℚ) : ℚ :=
  forLoop self.nmodels (fun imodel output =>
    let out := models imodel input
    output + rd self.coefs imodel * out) (rd self.coefs self.nmodels)

/-- The method `Unbiased::numeric_predict ( input , output )`; the result is
the final `*output`. -/
def Unbiased.numeric_predict (models : ℕ → Predictor) (self : Unbiased)
    (input : List ℚ) : ℚ :=
  forLoop self.nmodels (fun imodel output =>
    let out := models imodel input
    output + rd self.coefs imodel * out) 0

/-- The method `Biased::numeric_predict ( input , output )`; the result is
the final `*output`. -/
def Biased.numeric_predict (models : ℕ → Predictor) (self : Biased)
    (input : List ℚ) : ℚ :=
  forLoop self.nmodels (fun imodel output =>
    let out := models imodel input
    output + rd self.coefs imodel * out) (rd self.coefs self.nmodels)

/-- The method `Weighted::numeric_predict ( input , output )`; the result is
the final `*output`. -/
def Weighted.numeric_predict (models : ℕ → Predictor) (self : Weighted)
    (input : List ℚ) : ℚ :=
  forLoop self.nmodels (fun imodel output =>
    let out := models imodel input
    output + rd self.coefs imodel * out) 0

/-! ## A call of `numeric_predict` as a step on the object

The methods are not `const`.  A call is run here on the memory its body can
reach: the object, through `this`, and the cell `*output`; `input` and
`*output` lie outside the object.  Each pass of the loop reads the members
from the object as the pass finds it and hands on the object as the pass
leaves it.  The result of a step is the object after the call together with
the value left in `*output`. -/

/-- One call `average->numeric_predict ( input , &out )`. -/
def Average.numeric_predict_step (models : ℕ → Predictor) (self : Average)
    (input : List ℚ) : Average × Option ℚ :=
  let s := forLoop self.nmodels (fun imodel (s : Average × ℚ) =>
    let outwork := models imodel input
    (s.1, s.2 + outwork)) (self, 0)
  (s.1, fdiv s.2 (s.1.nmodels : ℚ))

/-- One call `unbiased->numeric_predict ( input , &out )`. -/
def Unbiased.numeric_predict_step (models : ℕ → Predictor) (self : Unbiased)
    (input : List ℚ) : Unbiased × ℚ :=
  forLoop self.nmodels (fun imodel (s : Unbiased × ℚ) =>
    let out := models imodel input
    (s.1, s.2 + rd s.1.coefs imodel * out)) (self, 0)

/-- One call `biased->numeric_predict ( input , &out )`. -/
def Biased.numeric_predict_step (models : ℕ → Predictor) (self : Biased)
    (input : List ℚ) : Biased × ℚ :=
  forLoop self.nmodels (fun imodel (s : Biased × ℚ) =>
    let out := models imodel input
    (s.1, s.2 + rd s.1.coefs imodel * out)) (self, rd self.coefs self.nmodels)

/-- One call `weighted->numeric_predict ( input , &out )`. -/
def Weighted.numeric_predict_step (models : ℕ → Predictor) (self : Weighted)
    (input : List ℚ) : Weighted × ℚ :=
  forLoop self.nmodels (fun imodel (s : Weighted × ℚ) =>
    let out := models imodel input
    (s.1, s.2 + rd s.1.coefs imodel * out)) (self, 0)

/-- The private data of `class GenReg`.  The `GRNN` object is outside the
source: it is known through `predict`, a deterministic function of the vector
it is pointed at. -/
structure GenReg where
  grnn : List ℚ → ℚ
  nmodels : ℕ
  work : List ℚ

/-- One call `genreg->numeric_predict ( input , &out )`: the loop stores each
model's output in the member `work`, which `grnn->predict` then reads. -/
def GenReg.numeric_predict_step (models : ℕ → Predictor) (self : GenReg)
    (input : List ℚ) : GenReg × ℚ :=
  let self := forLoop self.nmodels (fun imodel (self : GenReg) =>
    { self with work := wr self.work imodel (models imodel input) }) self
  (self, self.grnn self.work)

/-- The method `GenReg::numeric_predict ( input , output )`; the result is the
final `*output`. -/
def GenReg.numeric_predict (models : ℕ → Predictor) (self : GenReg)
    (input : List ℚ) : ℚ :=
  (GenReg.numeric_predict_step models self input).2

/-! ## The two terms of the criteria -/

/-- The test `(nsamps <= 0) || (nmodels <= 0) || (ntries <= 0) || (var < 0.0)`
of `main`: when it holds, `main` prints the usage line and exits before any
model or combiner is built. -/
def main_rejects (nsamps nmodels ntries : ℤ) (var : ℚ) : Bool :=
  decide (nsamps ≤ 0) || decide (nmodels ≤ 0) || decide (ntries ≤ 0) || decide (var < 0)

/-! ## Bilinear (`BILINEAR.CPP`)

The sizes and the indices are C `int`s and are integers here.  The divisors
of `evaluate` are differences of table coordinates, which nothing in the code
guards: these divisions are `fdiv`, and `evaluate` has no value (`none`) when
one of them has a zero divisor. -/

/-- Read `p[k]` for an `int` index `k`; a cell outside the array reads 0. -/
def rdz (p : List ℚ) (k : ℤ) : ℚ := if 0 ≤ k then rd p k.toNat else 0

/-- The private data of `class Bilinear`. -/
structure Bilinear where
  quadratic : ℤ
  nx : ℤ
  ny : ℤ
  x : List ℚ
  y : List ℚ
  z : List ℚ
deriving DecidableEq, Repr

/-- The constructor `Bilinear::Bilinear ( nxin , xin , nyin , yin , zin ,
extra )`: the sizes, and copies of the first `nx`, `ny` and `nx * ny` cells. -/
def Bilinear.ctor (nxin : ℤ) (xin : List ℚ) (nyin : ℤ) (yin : List ℚ) (zin : List ℚ)
    (extra : ℤ) : Bilinear :=
  { quadratic := extra, nx := nxin, ny := nyin,
    x := xin.take nxin.toNat, y := yin.take nyin.toNat,
    z := zin.take (nxin * nyin).toNat }

/-- The part "Bound outlying inputs" of `Bilinear::evaluate` for one
coordinate: `p` is `x` or `y`, `n` is `nx` or `ny`. -/
def Bilinear.bound (p : List ℚ) (n : ℤ) (pt : ℚ) : ℚ :=
  let pt := if pt < rdz p 0 then rdz p 0 else pt
  let pt := if pt > rdz p (n - 1) then rdz p (n - 1) else pt
  pt

/-- The loop `while (khi > klo+1)` of `Bilinear::evaluate` for one coordinate,
from the current `klo` and `khi`; the result is the final `(klo, khi)`. -/
def Bilinear.search (p : List ℚ) (pt : ℚ) (klo khi : ℤ) : ℤ × ℤ :=
  if khi > klo + 1 then
    let k := Int.tdiv (khi + klo) 2
    if pt < rdz p k then Bilinear.search p pt klo k
    else Bilinear.search p pt k khi
  else (klo, khi)
termination_by (khi - klo).toNat
decreasing_by
  all_goals simp_wf
  · rename_i h _
    rcases le_or_lt 0 (khi + klo) with h0 | h0
    · rw [Int.tdiv_eq_ediv h0 (by norm_num)]
      omega
    · have hneg : khi + klo = -(-(khi + klo)) := by ring
      rw [hneg, Int.neg_tdiv, Int.tdiv_eq_ediv (by omega) (by norm_num)]
      omega
  · rename_i h _
    rcases le_or_lt 0 (khi + klo) with h0 | h0
    · rw [Int.tdiv_eq_ediv h0 (by norm_num)]
      omega
    · have hneg : khi + klo = -(-(khi + klo)) := by ring
      rw [hneg, Int.neg_tdiv, Int.tdiv_eq_ediv (by omega) (by norm_num)]
      omega

/-- The part "Choose which way to go for the third point" of
`Bilinear::evaluate` for one coordinate; the result is `(klo, kmid, khi)`. -/
def Bilinear.third (p : List ℚ) (n : ℤ) (pt : ℚ) (klo khi : ℤ) : ℤ × ℤ × ℤ :=
  if klo = 0 then (klo, khi, khi + 1)
  else if khi = n - 1 then (klo - 1, klo, khi)
  else if pt - rdz p klo < rdz p khi - pt then (klo - 1, klo, khi)
  else (klo, khi, khi + 1)

/-- The three coefficients `(clo, cmid, chi)` of the quadratic interpolation
along one coordinate. -/
def Bilinear.coefs3 (p : List ℚ) (pt : ℚ) (klo kmid khi : ℤ) : Option (ℚ × ℚ × ℚ) := do
  let dlo := pt - rdz p klo
  let dmid := pt - rdz p kmid
  let dhi := pt - rdz p khi
  let lo_mid := rdz p klo - rdz p kmid
  let lo_hi := rdz p klo - rdz p khi
  let mid_hi := rdz p kmid - rdz p khi
  let clo ← fdiv (dmid * dhi) (lo_mid * lo_hi)
  let cmid ← fdiv (dlo * dhi) ((-lo_mid) * mid_hi)
  let chi ← fdiv (dlo * dmid) (lo_hi * mid_hi)
  pure (clo, cmid, chi)

/-- The computation of `Bilinear::evaluate` after the inputs are bounded. -/
def Bilinear.interpolate (self : Bilinear) (xpt ypt : ℚ) : Option ℚ :=
  let kx := Bilinear.search self.x xpt 0 (self.nx - 1)
  let ky := Bilinear.search self.y ypt 0 (self.ny - 1)
  if self.quadratic ≠ 0 then do
    let kx3 := Bilinear.third self.x self.nx xpt kx.1 kx.2
    let ky3 := Bilinear.third self.y self.ny ypt ky.1 ky.2
    let kxlo := kx3.1
    let kxmid := kx3.2.1
    let kxhi := kx3.2.2
    let kylo := ky3.1
    let kymid := ky3.2.1
    let kyhi := ky3.2.2
    let cx ← Bilinear.coefs3 self.x xpt kxlo kxmid kxhi
    let clo := cx.1
    let cmid := cx.2.1
    let chi := cx.2.2
    let zlo := clo * rdz self.z (kxlo * self.ny + kylo)
      + cmid * rdz self.z (kxmid * self.ny + kylo) + chi * rdz self.z (kxhi * self.ny + kylo)
    let zmid := clo * rdz self.z (kxlo * self.ny + kymid)
      + cmid * rdz self.z (kxmid * self.ny + kymid) + chi * rdz self.z (kxhi * self.ny + kymid)
    let zhi := clo * rdz self.z (kxlo * self.ny + kyhi)
      + cmid * rdz self.z (kxmid * self.ny + kyhi) + chi * rdz self.z (kxhi * self.ny + kyhi)
    let cy ← Bilinear.coefs3 self.y ypt kylo kymid kyhi
    let clo := cy.1
    let cmid := cy.2.1
    let chi := cy.2.2
    pure (clo * zlo + cmid * zmid + chi * zhi)
  else do
    let kxlo := kx.1
    let kxhi := kx.2
    let kylo := ky.1
    let kyhi := ky.2
    let t ← fdiv (xpt - rdz self.x kxlo) (rdz self.x kxhi - rdz self.x kxlo)
    let u ← fdiv (ypt - rdz self.y kylo) (rdz self.y kyhi - rdz self.y kylo)
    let val := (1 - t) * (1 - u) * rdz self.z (kxlo * self.ny + kylo)
    let val := val + t * (1 - u) * rdz self.z (kxhi * self.ny + kylo)
    let val := val + t * u * rdz self.z (kxhi * self.ny + kyhi)
    let val := val + (1 - t) * u * rdz self.z (kxlo * self.ny + kyhi)
    pure val

/-- The method `Bilinear::evaluate ( xpt , ypt )`. -/
def Bilinear.evaluate (self : Bilinear) (xpt ypt : ℚ) : Option ℚ :=
  let xpt := Bilinear.bound self.x self.nx xpt
  let ypt := Bilinear.bound self.y self.ny ypt
  Bilinear.interpolate self xpt ypt

/-! ## The binary64 reading of the arithmetic

The statements of this development are about the exact arithmetic of the
expressions the code evaluates.  To show where the rounding, the overflow or
the underflow of a C `double` changes a result, the same source lines are
read a second time over `F64`, a model of IEEE 754 binary64 with
round-to-nearest-even.  A finite double is the rational it stands for; every
operation computes the exact result and rounds it with `round64`.  The sign of
a zero is not kept: no result below depends on it. -/

/-- The floor of the binary logarithm of `n` (0 for `n < 2`); `fuel` bounds the
number of halvings and `n` itself is enough. -/
def log2Nat : ℕ → ℕ → ℕ
  | 0, _ => 0
  | fuel + 1, n => if n < 2 then 0 else log2Nat fuel (n / 2) + 1

/-- The power `2 ^ e` for an integer exponent. -/
def pow2 (e : ℤ) : ℚ :=
  if 0 ≤ e then ((2 ^ e.toNat : ℕ) : ℚ) else 1 / ((2 ^ (-e).toNat : ℕ) : ℚ)

/-- The binary exponent of a positive rational `a`: the `e` with
`2 ^ e ≤ a < 2 ^ (e + 1)`. -/
def expOf (a : ℚ) : ℤ :=
  let k : ℤ := (log2Nat a.num.natAbs a.num.natAbs : ℤ) - (log2Nat a.den a.den : ℤ)
  if pow2 k ≤ a then k else k - 1

/-- The integer nearest to `t`, a tie going to the even one. -/
def roundEven (t : ℚ) : ℤ :=
  let f := ⌊t⌋
  let r := t - (f : ℚ)
  if r < 1 / 2 then f else if 1 / 2 < r then f + 1 else if f % 2 = 0 then f else f + 1

/-- A binary64 value: a finite number, an infinity with its sign, or a NaN. -/
inductive F64 where
  | fin (q : ℚ)
  | inf (neg : Bool)
  | nan
deriving DecidableEq, Repr

/-- The multiple of the binary64 spacing at `q` nearest to `q`: 53 significant
bits, and the spacing `2 ^ (-1074)` of the subnormal range below `2 ^ (-1022)`.
The range of the exponent above is not looked at. -/
def nearest64 (q : ℚ) : ℚ :=
  if q = 0 then 0
  else
    let a := |q|
    let e := max (expOf a) (-1022)
    let quantum := pow2 (e - 52)
    let r := ((roundEven (a / quantum) : ℤ) : ℚ) * quantum
    if q < 0 then -r else r

/-- Rounding of an exact result to binary64: round to nearest, ties to even;
a magnitude that rounds to `2 ^ 1024` or more is an infinity. -/
def round64 (q : ℚ) : F64 :=
  let r := nearest64 q
  if pow2 1024 ≤ |r| then F64.inf (decide (q < 0)) else F64.fin r

/-- Addition of two doubles. -/
def F64.add : F64 → F64 → F64
  | .fin a, .fin b => round64 (a + b)
  | .fin _, .inf s => .inf s
  | .inf s, .fin _ => .inf s
  | .inf s, .inf t => if s = t then .inf s else .nan
  | _, _ => .nan

/-- Negation of a double. -/
def F64.neg : F64 → F64
  | .fin a => .fin (-a)
  | .inf s => .inf (!s)
  | .nan => .nan

/-- Multiplication of two doubles. -/
def F64.mul : F64 → F64 → F64
  | .fin a, .fin b => round64 (a * b)
  | .fin a, .inf s => if a = 0 then .nan else .inf (xor s (decide (a < 0)))
  | .inf s, .fin a => if a = 0 then .nan else .inf (xor s (decide (a < 0)))
  | .inf s, .inf t => .inf (xor s t)
  | _, _ => .nan

/-- Division of two doubles. -/
def F64.div : F64 → F64 → F64
  | .fin a, .fin b =>
    if b = 0 then (if a = 0 then .nan else .inf (decide (a < 0))) else round64 (a / b)
  | .fin _, .inf _ => .fin 0
  | .inf s, .fin b => .inf (xor s (decide (b < 0)))
  | _, _ => .nan

/-- The comparison `a < b` of two doubles; false when one is a NaN. -/
def F64.lt : F64 → F64 → Bool
  | .fin a, .fin b => decide (a < b)
  | .fin _, .inf t => !t
  | .inf s, .fin _ => s
  | .inf s, .inf t => s && !t
  | _, _ => false

/-- The comparison `a <= b` of two doubles; false when one is a NaN. -/
def F64.le : F64 → F64 → Bool
  | .fin a, .fin b => decide (a ≤ b)
  | .fin _, .inf t => !t
  | .inf s, .fin _ => s
  | .inf s, .inf t => s || !t
  | _, _ => false

instance : Add F64 := ⟨F64.add⟩

instance : Neg F64 := ⟨F64.neg⟩

instance : Sub F64 := ⟨fun a b => F64.add a (F64.neg b)⟩

instance : Mul F64 := ⟨F64.mul⟩

instance : Div F64 := ⟨F64.div⟩

/-- A decimal constant of the source, rounded as the compiler rounds it. -/
instance : OfScientific F64 := ⟨fun m s e => round64 (OfScientific.ofScientific m s e)⟩

/-- An integer constant or an `int` converted to `double`. -/
instance (n : ℕ) : OfNat F64 n := ⟨round64 (n : ℚ)⟩

/-- Read `p[i]` in an array of doubles. -/
def rd64 (p : List F64) (i : ℕ) : F64 := p.getD i (F64.fin 0)

/-- Write `p[i] = v` in an array of doubles. -/
def wr64 (p : List F64) (i : ℕ) (v : F64) : List F64 := p.set i v

/-- Read `p[k]` for an `int` index `k` in an array of doubles. -/
def rdz64 (p : List F64) (k : ℤ) : F64 := if 0 ≤ k then rd64 p k.toNat else F64.fin 0

/-- Allocation of `k` doubles. -/
def malloc64 (k : ℕ) : List F64 := List.replicate k (F64.fin 0)

/-- A trained model on doubles. -/
abbrev Predictor64 := List F64 → F64

/-! ### Weighted on doubles -/

/-- The private data of `class Weighted`, on doubles. -/
structure Weighted64 where
  nmodels : ℕ
  coefs : List F64
deriving DecidableEq, Repr

/-- First loop of `Weighted::Weighted`, on doubles. -/
def Weighted.init64 (nmodels : ℕ) (coefs : List F64) : List F64 :=
  forLoop nmodels (fun i coefs => wr64 coefs i 1e-60) coefs

/-- Second loop of `Weighted::Weighted`, on doubles. -/
def Weighted.cumulate64 (models : ℕ → Predictor64) (n nin : ℕ) (tset : List F64)
    (nmodels : ℕ) (coefs : List F64) : List F64 :=
  forLoop n (fun i coefs =>
    let tptr := tset.drop (i * (nin + 1))
    forLoop nmodels (fun imodel coefs =>
      let out := models imodel tptr
      let diff := out - rd64 tptr nin
      wr64 coefs imodel (rd64 coefs imodel + diff * diff)) coefs) coefs

/-- Third loop of `Weighted::Weighted`, on doubles.  The state is
`(coefs, sum)`. -/
def Weighted.recip64 (nmodels : ℕ) (coefs : List F64) : List F64 × F64 :=
  forLoop nmodels (fun imodel (s : List F64 × F64) =>
    let coefs := wr64 s.1 imodel (1 / rd64 s.1 imodel)
    let sum := s.2 + rd64 coefs imodel
    (coefs, sum)) (coefs, 0)

/-- Fourth loop of `Weighted::Weighted`, on doubles. -/
def Weighted.normalize64 (nmodels : ℕ) (coefs : List F64) (sum : F64) : List F64 :=
  forLoop nmodels (fun imodel coefs => wr64 coefs imodel (rd64 coefs imodel / sum)) coefs

/-- The constructor `Weighted::Weighted ( n , nin , tset , nmods )`, on
doubles. -/
def Weighted.ctor64 (models : ℕ → Predictor64) (n nin : ℕ) (tset : List F64) (nmods : ℕ) :
    Weighted64 :=
  let nmodels := nmods
  let coefs := malloc64 nmodels
  let coefs := Weighted.init64 nmodels coefs
  let coefs := Weighted.cumulate64 models n nin tset nmodels coefs
  let s := Weighted.recip64 nmodels coefs
  let coefs := Weighted.normalize64 nmodels s.1 s.2
  { nmodels := nmodels, coefs := coefs }

/-- The sum over the `n` training cases of the squared error of model `k`,
cumulated on doubles from 0. -/
def sqErr64 (models : ℕ → Predictor64) (n nin : ℕ) (tset : List F64) (k : ℕ) : F64 :=
  forLoop n (fun i acc =>
    let tptr := tset.drop (i * (nin + 1))
    let diff := models k tptr - rd64 tptr nin
    acc + diff * diff) 0

/-! ### Unbiased and the two criteria on doubles -/

/-- The statics of `unbiased_crit`, on doubles. -/
structure UnbiasedStatics64 where
  unbiased_ncases : ℕ
  unbiased_nvars : ℕ
  unbiased_x : List F64
  unbiased_y : List F64
  unbiased_work : List F64
deriving DecidableEq, Repr

/-- The function `unbiased_crit ( wts )`, on doubles. -/
def unbiased_crit64 (st : UnbiasedStatics64) (wts : List F64) : F64 :=
  let sum := forLoop st.unbiased_nvars (fun j sum => sum + rd64 wts j) 0
  let sum := if F64.lt sum 1e-60 then 1e-60 else sum
  let work := forLoop st.unbiased_nvars (fun j work => wr64 work j (rd64 wts j / sum))
    st.unbiased_work
  let err := forLoop st.unbiased_ncases (fun i err =>
    let xptr := st.unbiased_x.drop (i * st.unbiased_nvars)
    let pred := forLoop st.unbiased_nvars (fun j pred => pred + rd64 xptr j * rd64 work j) 0
    let diff := pred - rd64 st.unbiased_y i
    err + diff * diff) 0
  let penalty := forLoop st.unbiased_nvars (fun j penalty =>
    if F64.lt (rd64 wts j) 0 then penalty - 1e30 * rd64 wts j else penalty) 0
  err + penalty

/-- The private data of `class Unbiased`, on doubles. -/
structure Unbiased64 where
  nmodels : ℕ
  coefs : List F64
deriving DecidableEq, Repr

/-- The last part of `Unbiased::Unbiased`, on doubles: the weights the
optimizer left in `coefs` are divided by their sum, floored at `1.e-60`. -/
def Unbiased.normalize64 (nmodels : ℕ) (coefs : List F64) : List F64 :=
  let sum := forLoop nmodels (fun i sum => sum + rd64 coefs i) 0
  let sum := if F64.lt sum 1e-60 then 1e-60 else sum
  forLoop nmodels (fun i coefs => wr64 coefs i (rd64 coefs i / sum)) coefs

/-- The loop that fills the design data in `Unbiased::Unbiased`, on doubles.
The state is `(cases, outs)`. -/
def buildDesign64 (models : ℕ → Predictor64) (n nin : ℕ) (tset : List F64) (nmodels : ℕ)
    (cases outs : List F64) : List F64 × List F64 :=
  forLoop n (fun i (s : List F64 × List F64) =>
    let tptr := tset.drop (i * (nin + 1))
    let cases := forLoop nmodels (fun imodel cases =>
      wr64 cases (i * nmodels + imodel) (models imodel tptr)) s.1
    let outs := wr64 s.2 i (rd64 tptr nin)
    (cases, outs)) (cases, outs)

/-- The arguments of one call of `powell`, on doubles. -/
structure PowellCall64 where
  maxits : ℕ
  critlim : F64
  tol : F64
  criter : List F64 → F64
  n : ℕ
  x : List F64
  ystart : F64

/-- The external optimizer on doubles: from the arguments of a call, the value
it returns and the content it leaves in `x`. -/
abbrev Powell64 := PowellCall64 → F64 × List F64

/-- The statics as `Unbiased::Unbiased` sets them before optimizing, on
doubles. -/
def Unbiased.statics64 (models : ℕ → Predictor64) (n nin : ℕ) (tset : List F64)
    (nmods : ℕ) : UnbiasedStatics64 :=
  let nmodels := nmods
  let cases := malloc64 (n * nmodels)
  let outs := malloc64 n
  let unbiased_work := malloc64 nmodels
  let d := buildDesign64 models n nin tset nmodels cases outs
  { unbiased_ncases := n, unbiased_nvars := nmodels, unbiased_x := d.1, unbiased_y := d.2,
    unbiased_work := unbiased_work }

/-- The starting point `coefs[i] = 1.0 / nmodels`, on doubles; the `int` is
converted to a double. -/
def Unbiased.start64 (nmodels : ℕ) (coefs : List F64) : List F64 :=
  forLoop nmodels (fun i coefs => wr64 coefs i (1 / round64 (nmodels : ℚ))) coefs

/-- The call to `powell` made by `Unbiased::Unbiased`, on doubles. -/
def Unbiased.call64 (models : ℕ → Predictor64) (n nin : ℕ) (tset : List F64) (nmods : ℕ) :
    PowellCall64 :=
  let nmodels := nmods
  let st := Unbiased.statics64 models n nin tset nmods
  let coefs := Unbiased.start64 nmodels (malloc64 nmodels)
  let ystart := unbiased_crit64 st coefs
  { maxits := 20, critlim := 0, tol := 1e-6, criter := unbiased_crit64 st, n := nmodels,
    x := coefs, ystart := ystart }

/-- The constructor `Unbiased::Unbiased ( n , nin , tset , nmods )`, on
doubles. -/
def Unbiased.ctor64 (powell : Powell64) (models : ℕ → Predictor64) (n nin : ℕ)
    (tset : List F64) (nmods : ℕ) : Unbiased64 :=
  let nmodels := nmods
  let call := Unbiased.call64 models n nin tset nmods
  let r := powell call
  let coefs := r.2
  let coefs := Unbiased.normalize64 nmodels coefs
  { nmodels := nmodels, coefs := coefs }

/-- The method `Unbiased::numeric_predict ( input , output )`, on doubles. -/
def Unbiased.numeric_predict64 (models : ℕ → Predictor64) (self : Unbiased64)
    (input : List F64) : F64 :=
  forLoop self.nmodels (fun imodel output =>
    let out := models imodel input
    output + rd64 self.coefs imodel * out) 0

/-! ### Bilinear on doubles -/

/-- The private data of `class Bilinear`, on doubles. -/
structure Bilinear64 where
  quadratic : ℤ
  nx : ℤ
  ny : ℤ
  x : List F64
  y : List F64
  z : List F64
deriving DecidableEq, Repr

/-- The part "Bound outlying inputs" of `Bilinear::evaluate` for one
coordinate, on doubles. -/
def Bilinear.bound64 (p : List F64) (n : ℤ) (pt : F64) : F64 :=
  let pt := if F64.lt pt (rdz64 p 0) then rdz64 p 0 else pt
  let pt := if F64.lt (rdz64 p (n - 1)) pt then rdz64 p (n - 1) else pt
  pt

/-- The loop `while (khi > klo+1)` of `Bilinear::evaluate` for one coordinate,
on doubles. -/
def Bilinear.search64 (p : List F64) (pt : F64) (klo khi : ℤ) : ℤ × ℤ :=
  if khi > klo + 1 then
    let k := Int.tdiv (khi + klo) 2
    if F64.lt pt (rdz64 p k) then Bilinear.search64 p pt klo k
    else Bilinear.search64 p pt k khi
  else (klo, khi)
termination_by (khi - klo).toNat
decreasing_by
  all_goals simp_wf
  · rename_i h _
    rcases le_or_lt 0 (khi + klo) with h0 | h0
    · rw [Int.tdiv_eq_ediv h0 (by norm_num)]
      omega
    · have hneg : khi + klo = -(-(khi + klo)) := by ring
      rw [hneg, Int.neg_tdiv, Int.tdiv_eq_ediv (by omega) (by norm_num)]
      omega
  · rename_i h _
    rcases le_or_lt 0 (khi + klo) with h0 | h0
    · rw [Int.tdiv_eq_ediv h0 (by norm_num)]
      omega
    · have hneg : khi + klo = -(-(khi + klo)) := by ring
      rw [hneg, Int.neg_tdiv, Int.tdiv_eq_ediv (by omega) (by norm_num)]
      omega

/-- The part "Choose which way to go for the third point" of
`Bilinear::evaluate` for one coordinate, on doubles. -/
def Bilinear.third64 (p : List F64) (n : ℤ) (pt : F64) (klo khi : ℤ) : ℤ × ℤ × ℤ :=
  if klo = 0 then (klo, khi, khi + 1)
  else if khi = n - 1 then (klo - 1, klo, khi)
  else if F64.lt (pt - rdz64 p klo) (rdz64 p khi - pt) then (klo - 1, klo, khi)
  else (klo, khi, khi + 1)

/-- The three divisors `lo_mid * lo_hi`, `-lo_mid * mid_hi` and
`lo_hi * mid_hi` of the quadratic interpolation along one coordinate, on
doubles. -/
def Bilinear.denoms64 (p : List F64) (klo kmid khi : ℤ) : F64 × F64 × F64 :=
  let lo_mid := rdz64 p klo - rdz64 p kmid
  let lo_hi := rdz64 p klo - rdz64 p khi
  let mid_hi := rdz64 p kmid - rdz64 p khi
  (lo_mid * lo_hi, (-lo_mid) * mid_hi, lo_hi * mid_hi)

/-- The three coefficients `(clo, cmid, chi)` of the quadratic interpolation
along one coordinate, on doubles. -/
def Bilinear.coefs64 (p : List F64) (pt : F64) (klo kmid khi : ℤ) : F64 × F64 × F64 :=
  let dlo := pt - rdz64 p klo
  let dmid := pt - rdz64 p kmid
  let dhi := pt - rdz64 p khi
  let d := Bilinear.denoms64 p klo kmid khi
  (dmid * dhi / d.1, dlo * dhi / d.2.1, dlo * dmid / d.2.2)

/-- The computation of `Bilinear::evaluate` after the inputs are bounded, from
the two brackets `kx` and `ky` the searches end with, on doubles. -/
def Bilinear.combine64 (self : Bilinear64) (xpt ypt : F64) (kx ky : ℤ × ℤ) : F64 :=
  if self.quadratic ≠ 0 then
    let kx3 := Bilinear.third64 self.x self.nx xpt kx.1 kx.2
    let ky3 := Bilinear.third64 self.y self.ny ypt ky.1 ky.2
    let kxlo := kx3.1
    let kxmid := kx3.2.1
    let kxhi := kx3.2.2
    let kylo := ky3.1
    let kymid := ky3.2.1
    let kyhi := ky3.2.2
    let cx := Bilinear.coefs64 self.x xpt kxlo kxmid kxhi
    let clo := cx.1
    let cmid := cx.2.1
    let chi := cx.2.2
    let zlo := clo * rdz64 self.z (kxlo * self.ny + kylo)
      + cmid * rdz64 self.z (kxmid * self.ny + kylo)
      + chi * rdz64 self.z (kxhi * self.ny + kylo)
    let zmid := clo * rdz64 self.z (kxlo * self.ny + kymid)
      + cmid * rdz64 self.z (kxmid * self.ny + kymid)
      + chi * rdz64 self.z (kxhi * self.ny + kymid)
    let zhi := clo * rdz64 self.z (kxlo * self.ny + kyhi)
      + cmid * rdz64 self.z (kxmid * self.ny + kyhi)
      + chi * rdz64 self.z (kxhi * self.ny + kyhi)
    let cy := Bilinear.coefs64 self.y ypt kylo kymid kyhi
    let clo := cy.1
    let cmid := cy.2.1
    let chi := cy.2.2
    clo * zlo + cmid * zmid + chi * zhi
  else
    let kxlo := kx.1
    let kxhi := kx.2
    let kylo := ky.1
    let kyhi := ky.2
    let t := (xpt - rdz64 self.x kxlo) / (rdz64 self.x kxhi - rdz64 self.x kxlo)
    let u := (ypt - rdz64 self.y kylo) / (rdz64 self.y kyhi - rdz64 self.y kylo)
    let val := (1 - t) * (1 - u) * rdz64 self.z (kxlo * self.ny + kylo)
    let val := val + t * (1 - u) * rdz64 self.z (kxhi * self.ny + kylo)
    let val := val + t * u * rdz64 self.z (kxhi * self.ny + kyhi)
    let val := val + (1 - t) * u * rdz64 self.z (kxlo * self.ny + kyhi)
    val

/-- The method `Bilinear::evaluate ( xpt , ypt )`, on doubles. -/
def Bilinear.evaluate64 (self : Bilinear64) (xpt ypt : F64) : F64 :=
  let xpt := Bilinear.bound64 self.x self.nx xpt
  let ypt := Bilinear.bound64 self.y self.ny ypt
  let kx := Bilinear.search64 self.x xpt 0 (self.nx - 1)
  let ky := Bilinear.search64 self.y ypt 0 (self.ny - 1)
  Bilinear.combine64 self xpt ypt kx ky

/-! ## The bootstrap of bias and variance (`BOOT_P_3.CPP`)

`unifrand` is declared but not defined in the source.  Its successive results
are a stream `draws`, and the number of calls made so far is part of the state:
call number `pos` returns `draws pos`, the value of the double returned.  The
index of the selected case is the integer part of the product of the draw and
`n` as a double, that is, of the exact product rounded to binary64.  The estimator `user_t` is a function of
`n` and of the two arrays it is pointed at.  The divisions by `nboot` and by
`nboot - 1` are not guarded and are `fdiv`; a value that is not a number
propagates through the arithmetic that uses it. -/

/-- The cast `(int) v` of a double: truncation toward zero. -/
def castInt (v : ℚ) : ℤ := if 0 ≤ v then ⌊v⌋ else ⌈v⌉

/-- The case selected from a draw `u` of `unifrand`:
`k = (int) (u * n) ; if (k >= n) k = n - 1 ;`.  The draw is the value of the
double that `unifrand` returned; the product is a double, so it is the exact
product rounded to binary64 (a draw lies in `[0, 1]` and `n` is an `int`, so
the product is far below the overflow threshold), and the cast truncates the
rounded product. -/
def boot_pick (n : ℕ) (u : ℚ) : ℤ :=
  let k := castInt (nearest64 (u * (n : ℚ)))
  if k ≥ (n : ℤ) then (n : ℤ) - 1 else k

/-- The loop "Generate the bootstrap sample" of `boot_bias_var`.  The state
is `(xwork, ywork, pos)`. -/
def boot_sample (draws : ℕ → ℚ) (n : ℕ) (x y : List ℚ) (s : List ℚ × List ℚ × ℕ) :
    List ℚ × List ℚ × ℕ :=
  forLoop n (fun i (s : List ℚ × List ℚ × ℕ) =>
    let k := boot_pick n (draws s.2.2)
    (wr s.1 i (rdz x k), wr s.2.1 i (rdz y k), s.2.2 + 1)) s

/-- The variables of `boot_bias_var` that its first loop assigns, with the
number of calls of `unifrand` made so far. -/
structure BootState where
  xwork : List ℚ
  ywork : List ℚ
  work2 : List ℚ
  mean : ℚ
  pos : ℕ
deriving DecidableEq, Repr

/-- The loop "Do all bootstrap reps" of `boot_bias_var`. -/
def boot_reps (draws : ℕ → ℚ) (n : ℕ) (x y : List ℚ) (user_t : ℕ → List ℚ → List ℚ → ℚ)
    (nboot : ℕ) (s : BootState) : BootState :=
  forLoop nboot (fun rep (s : BootState) =>
    let smp := boot_sample draws n x y (s.xwork, s.ywork, s.pos)
    let stat := user_t n smp.1 smp.2.1
    { xwork := smp.1, ywork := smp.2.1, work2 := wr s.work2 rep stat,
      mean := s.mean + stat, pos := smp.2.2 }) s

/-- The loop "Cumulate variance" of `boot_bias_var`; `mean` is the result of
the division by `nboot`. -/
def boot_variance (nboot : ℕ) (work2 : List ℚ) (mean : Option ℚ) : Option ℚ :=
  forLoop nboot (fun rep (variance : Option ℚ) => do
    let v ← variance
    let mu ← mean
    let diff := rd work2 rep - mu
    pure (v + diff * diff)) (some 0)

/-- The outputs of `boot_bias_var`. -/
structure BootOut where
  rawstat : ℚ
  bias : Option ℚ
  var : Option ℚ
deriving DecidableEq, Repr

/-- The function `boot_bias_var ( n , x , y , user_t , nboot , rawstat , bias ,
var , xwork , ywork , work2 )`, called when `unifrand` has been called `pos`
times. -/
def boot_bias_var (draws : ℕ → ℚ) (pos : ℕ) (n : ℕ) (x y : List ℚ)
    (user_t : ℕ → List ℚ → List ℚ → ℚ) (nboot : ℕ) (xwork ywork work2 : List ℚ) :
    BootOut :=
  let s := boot_reps draws n x y user_t nboot
    { xwork := xwork, ywork := ywork, work2 := work2, mean := 0, pos := pos }
  let mean := fdiv s.mean (nboot : ℚ)
  let variance := boot_variance nboot s.work2 mean
  let stat := user_t n x y
  { rawstat := stat,
    bias := mean.map (fun mu => mu - stat),
    var := variance.bind (fun v => fdiv v ((nboot : ℚ) - 1)) }

/-- The sum of the first `n` cells of `p`, cumulated on doubles from 0. -/
def sum64 (n : ℕ) (p : List F64) : F64 := forLoop n (fun i s => s + rd64 p i) 0

/-- The triple `(klo, kmid, khi)` that `Bilinear::evaluate` uses in quadratic
mode for the bounded input `pt` along one coordinate, on doubles. -/
def Bilinear.triple64 (p : List F64) (n : ℤ) (pt : F64) : ℤ × ℤ × ℤ :=
  Bilinear.third64 p n pt (Bilinear.search64 p pt 0 (n - 1)).1
    (Bilinear.search64 p pt 0 (n - 1)).2

/-! ## Quantities the statements are written with -/

/-- The training-set sum of squared errors of model `k`: over the `n` cases,
stored flat with stride `nin + 1`, the square of the model's output minus the
true value stored after the `nin` inputs. -/
def sqErr (models : ℕ → Predictor) (n nin : ℕ) (tset : List ℚ) (k : ℕ) : ℚ :=
  ∑ i in Finset.range n,
    (models k (tset.drop (i * (nin + 1))) - rd (tset.drop (i * (nin + 1))) nin) ^ 2

/-- The error accumulator of model `k`: `1e-60` plus its sum of squared errors. -/
def errAcc (models : ℕ → Predictor) (n nin : ℕ) (tset : List ℚ) (k : ℕ) : ℚ :=
  tiny + sqErr models n nin tset k

/-- Case `i` of a training set stored flat with stride `nin + 1`: its `nin`
inputs followed by its true value. -/
def caseAt (tset : List ℚ) (nin i : ℕ) : List ℚ :=
  (tset.drop (i * (nin + 1))).take (nin + 1)

/-- The bootstrap sample of one variable for the replicate whose first draw is
call number `p` of `unifrand`: cell `i` is the cell of `x` selected by draw
`p + i`. -/
def bootSample (draws : ℕ → ℚ) (n : ℕ) (x : List ℚ) (p : ℕ) : List ℚ :=
  (List.range n).map (fun i => rdz x (boot_pick n (draws (p + i))))

/-- The statistic of bootstrap replicate `r`: the estimator on the `n` cases
that the draws of this replicate select. -/
def bootStat (draws : ℕ → ℚ) (pos n : ℕ) (x y : List ℚ)
    (user_t : ℕ → List ℚ → List ℚ → ℚ) (r : ℕ) : ℚ :=
  user_t n (bootSample draws n x (pos + r * n)) (bootSample draws n y (pos + r * n))

/-- The mean of the `nboot` replicate statistics. -/
def bootMean (draws : ℕ → ℚ) (pos n : ℕ) (x y : List ℚ)
    (user_t : ℕ → List ℚ → List ℚ → ℚ) (nboot : ℕ) : ℚ :=
  (∑ r in Finset.range nboot, bootStat draws pos n x y user_t r) / (nboot : ℚ)

/-- The coefficient `clo` of the quadratic interpolation at `pt` on the three
coordinates `xl`, `xm`, `xh`. -/
def quadLo (xl xm xh pt : ℚ) : ℚ := (pt - xm) * (pt - xh) / ((xl - xm) * (xl - xh))

/-- The coefficient `cmid` of the quadratic interpolation. -/
def quadMid (xl xm xh pt : ℚ) : ℚ := (pt - xl) * (pt - xh) / ((-(xl - xm)) * (xm - xh))

/-- The coefficient `chi` of the quadratic interpolation. -/
def quadHi (xl xm xh pt : ℚ) : ℚ := (pt - xl) * (pt - xm) / ((xl - xh) * (xm - xh))

/-- A function `a + b*x + c*y + d*x*y`. -/
def bilinFun (a b c d x y : ℚ) : ℚ := a + b * x + c * y + d * x * y

/-- A polynomial of degree at most 2 in `x` and at most 2 in `y`, with
coefficient `c p q` for `x^p * y^q`. -/
def biquadFun (c : ℕ → ℕ → ℚ) (x y : ℚ) : ℚ :=
  ∑ p in Finset.range 3, ∑ q in Finset.range 3, c p q * x ^ p * y ^ q

/-- The pair `(klo, khi)` that the binary search of `Bilinear::evaluate` reaches
for the bounded input `pt` along one coordinate. -/
def Bilinear.bracket (p : List ℚ) (n : ℤ) (pt : ℚ) : ℤ × ℤ :=
  Bilinear.search p pt 0 (n - 1)

/-- The triple `(klo, kmid, khi)` that `Bilinear::evaluate` uses in quadratic
mode for the bounded input `pt` along one coordinate. -/
def Bilinear.triple (p : List ℚ) (n : ℤ) (pt : ℚ) : ℤ × ℤ × ℤ :=
  Bilinear.third p n pt (Bilinear.bracket p n pt).1 (Bilinear.bracket p n pt).2

/-! ## Fixtures for the concrete instances -/

/-- Two models: the first always answers 2, every other one 4. -/
def twoConst : ℕ → Predictor := fun j _ => if j = 0 then 2 else 4

/-- Three models with constant outputs 3, 1 and 5. -/
def threeConst : ℕ → Predictor := fun j _ => if j = 0 then 3 else if j = 1 then 1 else 5

/-- Statics for a design of two cases by two models: rows `(1, 2)` and
`(3, 5)`, targets 2 and 4, and a two-cell work area. -/
def demoUnbiased : UnbiasedStatics :=
  { unbiased_ncases := 2, unbiased_nvars := 2, unbiased_x := [1, 2, 3, 5],
    unbiased_y := [2, 4], unbiased_work := [0, 0] }

/-- The same design for `biased_crit`. -/
def demoBiased : BiasedStatics :=
  { biased_ncases := 2, biased_nvars := 2, biased_x := [1, 2, 3, 5], biased_y := [2, 4] }

/-- An optimizer that leaves the point `w` in `x` and returns the criterion
there. -/
def returnsPoint (w : List ℚ) : Powell := fun c => (c.criter w, w)

/-- Like `twoConst` on the first two models, different from the third on. -/
def twoConstThen : ℕ → Predictor := fun j _ => if j = 0 then 2 else if j = 1 then 4 else 9

/-- Models that read their first input: model `j` answers `(j + 1) * input[0]`. -/
def linModels : ℕ → Predictor := fun j p => ((j : ℚ) + 1) * rd p 0

/-- An estimator: the sum of the products `x[i] * y[i]`. -/
def sumProducts : ℕ → List ℚ → List ℚ → ℚ :=
  fun n x y => forLoop n (fun i s => s + rd x i * rd y i) 0

/-- A stream of draws: 0, 0.1, ..., 0.9, 0, 0.1, ... -/
def tenths : ℕ → ℚ := fun k => ((k % 10 : ℕ) : ℚ) / 10

/-- A table of `x + 2 * y` on the nodes `x = 0, 1, 2` and `y = 0, 1, 3`, for
bilinear interpolation. -/
def gridTable : Bilinear :=
  { quadratic := 0, nx := 3, ny := 3, x := [0, 1, 2], y := [0, 1, 3],
    z := [0, 2, 6, 1, 3, 7, 2, 4, 8] }

/-- A table of `x^2 + y^2` on the nodes `x = 0, 1, 2, 4` and `y = 0, 1, 3`, for
quadratic interpolation. -/
def quadTable : Bilinear :=
  { quadratic := 1, nx := 4, ny := 3, x := [0, 1, 2, 4], y := [0, 1, 3],
    z := [0, 1, 9, 1, 2, 10, 4, 5, 13, 16, 17, 25] }

/-- The coefficients of `x^2 + y^2` as a polynomial of degree at most 2 in
each variable. -/
def squaresCoef : ℕ → ℕ → ℚ :=
  fun p q => if (p = 2 ∧ q = 0) ∨ (p = 0 ∧ q = 2) then 1 else 0

/-- Two models on doubles with constant outputs `2e-40` and `1e-40`. -/
def smallConst64 : ℕ → Predictor64 := fun j _ => if j = 0 then 2e-40 else 1e-40

/-- Three models on doubles with constant outputs 3, 1 and 5. -/
def threeConst64 : ℕ → Predictor64 := fun j _ => if j = 0 then 3 else if j = 1 then 1 else 5

/-- Two models on doubles with constant outputs `1e150` and 0. -/
def farConst64 : ℕ → Predictor64 := fun j _ => if j = 0 then 1e150 else 0

/-- Two models on doubles with constant outputs 2 and 4. -/
def twoConst64 : ℕ → Predictor64 := fun j _ => if j = 0 then 2 else 4

/-- An optimizer on doubles that leaves the point `w` in `x` and returns the
criterion there. -/
def returnsPoint64 (w : List F64) : Powell64 := fun c => (c.criter w, w)

/-- The statics of `demoUnbiased`, on doubles. -/
def demoUnbiased64 : UnbiasedStatics64 :=
  { unbiased_ncases := 2, unbiased_nvars := 2, unbiased_x := [1, 2, 3, 5],
    unbiased_y := [2, 4], unbiased_work := [0, 0] }

/-- A table on doubles for quadratic interpolation whose `x` nodes
`0 < 1e-200 < 2e-200` are so close that the product of two differences of
them is below the smallest double; the stored values are `1 + 3 * i + j`. -/
def closeTable : Bilinear64 :=
  { quadratic := 1, nx := 3, ny := 3, x := [0, 1e-200, 2e-200], y := [0, 1, 2],
    z := [1, 2, 3, 4, 5, 6, 7, 8, 9] }

/-- A table on doubles of the constant function 5 on the `x` nodes of
`closeTable`, for quadratic interpolation. -/
def flatTable : Bilinear64 :=
  { quadratic := 1, nx := 3, ny := 3, x := [0, 1e-200, 2e-200], y := [0, 1, 2],
    z := [5, 5, 5, 5, 5, 5, 5, 5, 5] }

/-- A table on doubles of the function `x` on the nodes `x = 0, 49` and
`y = 0, 1`, for bilinear interpolation. -/
def rampTable : Bilinear64 :=
  { quadratic := 0, nx := 2, ny := 2, x := [0, 49], y := [0, 1], z := [0, 0, 49, 49] }

/-! ## General facts about the primitives -/

theorem tiny_eq : tiny = 1 / 10 ^ 60 := by
  norm_num [tiny]

theorem tiny_pos : 0 < tiny := by
  rw [tiny_eq]; positivity

theorem forLoop_zero {σ : Type} (body : ℕ → σ → σ) (s : σ) :
    forLoop 0 body s = s := rfl

theorem forLoop_succ {σ : Type} (k : ℕ) (body : ℕ → σ → σ) (s : σ) :
    forLoop (k + 1) body s = body k (forLoop k body s) := rfl

/-- A loop that adds `f i` to an accumulator computes the sum of the `f i`. -/
theorem forLoop_add (n : ℕ) (f : ℕ → ℚ) (s : ℚ) :
    forLoop n (fun i acc => acc + f i) s = s + ∑ i in Finset.range n, f i := by
  induction n with
  | zero => simp [forLoop]
  | succ k ih => rw [forLoop_succ, ih, Finset.sum_range_succ]; ring

theorem fdiv_of_ne_zero (a b : ℚ) (h : b ≠ 0) : fdiv a b = some (a / b) := by
  simp [fdiv, h]

/-! ## Arrays and loops -/

theorem length_wr (p : List ℚ) (i : ℕ) (v : ℚ) : (wr p i v).length = p.length := by
  simp [wr]

theorem rd_wr_same (p : List ℚ) (i : ℕ) (v : ℚ) (h : i < p.length) :
    rd (wr p i v) i = v := by
  simp [rd, wr, List.getD_eq_getElem?_getD, List.getElem?_set, h]

theorem rd_wr_ne (p : List ℚ) (i j : ℕ) (v : ℚ) (h : i ≠ j) :
    rd (wr p i v) j = rd p j := by
  simp [rd, wr, List.getD_eq_getElem?_getD, List.getElem?_set, h]

theorem length_malloc (k : ℕ) : (malloc k).length = k := by
  simp [malloc]

/-- The sum of an array is the sum of its cells. -/
theorem sum_eq_sum_rd (l : List ℚ) : l.sum = ∑ j in Finset.range l.length, rd l j := by
  induction l with
  | nil => simp
  | cons a t ih =>
    rw [List.sum_cons, List.length_cons, Finset.sum_range_succ', ih]
    simp [rd, add_comm]

/-- Two arrays of the same length with the same cells are equal. -/
theorem ext_rd (a b : List ℚ) (hl : a.length = b.length)
    (h : ∀ j, j < a.length → rd a j = rd b j) : a = b := by
  apply List.ext_getElem hl
  intro j h1 h2
  have := h j h1
  simpa [rd, List.getD_eq_getElem?_getD, List.getElem?_eq_getElem h1,
    List.getElem?_eq_getElem h2] using this

/-- A loop whose pass `i` rewrites cell `i` from its own content. -/
theorem forLoop_cellwise (g : ℕ → ℚ → ℚ) (k : ℕ) (c : List ℚ) (hk : k ≤ c.length) :
    (forLoop k (fun i c => wr c i (g i (rd c i))) c).length = c.length ∧
    ∀ j, j < c.length →
      rd (forLoop k (fun i c => wr c i (g i (rd c i))) c) j
        = if j < k then g j (rd c j) else rd c j := by
  induction k with
  | zero => simp [forLoop]
  | succ k ih =>
    obtain ⟨hlen, hrd⟩ := ih (Nat.le_of_succ_le hk)
    refine ⟨by rw [forLoop_succ, length_wr, hlen], ?_⟩
    intro j hj
    rw [forLoop_succ]
    by_cases hjk : j = k
    · subst hjk
      rw [rd_wr_same _ _ _ (by rw [hlen]; exact hj), hrd j hj]
      simp
    · rw [rd_wr_ne _ _ _ _ (Ne.symm hjk), hrd j hj]
      have : j < k + 1 ↔ j < k := by omega
      simp [this]

/-! ## Weighted: the four loops -/

theorem Weighted.init_spec (m : ℕ) (c : List ℚ) (hm : m ≤ c.length) :
    (Weighted.init m c).length = c.length ∧
    ∀ j, j < m → rd (Weighted.init m c) j = tiny := by
  obtain ⟨hlen, hrd⟩ := forLoop_cellwise (fun _ _ => tiny) m c hm
  refine ⟨hlen, ?_⟩
  intro j hj
  have := hrd j (lt_of_lt_of_le hj hm)
  simpa [Weighted.init, hj] using this

theorem Weighted.cumulate_spec (models : ℕ → Predictor) (n nin : ℕ) (tset : List ℚ)
    (m : ℕ) (c : List ℚ) (hm : m ≤ c.length) :
    (Weighted.cumulate models n nin tset m c).length = c.length ∧
    ∀ j, j < m →
      rd (Weighted.cumulate models n nin tset m c) j = rd c j + sqErr models n nin tset j := by
  induction n with
  | zero => simp [Weighted.cumulate, forLoop, sqErr]
  | succ n ih =>
    obtain ⟨hlen, hrd⟩ := ih
    have hstep : Weighted.cumulate models (n + 1) nin tset m c
        = forLoop m (fun imodel coefs =>
            wr coefs imodel (rd coefs imodel +
              (models imodel (tset.drop (n * (nin + 1))) - rd (tset.drop (n * (nin + 1))) nin)
              * (models imodel (tset.drop (n * (nin + 1))) - rd (tset.drop (n * (nin + 1))) nin)))
            (Weighted.cumulate models n nin tset m c) := rfl
    obtain ⟨hlen2, hrd2⟩ := forLoop_cellwise
      (fun imodel v => v +
        (models imodel (tset.drop (n * (nin + 1))) - rd (tset.drop (n * (nin + 1))) nin)
        * (models imodel (tset.drop (n * (nin + 1))) - rd (tset.drop (n * (nin + 1))) nin))
      m (Weighted.cumulate models n nin tset m c) (by rw [hlen]; exact hm)
    rw [hstep]
    refine ⟨by rw [hlen2, hlen], ?_⟩
    intro j hj
    rw [hrd2 j (by rw [hlen]; exact lt_of_lt_of_le hj hm), if_pos hj, hrd j hj]
    simp only [sqErr, Finset.sum_range_succ]
    ring

theorem Weighted.recip_spec (k : ℕ) (c : List ℚ) (hk : k ≤ c.length) :
    (Weighted.recip k c).1.length = c.length ∧
    (∀ j, j < c.length →
      rd (Weighted.recip k c).1 j = if j < k then 1 / rd c j else rd c j) ∧
    (Weighted.recip k c).2 = ∑ j in Finset.range k, 1 / rd c j := by
  induction k with
  | zero => simp [Weighted.recip, forLoop]
  | succ k ih =>
    obtain ⟨hlen, hrd, hsum⟩ := ih (Nat.le_of_succ_le hk)
    have hkc : k < c.length := hk
    have hstep : Weighted.recip (k + 1) c
        = (wr (Weighted.recip k c).1 k (1 / rd (Weighted.recip k c).1 k),
           (Weighted.recip k c).2
             + rd (wr (Weighted.recip k c).1 k (1 / rd (Weighted.recip k c).1 k)) k) := rfl
    rw [hstep]
    have hold : rd (Weighted.recip k c).1 k = rd c k := by
      rw [hrd k hkc]; simp
    refine ⟨by simp [length_wr, hlen], ?_, ?_⟩
    · intro j hj
      by_cases hjk : j = k
      · subst hjk
        simp only []
        rw [rd_wr_same _ _ _ (by rw [hlen]; exact hj), hold]
        simp
      · simp only []
        rw [rd_wr_ne _ _ _ _ (Ne.symm hjk), hrd j hj]
        have : j < k + 1 ↔ j < k := by omega
        simp [this]
    · simp only []
      rw [rd_wr_same _ _ _ (by rw [hlen]; exact hkc), hold, hsum, Finset.sum_range_succ]

theorem Weighted.normalize_spec (m : ℕ) (c : List ℚ) (sum : ℚ) (hm : m ≤ c.length) :
    (Weighted.normalize m c sum).length = c.length ∧
    ∀ j, j < m → rd (Weighted.normalize m c sum) j = rd c j / sum := by
  obtain ⟨hlen, hrd⟩ := forLoop_cellwise (fun _ v => v / sum) m c hm
  refine ⟨hlen, ?_⟩
  intro j hj
  have := hrd j (lt_of_lt_of_le hj hm)
  simpa [Weighted.normalize, hj] using this

/-- What the constructor leaves in `coefs`: `m` cells, cell `j` holding the
reciprocal of accumulator `j` divided by the sum of all the reciprocals. -/
theorem Weighted.weighted_coefs (models : ℕ → Predictor) (n nin : ℕ) (tset : List ℚ) (m : ℕ) :
    (Weighted.ctor models n nin tset m).nmodels = m ∧
    (Weighted.ctor models n nin tset m).coefs.length = m ∧
    ∀ j, j < m →
      rd (Weighted.ctor models n nin tset m).coefs j
        = (1 / errAcc models n nin tset j)
            / ∑ k in Finset.range m, 1 / errAcc models n nin tset k := by
  obtain ⟨l1, r1⟩ := Weighted.init_spec m (malloc m) (by rw [length_malloc])
  rw [length_malloc] at l1
  obtain ⟨l2, r2⟩ := Weighted.cumulate_spec models n nin tset m
    (Weighted.init m (malloc m)) (by rw [l1])
  rw [l1] at l2
  obtain ⟨l3, r3, s3⟩ := Weighted.recip_spec m
    (Weighted.cumulate models n nin tset m (Weighted.init m (malloc m))) (by rw [l2])
  rw [l2] at l3 r3
  obtain ⟨l4, r4⟩ := Weighted.normalize_spec m
    (Weighted.recip m (Weighted.cumulate models n nin tset m (Weighted.init m (malloc m)))).1
    (Weighted.recip m (Weighted.cumulate models n nin tset m (Weighted.init m (malloc m)))).2
    (by rw [l3])
  rw [l3] at l4
  have hacc : ∀ j, j < m →
      rd (Weighted.cumulate models n nin tset m (Weighted.init m (malloc m))) j
        = errAcc models n nin tset j := by
    intro j hj
    rw [r2 j hj, r1 j hj, errAcc]
  refine ⟨rfl, l4, ?_⟩
  intro j hj
  show rd (Weighted.normalize m _ _) j = _
  rw [r4 j hj, r3 j hj, if_pos hj, s3, hacc j hj]
  congr 1
  apply Finset.sum_congr rfl
  intro k hk
  rw [hacc k (Finset.mem_range.mp hk)]

/-! ## Weighted: theorems -/

theorem sqErr_nonneg (models : ℕ → Predictor) (n nin : ℕ) (tset : List ℚ) (k : ℕ) :
    0 ≤ sqErr models n nin tset k :=
  Finset.sum_nonneg (fun _ _ => sq_nonneg _)

theorem errAcc_pos (models : ℕ → Predictor) (n nin : ℕ) (tset : List ℚ) (k : ℕ) :
    0 < errAcc models n nin tset k :=
  add_pos_of_pos_of_nonneg tiny_pos (sqErr_nonneg models n nin tset k)

theorem recipSum_pos (models : ℕ → Predictor) (n nin : ℕ) (tset : List ℚ) (m : ℕ)
    (hm : 1 ≤ m) : 0 < ∑ k in Finset.range m, 1 / errAcc models n nin tset k := by
  apply Finset.sum_pos
  · intro k _
    exact one_div_pos.mpr (errAcc_pos models n nin tset k)
  · exact ⟨0, Finset.mem_range.mpr hm⟩

/-- C2: the weight that `Weighted::Weighted` stores for predictor `j` is
`(1/e_j) / (sum over k of 1/e_k)`, where `e_k` is `1e-60` plus the sum over the
training cases of the squared difference between predictor `k` and the target. -/
theorem Weighted.ctor_weight (models : ℕ → Predictor) (n nin : ℕ) (tset : List ℚ)
    (m j : ℕ) (hj : j < m) :
    rd (Weighted.ctor models n nin tset m).coefs j
      = (1 / ((1e-60 : ℚ) + sqErr models n nin tset j))
          / ∑ k in Finset.range m, 1 / ((1e-60 : ℚ) + sqErr models n nin tset k) :=
  (Weighted.weighted_coefs models n nin tset m).2.2 j hj

theorem Weighted.ctor_weight_witness :
    (0 < 2) ∧
    rd (Weighted.ctor twoConst 1 1 [0, 3] 2).coefs 0
      = (1 / ((1e-60 : ℚ) + sqErr twoConst 1 1 [0, 3] 0))
          / ∑ k in Finset.range 2, 1 / ((1e-60 : ℚ) + sqErr twoConst 1 1 [0, 3] k) :=
  ⟨by decide, Weighted.ctor_weight twoConst 1 1 [0, 3] 2 0 (by decide)⟩

/-- C3: for `m ≥ 1` predictors the `m` weights stored by `Weighted::Weighted`
sum to exactly 1. -/
theorem Weighted.ctor_sum_one (models : ℕ → Predictor) (n nin : ℕ) (tset : List ℚ)
    (m : ℕ) (hm : 1 ≤ m) :
    (Weighted.ctor models n nin tset m).coefs.length = m ∧
    (Weighted.ctor models n nin tset m).coefs.sum = 1 := by
  obtain ⟨_, hlen, hrd⟩ := Weighted.weighted_coefs models n nin tset m
  refine ⟨hlen, ?_⟩
  rw [sum_eq_sum_rd, hlen]
  have hS := recipSum_pos models n nin tset m hm
  calc ∑ j in Finset.range m, rd (Weighted.ctor models n nin tset m).coefs j
      = ∑ j in Finset.range m, (1 / errAcc models n nin tset j)
          / ∑ k in Finset.range m, 1 / errAcc models n nin tset k :=
        Finset.sum_congr rfl (fun j hj => hrd j (Finset.mem_range.mp hj))
    _ = (∑ j in Finset.range m, 1 / errAcc models n nin tset j)
          / ∑ k in Finset.range m, 1 / errAcc models n nin tset k := by
        rw [Finset.sum_div]
    _ = 1 := div_self hS.ne'

theorem Weighted.ctor_sum_one_witness :
    (1 ≤ 3) ∧
    (Weighted.ctor threeConst 2 1 [0, 3, 0, 2] 3).coefs.length = 3 ∧
    (Weighted.ctor threeConst 2 1 [0, 3, 0, 2] 3).coefs.sum = 1 :=
  ⟨by decide, Weighted.ctor_sum_one threeConst 2 1 [0, 3, 0, 2] 3 (by decide)⟩

/-- C4, amended: in exact arithmetic, of two predictors of the same set, the one
with the strictly larger training-set sum of squared errors gets the strictly
smaller stored weight. -/
theorem Weighted.ctor_weight_antitone (models : ℕ → Predictor) (n nin : ℕ) (tset : List ℚ)
    (m j k : ℕ) (hj : j < m) (hk : k < m)
    (herr : sqErr models n nin tset k < sqErr models n nin tset j) :
    rd (Weighted.ctor models n nin tset m).coefs j
      < rd (Weighted.ctor models n nin tset m).coefs k := by
  obtain ⟨_, _, hrd⟩ := Weighted.weighted_coefs models n nin tset m
  rw [hrd j hj, hrd k hk]
  have hS := recipSum_pos models n nin tset m (by omega)
  apply div_lt_div_of_pos_right _ hS
  apply one_div_lt_one_div_of_lt (errAcc_pos models n nin tset k)
  simp only [errAcc]
  linarith

theorem sqErr_threeConst_0 : sqErr threeConst 2 1 [0, 3, 0, 2] 0 = 1 := by
  norm_num [sqErr, Finset.sum_range_succ, threeConst, rd]

theorem sqErr_threeConst_1 : sqErr threeConst 2 1 [0, 3, 0, 2] 1 = 5 := by
  norm_num [sqErr, Finset.sum_range_succ, threeConst, rd]

theorem Weighted.ctor_weight_antitone_witness :
    (1 < 3) ∧ (0 < 3) ∧
    sqErr threeConst 2 1 [0, 3, 0, 2] 0 < sqErr threeConst 2 1 [0, 3, 0, 2] 1 ∧
    rd (Weighted.ctor threeConst 2 1 [0, 3, 0, 2] 3).coefs 1
      < rd (Weighted.ctor threeConst 2 1 [0, 3, 0, 2] 3).coefs 0 :=
  ⟨by decide, by decide, by rw [sqErr_threeConst_0, sqErr_threeConst_1]; norm_num,
   Weighted.ctor_weight_antitone threeConst 2 1 [0, 3, 0, 2] 3 1 0 (by decide) (by decide)
     (by rw [sqErr_threeConst_0, sqErr_threeConst_1]; norm_num)⟩

/-- With a perfect predictor `p` the sum of the reciprocals is the reciprocal
of `1e-60` plus the reciprocals of the other accumulators. -/
theorem recipSum_split (models : ℕ → Predictor) (n nin : ℕ) (tset : List ℚ) (m p : ℕ)
    (hp : p < m) (hperf : sqErr models n nin tset p = 0) :
    ∑ k in Finset.range m, 1 / errAcc models n nin tset k
      = 1 / tiny + ∑ k in (Finset.range m).erase p, 1 / errAcc models n nin tset k := by
  rw [← Finset.add_sum_erase _ _ (Finset.mem_range.mpr hp)]
  simp [errAcc, hperf]

theorem recip_le_of_err (models : ℕ → Predictor) (n nin : ℕ) (tset : List ℚ) (k : ℕ)
    (hE : 0 < sqErr models n nin tset k) :
    (1 / errAcc models n nin tset k) / (1 / tiny) ≤ tiny / sqErr models n nin tset k := by
  have ht := tiny_pos
  have he := errAcc_pos models n nin tset k
  have h1 : (1 / errAcc models n nin tset k) / (1 / tiny)
      = tiny / errAcc models n nin tset k := by
    field_simp
  rw [h1]
  apply div_le_div_of_nonneg_left ht.le hE
  simp only [errAcc]
  linarith

/-- C5, amended: in exact arithmetic, among three predictors, one of which has
zero training-set squared
error while the other two have squared errors `E_k > 0`, the perfect
predictor gets a weight strictly below 1 and at least `1 - Σ 1e-60 / E_k`
(sum over the other two), and each other predictor a weight of at most
`1e-60 / E_k`. -/
theorem Weighted.ctor_perfect (models : ℕ → Predictor) (n nin : ℕ) (tset : List ℚ)
    (p : ℕ) (hp : p < 3) (hperf : sqErr models n nin tset p = 0)
    (hothers : ∀ k, k < 3 → k ≠ p → 0 < sqErr models n nin tset k) :
    rd (Weighted.ctor models n nin tset 3).coefs p < 1 ∧
    1 - ∑ k in (Finset.range 3).erase p, (1e-60 : ℚ) / sqErr models n nin tset k
      ≤ rd (Weighted.ctor models n nin tset 3).coefs p ∧
    ∀ k, k < 3 → k ≠ p →
      rd (Weighted.ctor models n nin tset 3).coefs k
        ≤ (1e-60 : ℚ) / sqErr models n nin tset k := by
  obtain ⟨_, _, hrd⟩ := Weighted.weighted_coefs models n nin tset 3
  have ht := tiny_pos
  have hit : 0 < 1 / tiny := one_div_pos.mpr ht
  have hsplit := recipSum_split models n nin tset 3 p hp hperf
  have hS := recipSum_pos models n nin tset 3 (by norm_num)
  have hne : ((Finset.range 3).erase p).Nonempty := by
    refine ⟨(p + 1) % 3, ?_⟩
    rw [Finset.mem_erase, Finset.mem_range]
    omega
  have hrest : 0 < ∑ k in (Finset.range 3).erase p, 1 / errAcc models n nin tset k :=
    Finset.sum_pos (fun k _ => one_div_pos.mpr (errAcc_pos models n nin tset k)) hne
  have hSge : 1 / tiny ≤ ∑ k in Finset.range 3, 1 / errAcc models n nin tset k := by
    rw [hsplit]; linarith
  have hwp : rd (Weighted.ctor models n nin tset 3).coefs p
      = (1 / tiny) / ∑ k in Finset.range 3, 1 / errAcc models n nin tset k := by
    rw [hrd p hp]; simp [errAcc, hperf]
  have hother : ∀ k, k < 3 → k ≠ p →
      rd (Weighted.ctor models n nin tset 3).coefs k ≤ tiny / sqErr models n nin tset k := by
    intro k hk hkp
    rw [hrd k hk]
    refine le_trans ?_ (recip_le_of_err models n nin tset k (hothers k hk hkp))
    exact div_le_div_of_nonneg_left (one_div_pos.mpr (errAcc_pos models n nin tset k)).le
      hit hSge
  refine ⟨?_, ?_, hother⟩
  · rw [hwp, div_lt_one hS, hsplit]
    linarith
  · have hone : 1 - rd (Weighted.ctor models n nin tset 3).coefs p
        = (∑ k in (Finset.range 3).erase p, 1 / errAcc models n nin tset k)
            / ∑ k in Finset.range 3, 1 / errAcc models n nin tset k := by
      rw [hwp, eq_div_iff hS.ne', sub_mul, div_mul_cancel₀ _ hS.ne', one_mul, hsplit]
      ring
    have hbound : (∑ k in (Finset.range 3).erase p, 1 / errAcc models n nin tset k)
          / ∑ k in Finset.range 3, 1 / errAcc models n nin tset k
        ≤ ∑ k in (Finset.range 3).erase p, tiny / sqErr models n nin tset k := by
      rw [Finset.sum_div]
      apply Finset.sum_le_sum
      intro k hk
      rw [Finset.mem_erase, Finset.mem_range] at hk
      refine le_trans ?_ (recip_le_of_err models n nin tset k (hothers k hk.2 hk.1))
      exact div_le_div_of_nonneg_left (one_div_pos.mpr (errAcc_pos models n nin tset k)).le
        hit hSge
    have : 1 - rd (Weighted.ctor models n nin tset 3).coefs p
        ≤ ∑ k in (Finset.range 3).erase p, tiny / sqErr models n nin tset k := by
      rw [hone]; exact hbound
    show 1 - ∑ k in (Finset.range 3).erase p, tiny / sqErr models n nin tset k ≤ _
    linarith

theorem sqErr_perfect_0 : sqErr threeConst 2 1 [0, 3, 0, 3] 0 = 0 := by
  norm_num [sqErr, Finset.sum_range_succ, threeConst, rd]

theorem sqErr_perfect_others (k : ℕ) (_hk : k < 3) (hk0 : k ≠ 0) :
    0 < sqErr threeConst 2 1 [0, 3, 0, 3] k := by
  by_cases h1 : k = 1
  · subst h1
    norm_num [sqErr, Finset.sum_range_succ, threeConst, rd]
  · norm_num [sqErr, Finset.sum_range_succ, threeConst, rd, hk0, h1]

theorem Weighted.ctor_perfect_witness :
    (0 < 3) ∧ sqErr threeConst 2 1 [0, 3, 0, 3] 0 = 0 ∧
    (∀ k, k < 3 → k ≠ 0 → 0 < sqErr threeConst 2 1 [0, 3, 0, 3] k) ∧
    (rd (Weighted.ctor threeConst 2 1 [0, 3, 0, 3] 3).coefs 0 < 1 ∧
    1 - ∑ k in (Finset.range 3).erase 0, (1e-60 : ℚ) / sqErr threeConst 2 1 [0, 3, 0, 3] k
      ≤ rd (Weighted.ctor threeConst 2 1 [0, 3, 0, 3] 3).coefs 0 ∧
    ∀ k, k < 3 → k ≠ 0 →
      rd (Weighted.ctor threeConst 2 1 [0, 3, 0, 3] 3).coefs k
        ≤ (1e-60 : ℚ) / sqErr threeConst 2 1 [0, 3, 0, 3] k) :=
  ⟨by decide, sqErr_perfect_0, sqErr_perfect_others,
   Weighted.ctor_perfect threeConst 2 1 [0, 3, 0, 3] 0 (by decide) sqErr_perfect_0
     sqErr_perfect_others⟩

/-! ## The criterion functions -/

theorem rd_drop (l : List ℚ) (k j : ℕ) : rd (l.drop k) j = rd l (k + j) := by
  simp [rd, List.getD_eq_getElem?_getD, List.getElem?_drop]

/-- The penalty loop adds `-1e30 * w[j]` for every negative `w[j]`. -/
theorem forLoop_penalty (m : ℕ) (wts : List ℚ) :
    forLoop m (fun j penalty => if rd wts j < 0 then penalty - big * rd wts j else penalty) 0
      = ∑ j in (Finset.range m).filter (fun j => rd wts j < 0), -big * rd wts j := by
  have hbody : (fun (j : ℕ) (penalty : ℚ) =>
        if rd wts j < 0 then penalty - big * rd wts j else penalty)
      = fun j penalty => penalty + (if rd wts j < 0 then -big * rd wts j else 0) := by
    funext j penalty
    split_ifs <;> ring
  rw [hbody, forLoop_add, Finset.sum_filter, zero_add]

theorem unbiased_divisor_eq (m : ℕ) (wts : List ℚ) (hw : wts.length = m) :
    unbiased_divisor m wts = max wts.sum tiny := by
  simp only [unbiased_divisor, forLoop_add, zero_add]
  rw [sum_eq_sum_rd, hw]
  split_ifs with h
  · exact (max_eq_right h.le).symm
  · exact (max_eq_left (not_lt.mp h)).symm

/-- The value of `unbiased_crit` in terms of its divisor. -/
theorem unbiased_crit_unfold (st : UnbiasedStatics) (w : List ℚ)
    (hwork : st.unbiased_nvars ≤ st.unbiased_work.length) :
    unbiased_crit st w
      = ∑ i in Finset.range st.unbiased_ncases,
          (∑ j in Finset.range st.unbiased_nvars,
              rd st.unbiased_x (i * st.unbiased_nvars + j)
                * (rd w j / unbiased_divisor st.unbiased_nvars w)
            - rd st.unbiased_y i) ^ 2
        + ∑ j in (Finset.range st.unbiased_nvars).filter (fun j => rd w j < 0),
            -big * rd w j := by
  obtain ⟨_, hrd⟩ := forLoop_cellwise
    (fun j _ => rd w j / unbiased_divisor st.unbiased_nvars w)
    st.unbiased_nvars st.unbiased_work hwork
  simp only [unbiased_crit, forLoop_add, zero_add, forLoop_penalty, rd_drop]
  congr 1
  apply Finset.sum_congr rfl
  intro i _
  rw [sq]
  congr 2 <;>
  · apply Finset.sum_congr rfl
    intro j hj
    have hjm := Finset.mem_range.mp hj
    rw [hrd j (lt_of_lt_of_le hjm hwork), if_pos hjm]

/-- The value of `biased_crit` as sums. -/
theorem biased_crit_unfold (st : BiasedStatics) (w : List ℚ) :
    biased_crit st w
      = ∑ i in Finset.range st.biased_ncases,
          (rd w st.biased_nvars
            + ∑ j in Finset.range st.biased_nvars,
                rd st.biased_x (i * st.biased_nvars + j) * rd w j
            - rd st.biased_y i) ^ 2
        + ∑ j in (Finset.range st.biased_nvars).filter (fun j => rd w j < 0),
            -big * rd w j := by
  simp only [biased_crit, forLoop_add, zero_add, forLoop_penalty, rd_drop]
  congr 1
  apply Finset.sum_congr rfl
  intro i _
  rw [sq]

/-- C9: `biased_crit(w)` is the sum over the cases `i` of
`(w[m] + Σ_{j<m} X[i][j] * w[j] - y[i])^2` plus the sum of `-1e30 * w[j]` over
every `j < m` with `w[j] < 0`; the weights are not normalized and the intercept
`w[m]` is not penalized, so when the first `m` entries are nonnegative the value
is the plain squared error, whatever the sign of `w[m]`. -/
theorem biased_crit_eq (st : BiasedStatics) (w : List ℚ) :
    biased_crit st w
      = ∑ i in Finset.range st.biased_ncases,
          (rd w st.biased_nvars
            + ∑ j in Finset.range st.biased_nvars,
                rd st.biased_x (i * st.biased_nvars + j) * rd w j
            - rd st.biased_y i) ^ 2
        + ∑ j in (Finset.range st.biased_nvars).filter (fun j => rd w j < 0),
            -(1e30 : ℚ) * rd w j
    ∧ ((∀ j, j < st.biased_nvars → 0 ≤ rd w j) →
        biased_crit st w
          = ∑ i in Finset.range st.biased_ncases,
              (rd w st.biased_nvars
                + ∑ j in Finset.range st.biased_nvars,
                    rd st.biased_x (i * st.biased_nvars + j) * rd w j
                - rd st.biased_y i) ^ 2) := by
  refine ⟨biased_crit_unfold st w, ?_⟩
  intro hpos
  rw [biased_crit_unfold st w, Finset.filter_false_of_mem, Finset.sum_empty, add_zero]
  intro j hj
  exact not_lt.mpr (hpos j (Finset.mem_range.mp hj))

theorem biased_crit_eq_witness :
    (∀ j, j < demoBiased.biased_nvars → 0 ≤ rd [1 / 2, 1 / 2, -3] j) ∧
    biased_crit demoBiased [1 / 2, 1 / 2, -3]
      = ∑ i in Finset.range demoBiased.biased_ncases,
          (rd [1 / 2, 1 / 2, -3] demoBiased.biased_nvars
            + ∑ j in Finset.range demoBiased.biased_nvars,
                rd demoBiased.biased_x (i * demoBiased.biased_nvars + j)
                  * rd [1 / 2, 1 / 2, -3] j
            - rd demoBiased.biased_y i) ^ 2 :=
  ⟨by intro j hj; have h2 : j < 2 := hj; interval_cases j <;> simp [rd],
   (biased_crit_eq demoBiased [1 / 2, 1 / 2, -3]).2
     (by intro j hj; have h2 : j < 2 := hj; interval_cases j <;> simp [rd])⟩

/-! ## Unbiased: theorems -/

theorem rd_map_div (l : List ℚ) (d : ℚ) (j : ℕ) :
    rd (l.map (fun v => v / d)) j = rd l j / d := by
  by_cases hj : j < l.length
  · simp [rd, List.getD_eq_getElem?_getD, List.getElem?_eq_getElem, hj]
  · have hj2 : l.length ≤ j := not_lt.mp hj
    simp [rd, List.getD_eq_getElem?_getD, List.getElem?_eq_none, hj2]

theorem rd_replicate (m : ℕ) (v : ℚ) (j : ℕ) (hj : j < m) :
    rd (List.replicate m v) j = v := by
  simp [rd, List.getD_eq_getElem?_getD, List.getElem?_replicate, hj]

theorem sum_map_div (l : List ℚ) (d : ℚ) : (l.map (fun v => v / d)).sum = l.sum / d := by
  induction l with
  | nil => simp
  | cons a t ih => simp [ih, add_div]

/-- The final normalization divides every weight by the floored sum. -/
theorem Unbiased.normalize_eq (m : ℕ) (w : List ℚ) (hw : w.length = m) :
    Unbiased.normalize m w = w.map (fun v => v / max w.sum tiny) := by
  have hdiv : (if forLoop m (fun i sum => sum + rd w i) 0 < tiny then tiny
      else forLoop m (fun i sum => sum + rd w i) 0) = max w.sum tiny :=
    unbiased_divisor_eq m w hw
  obtain ⟨hlen, hrd⟩ := forLoop_cellwise (fun _ v => v / max w.sum tiny) m w (by rw [hw])
  simp only [Unbiased.normalize, hdiv]
  apply ext_rd
  · rw [List.length_map]; exact hlen
  · intro j hj
    have hjw : j < w.length := by
      have : (forLoop m (fun i c => wr c i (rd c i / max w.sum tiny)) w).length
          = w.length := hlen
      omega
    rw [hrd j hjw, rd_map_div, if_pos (by omega)]

/-- The coefficients stored by the constructor, from the point `powell` leaves. -/
theorem Unbiased.unbiased_coefs (powell : Powell) (models : ℕ → Predictor) (n nin : ℕ)
    (tset : List ℚ) (m : ℕ)
    (hlen : (powell (Unbiased.call models n nin tset m)).2.length = m) :
    (Unbiased.ctor powell models n nin tset m).coefs
      = (powell (Unbiased.call models n nin tset m)).2.map
          (fun v => v / max (powell (Unbiased.call models n nin tset m)).2.sum tiny) :=
  Unbiased.normalize_eq m _ hlen

theorem Unbiased.unbiased_coefs_sum (powell : Powell) (models : ℕ → Predictor) (n nin : ℕ)
    (tset : List ℚ) (m : ℕ)
    (hlen : (powell (Unbiased.call models n nin tset m)).2.length = m) :
    (Unbiased.ctor powell models n nin tset m).coefs.sum
      = (powell (Unbiased.call models n nin tset m)).2.sum
          / max (powell (Unbiased.call models n nin tset m)).2.sum tiny := by
  rw [Unbiased.unbiased_coefs powell models n nin tset m hlen, sum_map_div]

/-- C7, as stated, fails: for one case with target 0 and one model answering 2,
an optimizer that leaves the raw weight 0 (where the criterion is 0, below
its start value 4) makes the constructor store weights whose sum is 0.  On
doubles it also fails for large raw weights: the sum of `(1e308, 1e308)`
overflows, and the stored weights are `(0, 0)`. -/
theorem Unbiased.ctor_sum_counterexample :
    ¬ (|(Unbiased.ctor (returnsPoint [0]) twoConst 1 1 [0, 0] 1).coefs.sum - 1| ≤ (1e-6 : ℚ))
    ∧ (returnsPoint [0] (Unbiased.call twoConst 1 1 [0, 0] 1)).1
        < (Unbiased.call twoConst 1 1 [0, 0] 1).ystart
    ∧ (Unbiased.ctor64 (returnsPoint64 [1e308, 1e308]) twoConst64 1 1 [0, 6] 2).coefs = [0, 0]
    ∧ F64.le (1 - 1e-6)
        (sum64 2 (Unbiased.ctor64 (returnsPoint64 [1e308, 1e308]) twoConst64 1 1 [0, 6] 2).coefs)
        = false := by
  have hc : (Unbiased.ctor (returnsPoint [0]) twoConst 1 1 [0, 0] 1).coefs = [0] := by
    simp [Unbiased.ctor, Unbiased.run, returnsPoint, Unbiased.normalize, forLoop, rd, wr]
  refine ⟨?_, ?_, by decide!, by decide!⟩
  · rw [hc]; norm_num
  · norm_num [returnsPoint, Unbiased.call, Unbiased.statics, Unbiased.start, buildDesign,
      unbiased_crit, unbiased_divisor, forLoop, rd, wr, malloc, twoConst, tiny, big]

/-- C7, amended: in exact arithmetic, the stored weights sum to 1 within `1e-6`
exactly when the raw weights left by the optimizer sum to at least
`(1 - 1e-6) * 1e-60`. -/
theorem Unbiased.ctor_sum_within (powell : Powell) (models : ℕ → Predictor) (n nin : ℕ)
    (tset : List ℚ) (m : ℕ)
    (hlen : (powell (Unbiased.call models n nin tset m)).2.length = m) :
    |(Unbiased.ctor powell models n nin tset m).coefs.sum - 1| ≤ (1e-6 : ℚ)
      ↔ (1 - (1e-6 : ℚ)) * (1e-60 : ℚ)
          ≤ (powell (Unbiased.call models n nin tset m)).2.sum := by
  rw [Unbiased.unbiased_coefs_sum powell models n nin tset m hlen]
  have ht := tiny_pos
  have h6 : (1e-6 : ℚ) = 1 / 1000000 := by norm_num
  have hone : tiny ≤ (powell (Unbiased.call models n nin tset m)).2.sum →
      (powell (Unbiased.call models n nin tset m)).2.sum
        / max (powell (Unbiased.call models n nin tset m)).2.sum tiny = 1 := by
    intro h
    rw [max_eq_left h]
    exact div_self (lt_of_lt_of_le ht h).ne'
  show _ ↔ (1 - (1e-6 : ℚ)) * tiny ≤ _
  rw [h6]
  by_cases h : tiny ≤ (powell (Unbiased.call models n nin tset m)).2.sum
  · rw [hone h]
    constructor
    · intro _; nlinarith
    · intro _; norm_num
  · have hlt := not_le.mp h
    rw [max_eq_right hlt.le, abs_le]
    have hq : (powell (Unbiased.call models n nin tset m)).2.sum / tiny < 1 :=
      (div_lt_one ht).mpr hlt
    constructor
    · rintro ⟨h1, _⟩
      have : 1 - 1 / 1000000 ≤ (powell (Unbiased.call models n nin tset m)).2.sum / tiny := by
        linarith
      exact (le_div_iff₀ ht).mp this
    · intro h1
      have := (le_div_iff₀ ht).mpr h1
      constructor <;> linarith

theorem Unbiased.ctor_sum_within_witness :
    (returnsPoint [1, 3] (Unbiased.call twoConst 1 1 [0, 6] 2)).2.length = 2 ∧
    (1 - (1e-6 : ℚ)) * (1e-60 : ℚ)
      ≤ (returnsPoint [1, 3] (Unbiased.call twoConst 1 1 [0, 6] 2)).2.sum ∧
    |(Unbiased.ctor (returnsPoint [1, 3]) twoConst 1 1 [0, 6] 2).coefs.sum - 1| ≤ (1e-6 : ℚ) :=
  ⟨rfl, by norm_num [returnsPoint],
   (Unbiased.ctor_sum_within (returnsPoint [1, 3]) twoConst 1 1 [0, 6] 2 rfl).mpr
     (by norm_num [returnsPoint])⟩

theorem Average.total_eq (models : ℕ → Predictor) (self : Average) (input : List ℚ) :
    Average.total models self input = ∑ j in Finset.range self.nmodels, models j input := by
  simp [Average.total, forLoop_add]

/-- C1: for a predictor set of size `m ≥ 1`, `Average::numeric_predict` returns the
sum of the `m` predictor outputs divided by `m`; with two predictors that always
return 2 and 4 it returns 3 for every input. -/
theorem Average.numeric_predict_mean (models : ℕ → Predictor) (n nin : ℕ) (tset : List ℚ)
    (m : ℕ) (hm : 1 ≤ m) (input : List ℚ) :
    Average.numeric_predict models (Average.ctor n nin tset m) input
        = some ((∑ j in Finset.range m, models j input) / (m : ℚ))
      ∧ ((∀ x, models 0 x = 2) → (∀ x, models 1 x = 4) →
          Average.numeric_predict models (Average.ctor n nin tset 2) input = some 3) := by
  have hm0 : (m : ℚ) ≠ 0 := by
    have : 0 < m := hm
    exact_mod_cast this.ne'
  refine ⟨?_, ?_⟩
  · simp only [Average.numeric_predict, Average.ctor, Average.total_eq]
    exact fdiv_of_ne_zero _ _ hm0
  · intro h0 h1
    simp only [Average.numeric_predict, Average.ctor, Average.total_eq]
    rw [fdiv_of_ne_zero _ _ (by norm_num)]
    simp [Finset.sum_range_succ, h0, h1]
    norm_num

theorem Average.numeric_predict_mean_witness :
    (1 ≤ 2) ∧ Average.numeric_predict twoConst (Average.ctor 5 2 [] 2) [7, 8] = some 3 :=
  ⟨by decide,
   (Average.numeric_predict_mean twoConst 5 2 [] 2 (by decide) [7, 8]).2
     (fun _ => rfl) (fun _ => rfl)⟩

/-! ## The `numeric_predict` methods -/

theorem Unconstrained.predict_sum (models : ℕ → Predictor) (self : Unconstrained)
    (input : List ℚ) :
    Unconstrained.numeric_predict models self input
      = rd self.coefs self.nmodels
        + ∑ j in Finset.range self.nmodels, rd self.coefs j * models j input := by
  simp only [Unconstrained.numeric_predict, forLoop_add]

theorem Unbiased.predict_sum_unbiased (models : ℕ → Predictor) (self : Unbiased)
    (input : List ℚ) :
    Unbiased.numeric_predict models self input
      = ∑ j in Finset.range self.nmodels, rd self.coefs j * models j input := by
  simp only [Unbiased.numeric_predict, forLoop_add, zero_add]

theorem Biased.predict_sum_biased (models : ℕ → Predictor) (self : Biased)
    (input : List ℚ) :
    Biased.numeric_predict models self input
      = rd self.coefs self.nmodels
        + ∑ j in Finset.range self.nmodels, rd self.coefs j * models j input := by
  simp only [Biased.numeric_predict, forLoop_add]

theorem Weighted.predict_sum_weighted (models : ℕ → Predictor) (self : Weighted)
    (input : List ℚ) :
    Weighted.numeric_predict models self input
      = ∑ j in Finset.range self.nmodels, rd self.coefs j * models j input := by
  simp only [Weighted.numeric_predict, forLoop_add, zero_add]

/-- C11: with stored coefficients `c` over `m` models, `numeric_predict`
returns `b + Σ_{j<m} c[j] * (output of predictor j for the input)`, where `b` is
0 for `Unbiased` and `Weighted` and is `c[m]` for `Biased` and `Unconstrained`. -/
theorem numeric_predict_linear (models : ℕ → Predictor) (input : List ℚ)
    (u : Unbiased) (w : Weighted) (b : Biased) (c : Unconstrained) :
    Unbiased.numeric_predict models u input
        = 0 + ∑ j in Finset.range u.nmodels, rd u.coefs j * models j input
    ∧ Weighted.numeric_predict models w input
        = 0 + ∑ j in Finset.range w.nmodels, rd w.coefs j * models j input
    ∧ Biased.numeric_predict models b input
        = rd b.coefs b.nmodels
          + ∑ j in Finset.range b.nmodels, rd b.coefs j * models j input
    ∧ Unconstrained.numeric_predict models c input
        = rd c.coefs c.nmodels
          + ∑ j in Finset.range c.nmodels, rd c.coefs j * models j input := by
  refine ⟨?_, ?_, Biased.predict_sum_biased models b input,
    Unconstrained.predict_sum models c input⟩
  · rw [zero_add]; exact Unbiased.predict_sum_unbiased models u input
  · rw [zero_add]; exact Weighted.predict_sum_weighted models w input

/-! ## Degenerate sizes -/

/-- C13, as stated, fails: an `Average` built with `nmodels == 0` is an object
like any other, and its `numeric_predict` returns the quotient of `0.0` by 0,
which is not a number. -/
theorem Average.zero_models_counterexample :
    (Average.ctor 5 2 [] 0).nmodels = 0
    ∧ Average.numeric_predict twoConst (Average.ctor 5 2 [] 0) [7, 8] = fdiv 0 0
    ∧ fdiv 0 0 = none := by
  refine ⟨rfl, ?_, ?_⟩
  · simp [Average.numeric_predict, Average.ctor, Average.total, forLoop]
  · simp [fdiv]

/-- C13, amended: for every training set, predictor set and input, the
constructor accepts `nmodels == 0` and `numeric_predict` then returns the
quotient of `0.0` by 0, which is not a number; nothing is signalled by the
class.  The check of `nmodels` is the one of `main`, which rejects
`nmodels == 0` before anything is built. -/
theorem Average.zero_models (models : ℕ → Predictor) (n nin : ℕ) (tset input : List ℚ)
    (nsamps ntries : ℤ) (var : ℚ) :
    (Average.ctor n nin tset 0).nmodels = 0
    ∧ Average.total models (Average.ctor n nin tset 0) input = 0
    ∧ Average.numeric_predict models (Average.ctor n nin tset 0) input = fdiv 0 0
    ∧ Average.numeric_predict models (Average.ctor n nin tset 0) input = none
    ∧ main_rejects nsamps 0 ntries var = true := by
  refine ⟨rfl, rfl, ?_, ?_, ?_⟩
  · simp [Average.numeric_predict, Average.ctor, Average.total, forLoop]
  · simp [Average.numeric_predict, Average.ctor, Average.total, forLoop, fdiv]
  · simp [main_rejects]

theorem errAcc_no_cases (models : ℕ → Predictor) (nin : ℕ) (tset : List ℚ) (k : ℕ) :
    errAcc models 0 nin tset k = tiny := by
  simp [errAcc, sqErr]

/-- C14, as stated, fails: `Weighted::Weighted` on zero training cases and two
predictors yields the weight vector `(1/2, 1/2)`. -/
theorem Weighted.no_cases_counterexample :
    (Weighted.ctor twoConst 0 1 [] 2).coefs = [1 / 2, 1 / 2] := by
  norm_num [Weighted.ctor, Weighted.init, Weighted.cumulate, Weighted.recip,
    Weighted.normalize, forLoop, rd, wr, malloc, tiny, List.replicate]

theorem main_rejects_no_samples (nmodels ntries : ℤ) (var : ℚ) :
    main_rejects 0 nmodels ntries var = true := by
  simp [main_rejects]

/-- C14, amended: on zero training cases `Weighted::Weighted` returns a fitted
combiner whose `m` weights are all `1/m`; nothing is signalled by the class.
The check of the number of cases is the one of `main`, which rejects
`nsamps == 0` before anything is built. -/
theorem Weighted.no_cases (models : ℕ → Predictor) (nin : ℕ) (tset : List ℚ) (m : ℕ)
    (nmodels ntries : ℤ) (var : ℚ) :
    Weighted.ctor models 0 nin tset m
        = { nmodels := m, coefs := List.replicate m (1 / (m : ℚ)) }
    ∧ main_rejects 0 nmodels ntries var = true := by
  refine ⟨?_, main_rejects_no_samples nmodels ntries var⟩
  obtain ⟨hn, hlen, hrd⟩ := Weighted.weighted_coefs models 0 nin tset m
  have hcoefs : (Weighted.ctor models 0 nin tset m).coefs
      = List.replicate m (1 / (m : ℚ)) := by
    apply ext_rd
    · rw [hlen, List.length_replicate]
    · intro j hj
      rw [hlen] at hj
      rw [hrd j hj, rd_replicate m _ j hj]
      simp only [errAcc_no_cases, Finset.sum_const, Finset.card_range, nsmul_eq_mul]
      have ht := tiny_pos.ne'
      have hm : (m : ℚ) ≠ 0 := by
        have : 0 < m := by omega
        exact_mod_cast this.ne'
      field_simp
  calc Weighted.ctor models 0 nin tset m
      = { nmodels := (Weighted.ctor models 0 nin tset m).nmodels,
          coefs := (Weighted.ctor models 0 nin tset m).coefs } := rfl
    _ = { nmodels := m, coefs := List.replicate m (1 / (m : ℚ)) } := by rw [hn, hcoefs]

/-! ## The global `models` and repeated calls -/

theorem weighted_demo_coefs : (Weighted.ctor twoConst 1 1 [0, 3] 2).coefs = [1 / 2, 1 / 2] := by
  norm_num [Weighted.ctor, Weighted.init, Weighted.cumulate, Weighted.recip,
    Weighted.normalize, forLoop, rd, wr, malloc, tiny, twoConst, List.replicate]

/-- Two loop bodies that agree on every pass below `k` give the same loop. -/
theorem forLoop_congr {σ : Type} (f g : ℕ → σ → σ) (k : ℕ) (s : σ)
    (h : ∀ i, i < k → ∀ t, f i t = g i t) : forLoop k f s = forLoop k g s := by
  induction k with
  | zero => rfl
  | succ k ih =>
    rw [forLoop_succ, forLoop_succ, ih (fun i hi t => h i (by omega) t)]
    exact h k (by omega) _

/-- A loop on a pair whose passes hand on the first component as they found it
leaves that component as it was, and runs on the second component alone. -/
theorem forLoop_keeps {α β : Type} (g : ℕ → α × β → β) (k : ℕ) (a : α) (v : β) :
    forLoop k (fun i (s : α × β) => (s.1, g i s)) (a, v)
      = (a, forLoop k (fun i v => g i (a, v)) v) := by
  induction k with
  | zero => rfl
  | succ k ih => rw [forLoop_succ, ih, forLoop_succ]

/-- A call of `Average::numeric_predict` leaves the object as it was and
leaves in `*output` the value of `Average.numeric_predict`. -/
theorem Average.average_step (models : ℕ → Predictor) (self : Average) (input : List ℚ) :
    Average.numeric_predict_step models self input
      = (self, Average.numeric_predict models self input) := by
  unfold Average.numeric_predict_step
  rw [forLoop_keeps (fun imodel (s : Average × ℚ) => s.2 + models imodel input)]
  rfl

/-- A call of `Unbiased::numeric_predict` leaves the object as it was and
leaves in `*output` the value of `Unbiased.numeric_predict`. -/
theorem Unbiased.unbiased_step (models : ℕ → Predictor) (self : Unbiased) (input : List ℚ) :
    Unbiased.numeric_predict_step models self input
      = (self, Unbiased.numeric_predict models self input) := by
  unfold Unbiased.numeric_predict_step
  rw [forLoop_keeps
    (fun imodel (s : Unbiased × ℚ) => s.2 + rd s.1.coefs imodel * models imodel input)]
  rfl

/-- A call of `Biased::numeric_predict` leaves the object as it was and leaves
in `*output` the value of `Biased.numeric_predict`. -/
theorem Biased.biased_step (models : ℕ → Predictor) (self : Biased) (input : List ℚ) :
    Biased.numeric_predict_step models self input
      = (self, Biased.numeric_predict models self input) := by
  unfold Biased.numeric_predict_step
  rw [forLoop_keeps
    (fun imodel (s : Biased × ℚ) => s.2 + rd s.1.coefs imodel * models imodel input)]
  rfl

/-- A call of `Weighted::numeric_predict` leaves the object as it was and
leaves in `*output` the value of `Weighted.numeric_predict`. -/
theorem Weighted.weighted_step (models : ℕ → Predictor) (self : Weighted) (input : List ℚ) :
    Weighted.numeric_predict_step models self input
      = (self, Weighted.numeric_predict models self input) := by
  unfold Weighted.numeric_predict_step
  rw [forLoop_keeps
    (fun imodel (s : Weighted × ℚ) => s.2 + rd s.1.coefs imodel * models imodel input)]
  rfl

/-- The loop of `GenReg::numeric_predict` writes to the member `work` and to
no other member. -/
theorem GenReg.loop_eq (models : ℕ → Predictor) (self : GenReg) (input : List ℚ) (k : ℕ) :
    forLoop k (fun imodel (self : GenReg) =>
        { self with work := wr self.work imodel (models imodel input) }) self
      = { self with
          work := forLoop k (fun imodel work => wr work imodel (models imodel input))
            self.work } := by
  induction k with
  | zero => rfl
  | succ k ih => rw [forLoop_succ, ih, forLoop_succ]

/-- The value `GenReg::numeric_predict` leaves in `*output`: what `grnn` answers
for the work vector filled with the outputs of the models. -/
theorem GenReg.predict_eq (models : ℕ → Predictor) (self : GenReg) (input : List ℚ) :
    GenReg.numeric_predict models self input
      = self.grnn (forLoop self.nmodels
          (fun imodel work => wr work imodel (models imodel input)) self.work) := by
  unfold GenReg.numeric_predict GenReg.numeric_predict_step
  simp only [GenReg.loop_eq]

/-- Unlike the four linear combiners, a call of `GenReg::numeric_predict` does
change the object: the member `work` holds the outputs of the models after the
call. -/
theorem GenReg.step_writes_work :
    (GenReg.numeric_predict_step twoConst
        { grnn := fun v => rd v 0, nmodels := 2, work := [0, 0] } [7]).1.work = [2, 4] := by
  simp [GenReg.numeric_predict_step, forLoop, wr, twoConst]

/-- C16, as stated, fails: a `Weighted` fitted while `models` points at one
predictor set answers 3 for an input, and answers 2 for the same input once
`models` points at another set. -/
theorem Weighted.models_counterexample :
    Weighted.numeric_predict twoConst (Weighted.ctor twoConst 1 1 [0, 3] 2) [7]
      ≠ Weighted.numeric_predict threeConst (Weighted.ctor twoConst 1 1 [0, 3] 2) [7] := by
  rw [Weighted.predict_sum_weighted, Weighted.predict_sum_weighted, weighted_demo_coefs]
  norm_num [Weighted.ctor, Finset.sum_range_succ, rd, twoConst, threeConst]

/-- C16, amended: for every combiner of the six classes of the file
(`Average`, which also serves the bagged models, `Unconstrained`, `Unbiased`,
`Biased`, `Weighted` and `GenReg`), the value returned by `numeric_predict`
depends only on the instance, the input and the outputs, for that input, of
the first `nmodels` entries of `models` at the time of the call: two settings
of `models` whose first `nmodels` entries answer the same for the input give
the same result. -/
theorem numeric_predict_frame (models models2 : ℕ → Predictor) (input : List ℚ)
    (a : Average) (c : Unconstrained) (u : Unbiased) (b : Biased) (w : Weighted) (g : GenReg)
    (ha : ∀ j, j < a.nmodels → models j input = models2 j input)
    (hc : ∀ j, j < c.nmodels → models j input = models2 j input)
    (hu : ∀ j, j < u.nmodels → models j input = models2 j input)
    (hb : ∀ j, j < b.nmodels → models j input = models2 j input)
    (hw : ∀ j, j < w.nmodels → models j input = models2 j input)
    (hg : ∀ j, j < g.nmodels → models j input = models2 j input) :
    Average.numeric_predict models a input = Average.numeric_predict models2 a input
    ∧ Unconstrained.numeric_predict models c input
        = Unconstrained.numeric_predict models2 c input
    ∧ Unbiased.numeric_predict models u input = Unbiased.numeric_predict models2 u input
    ∧ Biased.numeric_predict models b input = Biased.numeric_predict models2 b input
    ∧ Weighted.numeric_predict models w input = Weighted.numeric_predict models2 w input
    ∧ GenReg.numeric_predict models g input = GenReg.numeric_predict models2 g input := by
  refine ⟨?_, ?_, ?_, ?_, ?_, ?_⟩
  · simp only [Average.numeric_predict, Average.total, forLoop_add]
    congr 2
    exact Finset.sum_congr rfl (fun j hj => ha j (Finset.mem_range.mp hj))
  · rw [Unconstrained.predict_sum, Unconstrained.predict_sum]
    congr 1
    exact Finset.sum_congr rfl (fun j hj => by rw [hc j (Finset.mem_range.mp hj)])
  · rw [Unbiased.predict_sum_unbiased, Unbiased.predict_sum_unbiased]
    exact Finset.sum_congr rfl (fun j hj => by rw [hu j (Finset.mem_range.mp hj)])
  · rw [Biased.predict_sum_biased, Biased.predict_sum_biased]
    congr 1
    exact Finset.sum_congr rfl (fun j hj => by rw [hb j (Finset.mem_range.mp hj)])
  · rw [Weighted.predict_sum_weighted, Weighted.predict_sum_weighted]
    exact Finset.sum_congr rfl (fun j hj => by rw [hw j (Finset.mem_range.mp hj)])
  · rw [GenReg.predict_eq, GenReg.predict_eq]
    congr 1
    exact forLoop_congr _ _ _ _ (fun j hj t => by rw [hg j hj])

/-- C17: for `Average`, `Unbiased`, `Biased` and `Weighted`, with the same
predictor set and deterministic predictors, a call of `numeric_predict` leaves
in `*output` the value of the method and hands back the object as it found
it, so a second call with the same input returns the same output as the first,
and the object (its stored coefficients included) is after the two calls what
it was before them. -/
theorem numeric_predict_twice (models : ℕ → Predictor) (input : List ℚ)
    (a : Average) (u : Unbiased) (b : Biased) (w : Weighted) :
    ((Average.numeric_predict_step models
          (Average.numeric_predict_step models a input).1 input).2
        = (Average.numeric_predict_step models a input).2
      ∧ (Average.numeric_predict_step models
          (Average.numeric_predict_step models a input).1 input).1 = a
      ∧ (Average.numeric_predict_step models a input).2
          = Average.numeric_predict models a input)
    ∧ ((Unbiased.numeric_predict_step models
          (Unbiased.numeric_predict_step models u input).1 input).2
        = (Unbiased.numeric_predict_step models u input).2
      ∧ (Unbiased.numeric_predict_step models
          (Unbiased.numeric_predict_step models u input).1 input).1.coefs = u.coefs
      ∧ (Unbiased.numeric_predict_step models
          (Unbiased.numeric_predict_step models u input).1 input).1 = u
      ∧ (Unbiased.numeric_predict_step models u input).2
          = Unbiased.numeric_predict models u input)
    ∧ ((Biased.numeric_predict_step models
          (Biased.numeric_predict_step models b input).1 input).2
        = (Biased.numeric_predict_step models b input).2
      ∧ (Biased.numeric_predict_step models
          (Biased.numeric_predict_step models b input).1 input).1.coefs = b.coefs
      ∧ (Biased.numeric_predict_step models
          (Biased.numeric_predict_step models b input).1 input).1 = b
      ∧ (Biased.numeric_predict_step models b input).2
          = Biased.numeric_predict models b input)
    ∧ ((Weighted.numeric_predict_step models
          (Weighted.numeric_predict_step models w input).1 input).2
        = (Weighted.numeric_predict_step models w input).2
      ∧ (Weighted.numeric_predict_step models
          (Weighted.numeric_predict_step models w input).1 input).1.coefs = w.coefs
      ∧ (Weighted.numeric_predict_step models
          (Weighted.numeric_predict_step models w input).1 input).1 = w
      ∧ (Weighted.numeric_predict_step models w input).2
          = Weighted.numeric_predict models w input) := by
  have ha := Average.average_step models a input
  have hu := Unbiased.unbiased_step models u input
  have hb := Biased.biased_step models b input
  have hw := Weighted.weighted_step models w input
  rw [ha, hu, hb, hw]
  simp only [ha, hu, hb, hw, and_self]

theorem numeric_predict_frame_witness :
    (∀ j, j < (Average.ctor 5 2 [] 2).nmodels → twoConst j [7] = twoConstThen j [7])
    ∧ Average.numeric_predict twoConst (Average.ctor 5 2 [] 2) [7]
        = Average.numeric_predict twoConstThen (Average.ctor 5 2 [] 2) [7]
    ∧ Weighted.numeric_predict twoConst (Weighted.ctor twoConst 1 1 [0, 3] 2) [7]
        = Weighted.numeric_predict twoConstThen (Weighted.ctor twoConst 1 1 [0, 3] 2) [7]
    ∧ GenReg.numeric_predict twoConst
          { grnn := fun v => rd v 0 + 2 * rd v 1, nmodels := 2, work := [0, 0] } [7]
        = GenReg.numeric_predict twoConstThen
          { grnn := fun v => rd v 0 + 2 * rd v 1, nmodels := 2, work := [0, 0] } [7] :=
  have h : ∀ j, j < 2 → twoConst j [7] = twoConstThen j [7] := by
    intro j hj
    interval_cases j <;> simp [twoConst, twoConstThen]
  ⟨h,
   (numeric_predict_frame twoConst twoConstThen [7] (Average.ctor 5 2 [] 2)
      { nmodels := 2, coefs := [1 / 4, 3 / 4, 5] }
      { nmodels := 2, coefs := [1 / 4, 3 / 4] } { nmodels := 2, coefs := [1 / 4, 3 / 4, 5] }
      (Weighted.ctor twoConst 1 1 [0, 3] 2)
      { grnn := fun v => rd v 0 + 2 * rd v 1, nmodels := 2, work := [0, 0] }
      h h h h h h).1,
   (numeric_predict_frame twoConst twoConstThen [7] (Average.ctor 5 2 [] 2)
      { nmodels := 2, coefs := [1 / 4, 3 / 4, 5] }
      { nmodels := 2, coefs := [1 / 4, 3 / 4] } { nmodels := 2, coefs := [1 / 4, 3 / 4, 5] }
      (Weighted.ctor twoConst 1 1 [0, 3] 2)
      { grnn := fun v => rd v 0 + 2 * rd v 1, nmodels := 2, work := [0, 0] }
      h h h h h h).2.2.2.2.1,
   (numeric_predict_frame twoConst twoConstThen [7] (Average.ctor 5 2 [] 2)
      { nmodels := 2, coefs := [1 / 4, 3 / 4, 5] }
      { nmodels := 2, coefs := [1 / 4, 3 / 4] } { nmodels := 2, coefs := [1 / 4, 3 / 4, 5] }
      (Weighted.ctor twoConst 1 1 [0, 3] 2)
      { grnn := fun v => rd v 0 + 2 * rd v 1, nmodels := 2, work := [0, 0] }
      h h h h h h).2.2.2.2.2⟩

/-! ## The design data -/

/-- A loop that writes `f j` to cell `base + j` for every `j < k`. -/
theorem forLoop_row (base : ℕ) (f : ℕ → ℚ) (k : ℕ) (c : List ℚ)
    (hk : base + k ≤ c.length) :
    (forLoop k (fun j c => wr c (base + j) (f j)) c).length = c.length ∧
    (∀ j, j < k → rd (forLoop k (fun j c => wr c (base + j) (f j)) c) (base + j) = f j) ∧
    (∀ idx, idx < base → rd (forLoop k (fun j c => wr c (base + j) (f j)) c) idx = rd c idx) := by
  induction k with
  | zero => simp [forLoop]
  | succ k ih =>
    obtain ⟨hlen, hin, hout⟩ := ih (by omega)
    refine ⟨by rw [forLoop_succ, length_wr, hlen], ?_, ?_⟩
    · intro j hj
      rw [forLoop_succ]
      by_cases hjk : j = k
      · subst hjk
        exact rd_wr_same _ _ _ (by rw [hlen]; omega)
      · rw [rd_wr_ne _ _ _ _ (by omega)]
        exact hin j (by omega)
    · intro idx hidx
      rw [forLoop_succ, rd_wr_ne _ _ _ _ (by omega)]
      exact hout idx hidx

theorem row_index_lt (i n m j : ℕ) (hi : i < n) (hj : j < m) : i * m + j < n * m := by
  have h1 : (i + 1) * m ≤ n * m := Nat.mul_le_mul_right m hi
  have h2 : (i + 1) * m = i * m + m := by ring
  omega

/-- What the design loop leaves in `cases` and `outs`. -/
theorem buildDesign_spec (models : ℕ → Predictor) (n nin : ℕ) (tset : List ℚ) (m : ℕ)
    (cases outs : List ℚ) (hc : n * m ≤ cases.length) (ho : n ≤ outs.length) :
    (buildDesign models n nin tset m cases outs).1.length = cases.length ∧
    (buildDesign models n nin tset m cases outs).2.length = outs.length ∧
    (∀ i j, i < n → j < m →
      rd (buildDesign models n nin tset m cases outs).1 (i * m + j)
        = models j (tset.drop (i * (nin + 1)))) ∧
    (∀ i, i < n →
      rd (buildDesign models n nin tset m cases outs).2 i
        = rd (tset.drop (i * (nin + 1))) nin) := by
  induction n with
  | zero => simp [buildDesign, forLoop]
  | succ n ih =>
    have hnm : (n + 1) * m = n * m + m := by ring
    obtain ⟨hl1, hl2, hx, hy⟩ := ih (by omega) (by omega)
    have hstep : buildDesign models (n + 1) nin tset m cases outs
        = (forLoop m (fun imodel c =>
              wr c (n * m + imodel) (models imodel (tset.drop (n * (nin + 1)))))
            (buildDesign models n nin tset m cases outs).1,
           wr (buildDesign models n nin tset m cases outs).2 n
             (rd (tset.drop (n * (nin + 1))) nin)) := rfl
    obtain ⟨hrl, hrin, hrout⟩ := forLoop_row (n * m)
      (fun imodel => models imodel (tset.drop (n * (nin + 1)))) m
      (buildDesign models n nin tset m cases outs).1 (by rw [hl1]; omega)
    rw [hstep]
    refine ⟨by simp only []; rw [hrl, hl1], by simp only []; rw [length_wr, hl2], ?_, ?_⟩
    · intro i j hi hj
      simp only []
      by_cases hin : i = n
      · subst hin
        exact hrin j hj
      · have hi2 : i < n := by omega
        rw [hrout _ (row_index_lt i n m j hi2 hj)]
        exact hx i j hi2 hj
    · intro i hi
      simp only []
      by_cases hin : i = n
      · subst hin
        exact rd_wr_same _ _ _ (by rw [hl2]; omega)
      · rw [rd_wr_ne _ _ _ _ (by omega)]
        exact hy i (by omega)

/-- C12: for `n` cases stored flat with stride `nin + 1` and `m` predictors,
the design data that `Unbiased::Unbiased` and `Biased::Biased` build has
`cases[i*m + j]` equal to the output of predictor `j` pointed at case `i` (its
output on the first `nin` values of the case, for a predictor that reads no
further) and `outs[i]` equal to the value after the `nin` inputs of case `i`. -/
theorem design_spec (models : ℕ → Predictor) (n nin : ℕ) (tset : List ℚ) (m i j : ℕ)
    (hi : i < n) (hj : j < m) :
    (rd (Unbiased.statics models n nin tset m).unbiased_x (i * m + j)
        = models j (tset.drop (i * (nin + 1)))
      ∧ rd (Unbiased.statics models n nin tset m).unbiased_y i = rd tset (i * (nin + 1) + nin)
      ∧ rd (Biased.statics models n nin tset m).biased_x (i * m + j)
        = models j (tset.drop (i * (nin + 1)))
      ∧ rd (Biased.statics models n nin tset m).biased_y i = rd tset (i * (nin + 1) + nin))
    ∧ ((∀ k p, models k p = models k (p.take nin)) →
        rd (Unbiased.statics models n nin tset m).unbiased_x (i * m + j)
          = models j ((tset.drop (i * (nin + 1))).take nin)
        ∧ rd (Biased.statics models n nin tset m).biased_x (i * m + j)
          = models j ((tset.drop (i * (nin + 1))).take nin)) := by
  obtain ⟨_, _, hx, hy⟩ := buildDesign_spec models n nin tset m (malloc (n * m)) (malloc n)
    (by rw [length_malloc]) (by rw [length_malloc])
  have h1 : rd (Unbiased.statics models n nin tset m).unbiased_x (i * m + j)
      = models j (tset.drop (i * (nin + 1))) := hx i j hi hj
  have h2 : rd (Biased.statics models n nin tset m).biased_x (i * m + j)
      = models j (tset.drop (i * (nin + 1))) := hx i j hi hj
  have h3 : rd (Unbiased.statics models n nin tset m).unbiased_y i
      = rd tset (i * (nin + 1) + nin) := by
    rw [← rd_drop]; exact hy i hi
  have h4 : rd (Biased.statics models n nin tset m).biased_y i
      = rd tset (i * (nin + 1) + nin) := by
    rw [← rd_drop]; exact hy i hi
  refine ⟨⟨h1, h3, h2, h4⟩, ?_⟩
  intro hloc
  rw [h1, h2, ← hloc]
  exact ⟨rfl, rfl⟩

theorem rd_take (l : List ℚ) (k j : ℕ) (h : j < k) : rd (l.take k) j = rd l j := by
  simp [rd, List.getD_eq_getElem?_getD, List.getElem?_take, h]

theorem linModels_local (k : ℕ) (p : List ℚ) : linModels k p = linModels k (p.take 1) := by
  simp [linModels, rd_take]

theorem design_spec_witness :
    (1 < 2) ∧ (1 < 2) ∧ (∀ k p, linModels k p = linModels k (p.take 1))
    ∧ rd (Unbiased.statics linModels 2 1 [2, 3, 5, 7] 2).unbiased_x (1 * 2 + 1)
        = linModels 1 (([2, 3, 5, 7] : List ℚ).drop (1 * (1 + 1)))
    ∧ rd (Unbiased.statics linModels 2 1 [2, 3, 5, 7] 2).unbiased_x (1 * 2 + 1)
        = linModels 1 ((([2, 3, 5, 7] : List ℚ).drop (1 * (1 + 1))).take 1) :=
  ⟨by decide, by decide, linModels_local,
   (design_spec linModels 2 1 [2, 3, 5, 7] 2 1 1 (by decide) (by decide)).1.1,
   ((design_spec linModels 2 1 [2, 3, 5, 7] 2 1 1 (by decide) (by decide)).2
      linModels_local).1⟩

/-! ## Divisors -/

theorem Bilinear.bound_eq (p : List ℚ) (n : ℤ) (pt : ℚ) :
    Bilinear.bound p n pt = min (max pt (rdz p 0)) (rdz p (n - 1)) := by
  simp only [Bilinear.bound]
  have h1 : (if pt < rdz p 0 then rdz p 0 else pt) = max pt (rdz p 0) := by
    split_ifs with h
    · exact (max_eq_right h.le).symm
    · exact (max_eq_left (not_lt.mp h)).symm
  rw [h1]
  split_ifs with h
  · exact (min_eq_right h.le).symm
  · exact (min_eq_left (not_lt.mp h)).symm

/-- Bounding an input that is already bounded changes nothing. -/
theorem Bilinear.bound_idem (p : List ℚ) (n : ℤ) (pt : ℚ) :
    Bilinear.bound p n (Bilinear.bound p n pt) = Bilinear.bound p n pt := by
  simp only [Bilinear.bound_eq]
  rcases le_total (rdz p 0) (rdz p (n - 1)) with h | h
  · have h1 : rdz p 0 ≤ min (max pt (rdz p 0)) (rdz p (n - 1)) :=
      le_min (le_max_right _ _) h
    rw [max_eq_left h1, min_eq_left (min_le_right _ _)]
  · have h1 : min (max pt (rdz p 0)) (rdz p (n - 1)) = rdz p (n - 1) :=
      min_eq_right (le_trans h (le_max_right _ _))
    rw [h1, max_eq_right h, min_eq_right h]

/-- C20: `Bilinear::evaluate` bounds outlying inputs: `evaluate(xpt, ypt)` is
`evaluate(min(max(xpt, x[0]), x[nx-1]), min(max(ypt, y[0]), y[ny-1]))`, for
every table and every point. -/
theorem Bilinear.evaluate_bounded (self : Bilinear) (xpt ypt : ℚ) :
    Bilinear.evaluate self xpt ypt
      = Bilinear.evaluate self
          (min (max xpt (rdz self.x 0)) (rdz self.x (self.nx - 1)))
          (min (max ypt (rdz self.y 0)) (rdz self.y (self.ny - 1))) := by
  rw [← Bilinear.bound_eq, ← Bilinear.bound_eq]
  simp only [Bilinear.evaluate, Bilinear.bound_idem]

/-! ## The order of the training cases -/

/-- A sum over the cases of a quantity that reads only the case itself is the
same for a training set and for a permutation of its cases. -/
theorem sum_cases_perm (n nin : ℕ) (tset tset2 : List ℚ) (σ : Equiv.Perm (Fin n))
    (hperm : ∀ i : Fin n, caseAt tset2 nin i = caseAt tset nin (σ i))
    (F : List ℚ → ℚ) (hF : ∀ p, F p = F (p.take (nin + 1))) :
    ∑ i in Finset.range n, F (tset2.drop (i * (nin + 1)))
      = ∑ i in Finset.range n, F (tset.drop (i * (nin + 1))) := by
  rw [Finset.sum_range, Finset.sum_range,
    ← Equiv.sum_comp σ (fun i : Fin n => F (tset.drop ((i : ℕ) * (nin + 1))))]
  apply Finset.sum_congr rfl
  intro i _
  rw [hF (tset2.drop _), hF (tset.drop _)]
  exact congrArg F (hperm i)

theorem local_take_succ (models : ℕ → Predictor) (nin : ℕ)
    (hloc : ∀ k p, models k p = models k (p.take nin)) (k : ℕ) (p : List ℚ) :
    models k p = models k (p.take (nin + 1)) := by
  rw [hloc k p, hloc k (p.take (nin + 1)), List.take_take, min_eq_left (Nat.le_succ nin)]

theorem sqErr_perm (models : ℕ → Predictor) (n nin : ℕ) (tset tset2 : List ℚ)
    (σ : Equiv.Perm (Fin n))
    (hloc : ∀ k p, models k p = models k (p.take nin))
    (hperm : ∀ i : Fin n, caseAt tset2 nin i = caseAt tset nin (σ i)) (k : ℕ) :
    sqErr models n nin tset2 k = sqErr models n nin tset k := by
  simp only [sqErr]
  apply sum_cases_perm n nin tset tset2 σ hperm (fun p => (models k p - rd p nin) ^ 2)
  intro p
  rw [← local_take_succ models nin hloc k p, rd_take p (nin + 1) nin (Nat.lt_succ_self nin)]

/-- The value of `unbiased_crit` on the statics of `Unbiased::Unbiased`, from
the training set. -/
theorem unbiased_crit_statics (models : ℕ → Predictor) (n nin : ℕ) (tset : List ℚ) (m : ℕ)
    (w : List ℚ) :
    unbiased_crit (Unbiased.statics models n nin tset m) w
      = ∑ i in Finset.range n,
          (∑ j in Finset.range m,
              models j (tset.drop (i * (nin + 1))) * (rd w j / unbiased_divisor m w)
            - rd (tset.drop (i * (nin + 1))) nin) ^ 2
        + ∑ j in (Finset.range m).filter (fun j => rd w j < 0), -big * rd w j := by
  obtain ⟨_, _, hx, hy⟩ := buildDesign_spec models n nin tset m (malloc (n * m)) (malloc n)
    (by rw [length_malloc]) (by rw [length_malloc])
  have hwork : (Unbiased.statics models n nin tset m).unbiased_nvars
      ≤ (Unbiased.statics models n nin tset m).unbiased_work.length := by
    show m ≤ (malloc m).length
    rw [length_malloc]
  rw [unbiased_crit_unfold _ w hwork]
  show ∑ i in Finset.range n,
          (∑ j in Finset.range m,
              rd (buildDesign models n nin tset m (malloc (n * m)) (malloc n)).1 (i * m + j)
                * (rd w j / unbiased_divisor m w)
            - rd (buildDesign models n nin tset m (malloc (n * m)) (malloc n)).2 i) ^ 2
        + ∑ j in (Finset.range m).filter (fun j => rd w j < 0), -big * rd w j = _
  congr 1
  apply Finset.sum_congr rfl
  intro i hi
  have hin := Finset.mem_range.mp hi
  rw [hy i hin]
  congr 2
  apply Finset.sum_congr rfl
  intro j hj
  rw [hx i j hin (Finset.mem_range.mp hj)]

/-- The value of `biased_crit` on the statics of `Biased::Biased`, from the
training set. -/
theorem biased_crit_statics (models : ℕ → Predictor) (n nin : ℕ) (tset : List ℚ) (m : ℕ)
    (w : List ℚ) :
    biased_crit (Biased.statics models n nin tset m) w
      = ∑ i in Finset.range n,
          (rd w m + ∑ j in Finset.range m, models j (tset.drop (i * (nin + 1))) * rd w j
            - rd (tset.drop (i * (nin + 1))) nin) ^ 2
        + ∑ j in (Finset.range m).filter (fun j => rd w j < 0), -big * rd w j := by
  obtain ⟨_, _, hx, hy⟩ := buildDesign_spec models n nin tset m (malloc (n * m)) (malloc n)
    (by rw [length_malloc]) (by rw [length_malloc])
  rw [biased_crit_unfold _ w]
  show ∑ i in Finset.range n,
          (rd w m + ∑ j in Finset.range m,
              rd (buildDesign models n nin tset m (malloc (n * m)) (malloc n)).1 (i * m + j)
                * rd w j
            - rd (buildDesign models n nin tset m (malloc (n * m)) (malloc n)).2 i) ^ 2
        + ∑ j in (Finset.range m).filter (fun j => rd w j < 0), -big * rd w j = _
  congr 1
  apply Finset.sum_congr rfl
  intro i hi
  have hin := Finset.mem_range.mp hi
  rw [hy i hin]
  congr 3
  apply Finset.sum_congr rfl
  intro j hj
  rw [hx i j hin (Finset.mem_range.mp hj)]

/-- C18: the order of the training cases does not matter.  For a training
set whose cases are a permutation of those of another, and predictors that
read only the `nin` inputs of the case they are pointed at, `Weighted::Weighted`
stores the same weights, and `unbiased_crit` and `biased_crit` have the same
value at every weight vector. -/
theorem case_order_irrelevant (models : ℕ → Predictor) (n nin m : ℕ) (tset tset2 : List ℚ)
    (σ : Equiv.Perm (Fin n))
    (hloc : ∀ k p, models k p = models k (p.take nin))
    (hperm : ∀ i : Fin n, caseAt tset2 nin i = caseAt tset nin (σ i)) :
    Weighted.ctor models n nin tset2 m = Weighted.ctor models n nin tset m
    ∧ (∀ w, unbiased_crit (Unbiased.statics models n nin tset2 m) w
          = unbiased_crit (Unbiased.statics models n nin tset m) w)
    ∧ (∀ w, biased_crit (Biased.statics models n nin tset2 m) w
          = biased_crit (Biased.statics models n nin tset m) w) := by
  refine ⟨?_, ?_, ?_⟩
  · obtain ⟨hn2, hl2, hr2⟩ := Weighted.weighted_coefs models n nin tset2 m
    obtain ⟨hn, hl, hr⟩ := Weighted.weighted_coefs models n nin tset m
    have herr : ∀ k, errAcc models n nin tset2 k = errAcc models n nin tset k := by
      intro k
      simp only [errAcc, sqErr_perm models n nin tset tset2 σ hloc hperm k]
    have hcoefs : (Weighted.ctor models n nin tset2 m).coefs
        = (Weighted.ctor models n nin tset m).coefs := by
      apply ext_rd
      · rw [hl2, hl]
      · intro j hj
        rw [hl2] at hj
        rw [hr2 j hj, hr j hj]
        simp only [herr]
    calc Weighted.ctor models n nin tset2 m
        = { nmodels := (Weighted.ctor models n nin tset2 m).nmodels,
            coefs := (Weighted.ctor models n nin tset2 m).coefs } := rfl
      _ = { nmodels := (Weighted.ctor models n nin tset m).nmodels,
            coefs := (Weighted.ctor models n nin tset m).coefs } := by rw [hn2, hn, hcoefs]
      _ = Weighted.ctor models n nin tset m := rfl
  · intro w
    rw [unbiased_crit_statics, unbiased_crit_statics]
    congr 1
    apply sum_cases_perm n nin tset tset2 σ hperm
      (fun p => (∑ j in Finset.range m, models j p * (rd w j / unbiased_divisor m w)
        - rd p nin) ^ 2)
    intro p
    rw [rd_take p (nin + 1) nin (Nat.lt_succ_self nin)]
    congr 2
    apply Finset.sum_congr rfl
    intro j _
    rw [← local_take_succ models nin hloc j p]
  · intro w
    rw [biased_crit_statics, biased_crit_statics]
    congr 1
    apply sum_cases_perm n nin tset tset2 σ hperm
      (fun p => (rd w m + ∑ j in Finset.range m, models j p * rd w j - rd p nin) ^ 2)
    intro p
    rw [rd_take p (nin + 1) nin (Nat.lt_succ_self nin)]
    congr 3
    apply Finset.sum_congr rfl
    intro j _
    rw [← local_take_succ models nin hloc j p]

theorem swapped_cases (i : Fin 2) :
    caseAt [5, 7, 2, 3] 1 i = caseAt [2, 3, 5, 7] 1 ((Equiv.swap (0 : Fin 2) 1) i) := by
  fin_cases i
  · simp [caseAt, Equiv.swap_apply_left]
  · simp [caseAt, Equiv.swap_apply_right]

theorem case_order_irrelevant_witness :
    (∀ k p, linModels k p = linModels k (p.take 1))
    ∧ (∀ i : Fin 2,
        caseAt [5, 7, 2, 3] 1 i = caseAt [2, 3, 5, 7] 1 ((Equiv.swap (0 : Fin 2) 1) i))
    ∧ Weighted.ctor linModels 2 1 [5, 7, 2, 3] 2 = Weighted.ctor linModels 2 1 [2, 3, 5, 7] 2
    ∧ unbiased_crit (Unbiased.statics linModels 2 1 [5, 7, 2, 3] 2) [1, 3]
        = unbiased_crit (Unbiased.statics linModels 2 1 [2, 3, 5, 7] 2) [1, 3]
    ∧ biased_crit (Biased.statics linModels 2 1 [5, 7, 2, 3] 2) [1, 3, -2]
        = biased_crit (Biased.statics linModels 2 1 [2, 3, 5, 7] 2) [1, 3, -2] :=
  ⟨linModels_local, swapped_cases,
   (case_order_irrelevant linModels 2 1 2 [2, 3, 5, 7] [5, 7, 2, 3] (Equiv.swap 0 1)
      linModels_local swapped_cases).1,
   (case_order_irrelevant linModels 2 1 2 [2, 3, 5, 7] [5, 7, 2, 3] (Equiv.swap 0 1)
      linModels_local swapped_cases).2.1 [1, 3],
   (case_order_irrelevant linModels 2 1 2 [2, 3, 5, 7] [5, 7, 2, 3] (Equiv.swap 0 1)
      linModels_local swapped_cases).2.2 [1, 3, -2]⟩

/-! ## Scale of the raw weights, and convex combinations -/

theorem rd_map_mul (l : List ℚ) (c : ℚ) (j : ℕ) :
    rd (l.map (fun v => c * v)) j = c * rd l j := by
  by_cases hj : j < l.length
  · simp [rd, List.getD_eq_getElem?_getD, List.getElem?_eq_getElem, hj]
  · have hj2 : l.length ≤ j := not_lt.mp hj
    simp [rd, List.getD_eq_getElem?_getD, List.getElem?_eq_none, hj2]

theorem sum_map_mul (l : List ℚ) (c : ℚ) : (l.map (fun v => c * v)).sum = c * l.sum := by
  induction l with
  | nil => simp
  | cons a t ih => simp [ih, mul_add]

/-- C26, amended: in exact arithmetic, for raw weights `w` that are all `≥ 0` and a scale `c > 0` with
`sum(w) ≥ 1e-60` and `c * sum(w) ≥ 1e-60`, `unbiased_crit(c * w)` is
`unbiased_crit(w)`. -/
theorem unbiased_crit_scale (st : UnbiasedStatics) (w : List ℚ) (c : ℚ)
    (hw : w.length = st.unbiased_nvars)
    (hwork : st.unbiased_nvars ≤ st.unbiased_work.length)
    (hpos : ∀ j, j < st.unbiased_nvars → 0 ≤ rd w j) (hc : 0 < c)
    (hs : (1e-60 : ℚ) ≤ w.sum) (hcs : (1e-60 : ℚ) ≤ c * w.sum) :
    unbiased_crit st (w.map (fun v => c * v)) = unbiased_crit st w := by
  have hs2 : tiny ≤ w.sum := hs
  have hcs2 : tiny ≤ c * w.sum := hcs
  have hS : 0 < w.sum := lt_of_lt_of_le tiny_pos hs2
  rw [unbiased_crit_unfold st _ hwork, unbiased_crit_unfold st w hwork,
    unbiased_divisor_eq _ _ (by rw [List.length_map]; exact hw),
    unbiased_divisor_eq _ w hw, sum_map_mul, max_eq_left hcs2, max_eq_left hs2]
  have hf1 : (Finset.range st.unbiased_nvars).filter
      (fun j => rd (w.map (fun v => c * v)) j < 0) = ∅ := by
    apply Finset.filter_false_of_mem
    intro j hj
    rw [rd_map_mul]
    exact not_lt.mpr (mul_nonneg hc.le (hpos j (Finset.mem_range.mp hj)))
  have hf2 : (Finset.range st.unbiased_nvars).filter (fun j => rd w j < 0) = ∅ := by
    apply Finset.filter_false_of_mem
    intro j hj
    exact not_lt.mpr (hpos j (Finset.mem_range.mp hj))
  rw [hf1, hf2]
  congr 1
  apply Finset.sum_congr rfl
  intro i _
  congr 2
  apply Finset.sum_congr rfl
  intro j _
  rw [rd_map_mul, mul_div_mul_left _ _ hc.ne']

theorem unbiased_crit_scale_witness :
    ([1, 3] : List ℚ).length = demoUnbiased.unbiased_nvars
    ∧ demoUnbiased.unbiased_nvars ≤ demoUnbiased.unbiased_work.length
    ∧ (∀ j, j < demoUnbiased.unbiased_nvars → 0 ≤ rd [1, 3] j)
    ∧ (0 : ℚ) < 5 ∧ (1e-60 : ℚ) ≤ ([1, 3] : List ℚ).sum
    ∧ (1e-60 : ℚ) ≤ 5 * ([1, 3] : List ℚ).sum
    ∧ unbiased_crit demoUnbiased (([1, 3] : List ℚ).map (fun v => 5 * v))
        = unbiased_crit demoUnbiased [1, 3] :=
  have hpos : ∀ j, j < demoUnbiased.unbiased_nvars → 0 ≤ rd [1, 3] j := by
    intro j hj
    have h2 : j < 2 := hj
    interval_cases j <;> simp [rd]
  ⟨rfl, by decide, hpos, by norm_num, by norm_num, by norm_num,
   unbiased_crit_scale demoUnbiased [1, 3] 5 rfl (by decide) hpos (by norm_num)
     (by norm_num) (by norm_num)⟩

/-- A combination with nonnegative weights of sum 1 lies between the smallest
and the largest of the combined values. -/
theorem convex_between (m : ℕ) (hm : (Finset.range m).Nonempty) (a p : ℕ → ℚ)
    (ha : ∀ j, j < m → 0 ≤ a j) (hsum : ∑ j in Finset.range m, a j = 1) :
    (Finset.range m).inf' hm p ≤ ∑ j in Finset.range m, a j * p j
    ∧ ∑ j in Finset.range m, a j * p j ≤ (Finset.range m).sup' hm p := by
  constructor
  · calc (Finset.range m).inf' hm p
        = ∑ j in Finset.range m, a j * (Finset.range m).inf' hm p := by
          rw [← Finset.sum_mul, hsum, one_mul]
      _ ≤ ∑ j in Finset.range m, a j * p j := by
          apply Finset.sum_le_sum
          intro j hj
          exact mul_le_mul_of_nonneg_left (Finset.inf'_le p hj)
            (ha j (Finset.mem_range.mp hj))
  · calc ∑ j in Finset.range m, a j * p j
        ≤ ∑ j in Finset.range m, a j * (Finset.range m).sup' hm p := by
          apply Finset.sum_le_sum
          intro j hj
          exact mul_le_mul_of_nonneg_left (Finset.le_sup' p hj)
            (ha j (Finset.mem_range.mp hj))
      _ = (Finset.range m).sup' hm p := by
          rw [← Finset.sum_mul, hsum, one_mul]

theorem Weighted.coefs_sum_range (models : ℕ → Predictor) (n nin : ℕ) (tset : List ℚ)
    (m : ℕ) (hm : 1 ≤ m) :
    ∑ j in Finset.range m, rd (Weighted.ctor models n nin tset m).coefs j = 1 := by
  obtain ⟨_, _, hrd⟩ := Weighted.weighted_coefs models n nin tset m
  have hS := recipSum_pos models n nin tset m hm
  rw [Finset.sum_congr rfl (fun j hj => hrd j (Finset.mem_range.mp hj)), ← Finset.sum_div]
  exact div_self hS.ne'

theorem Weighted.coefs_pos (models : ℕ → Predictor) (n nin : ℕ) (tset : List ℚ)
    (m j : ℕ) (hj : j < m) :
    0 < rd (Weighted.ctor models n nin tset m).coefs j := by
  obtain ⟨_, _, hrd⟩ := Weighted.weighted_coefs models n nin tset m
  rw [hrd j hj]
  exact div_pos (one_div_pos.mpr (errAcc_pos models n nin tset j))
    (recipSum_pos models n nin tset m (by omega))

/-- C27, amended: in exact arithmetic, for `m ≥ 1` predictors every weight
stored by `Weighted::Weighted` is strictly positive and at most 1, so for every input (and whatever set of `m`
predictors `models` then points at) `Weighted::numeric_predict` lies between
the smallest and the largest of the `m` predictor outputs for that input. -/
theorem Weighted.weighted_between (models models2 : ℕ → Predictor) (n nin : ℕ)
    (tset : List ℚ) (m : ℕ) (hm : (Finset.range m).Nonempty) (input : List ℚ) :
    (∀ j, j < m →
      0 < rd (Weighted.ctor models n nin tset m).coefs j
        ∧ rd (Weighted.ctor models n nin tset m).coefs j ≤ 1)
    ∧ (Finset.range m).inf' hm (fun j => models2 j input)
        ≤ Weighted.numeric_predict models2 (Weighted.ctor models n nin tset m) input
    ∧ Weighted.numeric_predict models2 (Weighted.ctor models n nin tset m) input
        ≤ (Finset.range m).sup' hm (fun j => models2 j input) := by
  have hm1 : 1 ≤ m := by
    obtain ⟨j, hj⟩ := hm
    have := Finset.mem_range.mp hj
    omega
  have hsum := Weighted.coefs_sum_range models n nin tset m hm1
  have hpos := Weighted.coefs_pos models n nin tset m
  have hconv := convex_between m hm
    (fun j => rd (Weighted.ctor models n nin tset m).coefs j) (fun j => models2 j input)
    (fun j hj => (hpos j hj).le) hsum
  have hpred : Weighted.numeric_predict models2 (Weighted.ctor models n nin tset m) input
      = ∑ j in Finset.range m,
          rd (Weighted.ctor models n nin tset m).coefs j * models2 j input :=
    Weighted.predict_sum_weighted models2 _ input
  refine ⟨?_, ?_, ?_⟩
  · intro j hj
    refine ⟨hpos j hj, ?_⟩
    rw [← hsum]
    exact Finset.single_le_sum
      (f := fun j => rd (Weighted.ctor models n nin tset m).coefs j)
      (fun i hi => (hpos i (Finset.mem_range.mp hi)).le) (Finset.mem_range.mpr hj)
  · rw [hpred]; exact hconv.1
  · rw [hpred]; exact hconv.2

theorem Weighted.weighted_between_witness :
    (Finset.range 3).Nonempty
    ∧ (0 < rd (Weighted.ctor threeConst 2 1 [0, 3, 0, 2] 3).coefs 1
        ∧ rd (Weighted.ctor threeConst 2 1 [0, 3, 0, 2] 3).coefs 1 ≤ 1)
    ∧ (Finset.range 3).inf' (Finset.nonempty_range_succ) (fun j => linModels j [7])
        ≤ Weighted.numeric_predict linModels (Weighted.ctor threeConst 2 1 [0, 3, 0, 2] 3) [7] :=
  ⟨Finset.nonempty_range_succ,
   (Weighted.weighted_between threeConst linModels 2 1 [0, 3, 0, 2] 3
      Finset.nonempty_range_succ [7]).1 1 (by decide),
   (Weighted.weighted_between threeConst linModels 2 1 [0, 3, 0, 2] 3
      Finset.nonempty_range_succ [7]).2.1⟩

/-- C28, amended: in exact arithmetic, when the point `w` that the optimizer
leaves has all its `m` entries
`≥ 0` and `sum(w) ≥ 1e-60`, the weights stored by `Unbiased::Unbiased` are all
`≥ 0` and sum to exactly 1, and for every input `Unbiased::numeric_predict`
lies between the smallest and the largest predictor output for that input. -/
theorem Unbiased.unbiased_between (powell : Powell) (models models2 : ℕ → Predictor)
    (n nin : ℕ) (tset : List ℚ) (m : ℕ) (hm : (Finset.range m).Nonempty) (input : List ℚ)
    (hlen : (powell (Unbiased.call models n nin tset m)).2.length = m)
    (hpos : ∀ j, j < m → 0 ≤ rd (powell (Unbiased.call models n nin tset m)).2 j)
    (hs : (1e-60 : ℚ) ≤ (powell (Unbiased.call models n nin tset m)).2.sum) :
    (∀ j, j < m → 0 ≤ rd (Unbiased.ctor powell models n nin tset m).coefs j)
    ∧ (Unbiased.ctor powell models n nin tset m).coefs.sum = 1
    ∧ (Finset.range m).inf' hm (fun j => models2 j input)
        ≤ Unbiased.numeric_predict models2 (Unbiased.ctor powell models n nin tset m) input
    ∧ Unbiased.numeric_predict models2 (Unbiased.ctor powell models n nin tset m) input
        ≤ (Finset.range m).sup' hm (fun j => models2 j input) := by
  have hs2 : tiny ≤ (powell (Unbiased.call models n nin tset m)).2.sum := hs
  have hS : 0 < (powell (Unbiased.call models n nin tset m)).2.sum :=
    lt_of_lt_of_le tiny_pos hs2
  have hcoefs := Unbiased.unbiased_coefs powell models n nin tset m hlen
  rw [max_eq_left hs2] at hcoefs
  have hnn : ∀ j, j < m → 0 ≤ rd (Unbiased.ctor powell models n nin tset m).coefs j := by
    intro j hj
    rw [hcoefs, rd_map_div]
    exact div_nonneg (hpos j hj) hS.le
  have hsum : (Unbiased.ctor powell models n nin tset m).coefs.sum = 1 := by
    rw [hcoefs, sum_map_div]
    exact div_self hS.ne'
  have hclen : (Unbiased.ctor powell models n nin tset m).coefs.length = m := by
    rw [hcoefs, List.length_map, hlen]
  have hsum2 : ∑ j in Finset.range m, rd (Unbiased.ctor powell models n nin tset m).coefs j
      = 1 := by
    have h := sum_eq_sum_rd (Unbiased.ctor powell models n nin tset m).coefs
    rw [hclen, hsum] at h
    exact h.symm
  have hconv := convex_between m hm
    (fun j => rd (Unbiased.ctor powell models n nin tset m).coefs j)
    (fun j => models2 j input) hnn hsum2
  have hpred : Unbiased.numeric_predict models2 (Unbiased.ctor powell models n nin tset m) input
      = ∑ j in Finset.range m,
          rd (Unbiased.ctor powell models n nin tset m).coefs j * models2 j input :=
    Unbiased.predict_sum_unbiased models2 _ input
  refine ⟨hnn, hsum, ?_, ?_⟩
  · rw [hpred]; exact hconv.1
  · rw [hpred]; exact hconv.2

theorem rd_pair_nonneg (j : ℕ) (hj : j < 2) :
    0 ≤ rd (returnsPoint [1, 3] (Unbiased.call twoConst 1 1 [0, 6] 2)).2 j := by
  interval_cases j <;> simp [returnsPoint, rd]

theorem Unbiased.unbiased_between_witness :
    (Finset.range 2).Nonempty
    ∧ (returnsPoint [1, 3] (Unbiased.call twoConst 1 1 [0, 6] 2)).2.length = 2
    ∧ (∀ j, j < 2 → 0 ≤ rd (returnsPoint [1, 3] (Unbiased.call twoConst 1 1 [0, 6] 2)).2 j)
    ∧ (1e-60 : ℚ) ≤ (returnsPoint [1, 3] (Unbiased.call twoConst 1 1 [0, 6] 2)).2.sum
    ∧ (Unbiased.ctor (returnsPoint [1, 3]) twoConst 1 1 [0, 6] 2).coefs.sum = 1
    ∧ Unbiased.numeric_predict twoConst (Unbiased.ctor (returnsPoint [1, 3]) twoConst 1 1 [0, 6] 2)
          [7]
        ≤ (Finset.range 2).sup' Finset.nonempty_range_succ (fun j => twoConst j [7]) :=
  ⟨Finset.nonempty_range_succ, rfl, rd_pair_nonneg, by norm_num [returnsPoint],
   (Unbiased.unbiased_between (returnsPoint [1, 3]) twoConst twoConst 1 1 [0, 6] 2
      Finset.nonempty_range_succ [7] rfl rd_pair_nonneg (by norm_num [returnsPoint])).2.1,
   (Unbiased.unbiased_between (returnsPoint [1, 3]) twoConst twoConst 1 1 [0, 6] 2
      Finset.nonempty_range_succ [7] rfl rd_pair_nonneg (by norm_num [returnsPoint])).2.2.2⟩

/-! ## The bootstrap -/

theorem rd_bootSample (draws : ℕ → ℚ) (n : ℕ) (x : List ℚ) (p i : ℕ) (hi : i < n) :
    rd (bootSample draws n x p) i = rdz x (boot_pick n (draws (p + i))) := by
  simp [rd, bootSample, List.getD_eq_getElem?_getD, List.getElem?_map, List.getElem?_range, hi]

theorem length_bootSample (draws : ℕ → ℚ) (n : ℕ) (x : List ℚ) (p : ℕ) :
    (bootSample draws n x p).length = n := by
  simp [bootSample]

/-- The state after `k` passes of the loop that generates a bootstrap sample. -/
theorem boot_sample_passes (draws : ℕ → ℚ) (n : ℕ) (x y xw yw : List ℚ) (p k : ℕ)
    (hkx : k ≤ xw.length) (hky : k ≤ yw.length) :
    (forLoop k (fun i (s : List ℚ × List ℚ × ℕ) =>
        (wr s.1 i (rdz x (boot_pick n (draws s.2.2))),
         wr s.2.1 i (rdz y (boot_pick n (draws s.2.2))), s.2.2 + 1)) (xw, yw, p)).1.length
      = xw.length
    ∧ (forLoop k (fun i (s : List ℚ × List ℚ × ℕ) =>
        (wr s.1 i (rdz x (boot_pick n (draws s.2.2))),
         wr s.2.1 i (rdz y (boot_pick n (draws s.2.2))), s.2.2 + 1)) (xw, yw, p)).2.1.length
      = yw.length
    ∧ (forLoop k (fun i (s : List ℚ × List ℚ × ℕ) =>
        (wr s.1 i (rdz x (boot_pick n (draws s.2.2))),
         wr s.2.1 i (rdz y (boot_pick n (draws s.2.2))), s.2.2 + 1)) (xw, yw, p)).2.2
      = p + k
    ∧ ∀ i, i < k →
        rd (forLoop k (fun i (s : List ℚ × List ℚ × ℕ) =>
          (wr s.1 i (rdz x (boot_pick n (draws s.2.2))),
           wr s.2.1 i (rdz y (boot_pick n (draws s.2.2))), s.2.2 + 1)) (xw, yw, p)).1 i
          = rdz x (boot_pick n (draws (p + i)))
        ∧ rd (forLoop k (fun i (s : List ℚ × List ℚ × ℕ) =>
          (wr s.1 i (rdz x (boot_pick n (draws s.2.2))),
           wr s.2.1 i (rdz y (boot_pick n (draws s.2.2))), s.2.2 + 1)) (xw, yw, p)).2.1 i
          = rdz y (boot_pick n (draws (p + i))) := by
  induction k with
  | zero => simp [forLoop]
  | succ k ih =>
    obtain ⟨hlx, hly, hpos, hrd⟩ := ih (by omega) (by omega)
    rw [forLoop_succ]
    refine ⟨by simp only [length_wr]; exact hlx, by simp only [length_wr]; exact hly,
      by simp only [hpos]; ring, ?_⟩
    intro i hi
    by_cases hik : i = k
    · subst hik
      simp only []
      rw [rd_wr_same _ _ _ (by rw [hlx]; omega), rd_wr_same _ _ _ (by rw [hly]; omega), hpos]
      exact ⟨rfl, rfl⟩
    · simp only []
      rw [rd_wr_ne _ _ _ _ (Ne.symm hik), rd_wr_ne _ _ _ _ (Ne.symm hik)]
      exact hrd i (by omega)

/-- The loop that generates a bootstrap sample fills the two work areas with
the selected cases and calls `unifrand` `n` times. -/
theorem boot_sample_spec (draws : ℕ → ℚ) (n : ℕ) (x y xw yw : List ℚ) (p : ℕ)
    (hx : xw.length = n) (hy : yw.length = n) :
    boot_sample draws n x y (xw, yw, p)
      = (bootSample draws n x p, bootSample draws n y p, p + n) := by
  obtain ⟨hlx, hly, hpos, hrd⟩ := boot_sample_passes draws n x y xw yw p n
    (by rw [hx]) (by rw [hy])
  have h1 : (boot_sample draws n x y (xw, yw, p)).1 = bootSample draws n x p := by
    apply ext_rd
    · rw [length_bootSample]; exact hlx.trans hx
    · intro i hi
      have hin : i < n := by
        have : (boot_sample draws n x y (xw, yw, p)).1.length = n := hlx.trans hx
        omega
      rw [rd_bootSample draws n x p i hin]
      exact (hrd i hin).1
  have h2 : (boot_sample draws n x y (xw, yw, p)).2.1 = bootSample draws n y p := by
    apply ext_rd
    · rw [length_bootSample]; exact hly.trans hy
    · intro i hi
      have hin : i < n := by
        have : (boot_sample draws n x y (xw, yw, p)).2.1.length = n := hly.trans hy
        omega
      rw [rd_bootSample draws n y p i hin]
      exact (hrd i hin).2
  have h3 : (boot_sample draws n x y (xw, yw, p)).2.2 = p + n := hpos
  calc boot_sample draws n x y (xw, yw, p)
      = ((boot_sample draws n x y (xw, yw, p)).1, (boot_sample draws n x y (xw, yw, p)).2.1,
          (boot_sample draws n x y (xw, yw, p)).2.2) := rfl
    _ = (bootSample draws n x p, bootSample draws n y p, p + n) := by rw [h1, h2, h3]

/-- The state after `R` bootstrap replicates. -/
theorem boot_reps_spec (draws : ℕ → ℚ) (pos n : ℕ) (x y : List ℚ)
    (user_t : ℕ → List ℚ → List ℚ → ℚ) (xwork ywork work2 : List ℚ) (R : ℕ)
    (hx : xwork.length = n) (hy : ywork.length = n) (hR : R ≤ work2.length) :
    (boot_reps draws n x y user_t R
        { xwork := xwork, ywork := ywork, work2 := work2, mean := 0, pos := pos }).xwork.length
      = n
    ∧ (boot_reps draws n x y user_t R
        { xwork := xwork, ywork := ywork, work2 := work2, mean := 0, pos := pos }).ywork.length
      = n
    ∧ (boot_reps draws n x y user_t R
        { xwork := xwork, ywork := ywork, work2 := work2, mean := 0, pos := pos }).work2.length
      = work2.length
    ∧ (boot_reps draws n x y user_t R
        { xwork := xwork, ywork := ywork, work2 := work2, mean := 0, pos := pos }).pos
      = pos + R * n
    ∧ (boot_reps draws n x y user_t R
        { xwork := xwork, ywork := ywork, work2 := work2, mean := 0, pos := pos }).mean
      = ∑ r in Finset.range R, bootStat draws pos n x y user_t r
    ∧ ∀ r, r < R →
        rd (boot_reps draws n x y user_t R
          { xwork := xwork, ywork := ywork, work2 := work2, mean := 0, pos := pos }).work2 r
          = bootStat draws pos n x y user_t r := by
  induction R with
  | zero => simp [boot_reps, forLoop, hx, hy]
  | succ R ih =>
    obtain ⟨hlx, hly, hlw, hpos, hmean, hrd⟩ := ih (by omega)
    have hstep : boot_reps draws n x y user_t (R + 1)
          { xwork := xwork, ywork := ywork, work2 := work2, mean := 0, pos := pos }
        = (fun (s : BootState) =>
            ({ xwork := (boot_sample draws n x y (s.xwork, s.ywork, s.pos)).1,
               ywork := (boot_sample draws n x y (s.xwork, s.ywork, s.pos)).2.1,
               work2 := wr s.work2 R
                 (user_t n (boot_sample draws n x y (s.xwork, s.ywork, s.pos)).1
                   (boot_sample draws n x y (s.xwork, s.ywork, s.pos)).2.1),
               mean := s.mean
                 + user_t n (boot_sample draws n x y (s.xwork, s.ywork, s.pos)).1
                   (boot_sample draws n x y (s.xwork, s.ywork, s.pos)).2.1,
               pos := (boot_sample draws n x y (s.xwork, s.ywork, s.pos)).2.2 } : BootState))
          (boot_reps draws n x y user_t R
            { xwork := xwork, ywork := ywork, work2 := work2, mean := 0, pos := pos }) := rfl
    rw [hstep]
    simp only [boot_sample_spec draws n x y _ _ _ hlx hly, hpos, hmean]
    refine ⟨length_bootSample _ _ _ _, length_bootSample _ _ _ _,
      by rw [length_wr, hlw], by ring, ?_, ?_⟩
    · rw [Finset.sum_range_succ]; rfl
    · intro r hr
      by_cases hrR : r = R
      · subst hrR
        rw [rd_wr_same _ _ _ (by rw [hlw]; omega)]
        rfl
      · rw [rd_wr_ne _ _ _ _ (Ne.symm hrR)]
        exact hrd r (by omega)

/-- The loop that cumulates the variance, when the mean is a number. -/
theorem boot_variance_some (nboot : ℕ) (work2 : List ℚ) (mu : ℚ) :
    boot_variance nboot work2 (some mu)
      = some (∑ r in Finset.range nboot, (rd work2 r - mu) ^ 2) := by
  induction nboot with
  | zero => simp [boot_variance, forLoop]
  | succ k ih =>
    have hstep : boot_variance (k + 1) work2 (some mu)
        = (boot_variance k work2 (some mu)).bind
            (fun v => some (v + (rd work2 k - mu) * (rd work2 k - mu))) := rfl
    rw [hstep, ih, Finset.sum_range_succ]
    simp [sq]

theorem pow2_pos (e : ℤ) : 0 < pow2 e := by
  unfold pow2
  split_ifs
  · positivity
  · positivity

theorem roundEven_nonneg (t : ℚ) (ht : 0 ≤ t) : 0 ≤ roundEven t := by
  have hf : 0 ≤ ⌊t⌋ := Int.floor_nonneg.mpr ht
  unfold roundEven
  simp only []
  split_ifs <;> omega

/-- Rounding keeps the sign: a product that is not negative is rounded to a
double that is not negative. -/
theorem nearest64_nonneg (q : ℚ) (hq : 0 ≤ q) : 0 ≤ nearest64 q := by
  unfold nearest64
  split_ifs with h0 hneg
  · exact le_refl 0
  · exact absurd hneg (not_lt.mpr hq)
  · simp only []
    refine mul_nonneg ?_ (pow2_pos _).le
    have : 0 ≤ roundEven (|q| / pow2 (max (expOf |q|) (-1022) - 52)) :=
      roundEven_nonneg _ (div_nonneg (abs_nonneg q) (pow2_pos _).le)
    exact_mod_cast this

/-- For a draw that is not negative, the selected index is the integer part of
the rounded product, capped at `n - 1`. -/
theorem boot_pick_floor (n : ℕ) (u : ℚ) (hu : 0 ≤ u) :
    boot_pick n u = min ⌊nearest64 (u * (n : ℚ))⌋ ((n : ℤ) - 1) := by
  have h := nearest64_nonneg (u * (n : ℚ)) (mul_nonneg hu (Nat.cast_nonneg n))
  unfold boot_pick castInt
  rw [if_pos h]
  simp only []
  split_ifs with hk
  · rw [min_eq_right (by omega)]
  · rw [min_eq_left (by omega)]

/-- The selected index is a case of the sample: for a draw that is not
negative and `n ≥ 1`, it lies in `[0, n - 1]`. -/
theorem boot_pick_range (n : ℕ) (u : ℚ) (hn : 1 ≤ n) (hu : 0 ≤ u) :
    0 ≤ boot_pick n u ∧ boot_pick n u < (n : ℤ) := by
  have h := nearest64_nonneg (u * (n : ℚ)) (mul_nonneg hu (Nat.cast_nonneg n))
  have hf : 0 ≤ ⌊nearest64 (u * (n : ℚ))⌋ := Int.floor_nonneg.mpr h
  rw [boot_pick_floor n u hu]
  constructor
  · exact le_min hf (by omega)
  · exact lt_of_le_of_lt (min_le_right _ _) (by omega)

/-- C21: for `nboot ≥ 2` replicates, work areas `xwork` and `ywork` of `n`
cells and `work2` of at least `nboot` cells, `boot_bias_var` outputs
`rawstat = user_t(n, x, y)`, `bias` = the mean of the `nboot` replicate
statistics minus `rawstat`, and `var` = the sum over the replicates of
`(statistic - mean)^2` divided by `nboot - 1`, which is `≥ 0`; the statistic of
replicate `r` is `user_t` on the `n` cases `(x[k], y[k])` selected by the `n`
draws of that replicate, draw `u` (not negative) selecting the case whose
index `k` is the integer part of the double product `u * n`, capped at
`n - 1`, which for `n ≥ 1` is an index of the sample. -/
theorem boot_bias_var_spec (draws : ℕ → ℚ) (pos n : ℕ) (x y : List ℚ)
    (user_t : ℕ → List ℚ → List ℚ → ℚ) (nboot : ℕ) (xwork ywork work2 : List ℚ)
    (hnb : 2 ≤ nboot) (hx : xwork.length = n) (hy : ywork.length = n)
    (hw2 : nboot ≤ work2.length) :
    (boot_bias_var draws pos n x y user_t nboot xwork ywork work2).rawstat = user_t n x y
    ∧ (boot_bias_var draws pos n x y user_t nboot xwork ywork work2).bias
        = some (bootMean draws pos n x y user_t nboot - user_t n x y)
    ∧ (boot_bias_var draws pos n x y user_t nboot xwork ywork work2).var
        = some ((∑ r in Finset.range nboot,
            (bootStat draws pos n x y user_t r - bootMean draws pos n x y user_t nboot) ^ 2)
              / ((nboot : ℚ) - 1))
    ∧ 0 ≤ (∑ r in Finset.range nboot,
            (bootStat draws pos n x y user_t r - bootMean draws pos n x y user_t nboot) ^ 2)
              / ((nboot : ℚ) - 1)
    ∧ (∀ r, bootStat draws pos n x y user_t r
        = user_t n
            ((List.range n).map (fun i => rdz x (boot_pick n (draws (pos + r * n + i)))))
            ((List.range n).map (fun i => rdz y (boot_pick n (draws (pos + r * n + i))))))
    ∧ (∀ u : ℚ, 0 ≤ u →
        boot_pick n u = min ⌊nearest64 (u * (n : ℚ))⌋ ((n : ℤ) - 1))
    ∧ (∀ u : ℚ, 0 ≤ u → 1 ≤ n → 0 ≤ boot_pick n u ∧ boot_pick n u < (n : ℤ)) := by
  obtain ⟨_, _, _, _, hmean, hrd⟩ := boot_reps_spec draws pos n x y user_t xwork ywork work2
    nboot hx hy hw2
  have hnb0 : (nboot : ℚ) ≠ 0 := by
    have : 0 < nboot := by omega
    exact_mod_cast this.ne'
  have hnb1 : (0 : ℚ) < (nboot : ℚ) - 1 := by
    have : (2 : ℚ) ≤ (nboot : ℚ) := by exact_mod_cast hnb
    linarith
  have hm : fdiv (boot_reps draws n x y user_t nboot
        { xwork := xwork, ywork := ywork, work2 := work2, mean := 0, pos := pos }).mean
        (nboot : ℚ)
      = some (bootMean draws pos n x y user_t nboot) := by
    rw [fdiv_of_ne_zero _ _ hnb0, hmean]
    rfl
  have hsq : ∑ r in Finset.range nboot,
        (rd (boot_reps draws n x y user_t nboot
            { xwork := xwork, ywork := ywork, work2 := work2, mean := 0, pos := pos }).work2 r
          - bootMean draws pos n x y user_t nboot) ^ 2
      = ∑ r in Finset.range nboot,
        (bootStat draws pos n x y user_t r - bootMean draws pos n x y user_t nboot) ^ 2 :=
    Finset.sum_congr rfl (fun r hr => by rw [hrd r (Finset.mem_range.mp hr)])
  refine ⟨rfl, ?_, ?_, ?_, fun r => rfl, fun u hu => boot_pick_floor n u hu,
    fun u hu hn => boot_pick_range n u hn hu⟩
  · simp only [boot_bias_var, hm, Option.map_some']
  · simp only [boot_bias_var, hm, boot_variance_some, hsq, Option.some_bind]
    exact fdiv_of_ne_zero _ _ hnb1.ne'
  · exact div_nonneg (Finset.sum_nonneg (fun _ _ => sq_nonneg _)) hnb1.le

theorem boot_bias_var_spec_witness :
    (2 ≤ 2) ∧ (List.replicate 10 (0 : ℚ)).length = 10 ∧ 2 ≤ ([0, 0] : List ℚ).length
    ∧ (boot_bias_var tenths 0 10 [1, 2, 3, 4, 5, 6, 7, 8, 9, 10] [4, 5, 6, 7, 8, 9, 1, 2, 3, 0]
        sumProducts 2 (List.replicate 10 0) (List.replicate 10 0) [0, 0]).rawstat
        = sumProducts 10 [1, 2, 3, 4, 5, 6, 7, 8, 9, 10] [4, 5, 6, 7, 8, 9, 1, 2, 3, 0]
    ∧ (boot_bias_var tenths 0 10 [1, 2, 3, 4, 5, 6, 7, 8, 9, 10] [4, 5, 6, 7, 8, 9, 1, 2, 3, 0]
        sumProducts 2 (List.replicate 10 0) (List.replicate 10 0) [0, 0]).bias
        = some (bootMean tenths 0 10 [1, 2, 3, 4, 5, 6, 7, 8, 9, 10]
            [4, 5, 6, 7, 8, 9, 1, 2, 3, 0] sumProducts 2
            - sumProducts 10 [1, 2, 3, 4, 5, 6, 7, 8, 9, 10] [4, 5, 6, 7, 8, 9, 1, 2, 3, 0])
    ∧ boot_pick 10 (5404319552844595 / 18014398509481984) = 3
    ∧ boot_pick 10 1 = 9 :=
  ⟨by decide, rfl, by decide,
   (boot_bias_var_spec tenths 0 10 [1, 2, 3, 4, 5, 6, 7, 8, 9, 10]
      [4, 5, 6, 7, 8, 9, 1, 2, 3, 0] sumProducts 2 (List.replicate 10 0) (List.replicate 10 0)
      [0, 0] (by decide) rfl rfl (by decide)).1,
   (boot_bias_var_spec tenths 0 10 [1, 2, 3, 4, 5, 6, 7, 8, 9, 10]
      [4, 5, 6, 7, 8, 9, 1, 2, 3, 0] sumProducts 2 (List.replicate 10 0) (List.replicate 10 0)
      [0, 0] (by decide) rfl rfl (by decide)).2.1,
   ((boot_bias_var_spec tenths 0 10 [1, 2, 3, 4, 5, 6, 7, 8, 9, 10]
      [4, 5, 6, 7, 8, 9, 1, 2, 3, 0] sumProducts 2 (List.replicate 10 0) (List.replicate 10 0)
      [0, 0] (by decide) rfl rfl (by decide)).2.2.2.2.2.1
      (5404319552844595 / 18014398509481984) (by decide!)).trans (by decide!),
   ((boot_bias_var_spec tenths 0 10 [1, 2, 3, 4, 5, 6, 7, 8, 9, 10]
      [4, 5, 6, 7, 8, 9, 1, 2, 3, 0] sumProducts 2 (List.replicate 10 0) (List.replicate 10 0)
      [0, 0] (by decide) rfl rfl (by decide)).2.2.2.2.2.1 1 (by decide!)).trans (by decide!)⟩

/-- The double nearest to 0.3 lies below 0.3, and its product with 10 rounds to
the double 3: the draw 0.3 selects case 3 of ten, where the integer part of
the exact product is 2. -/
theorem boot_pick_rounds :
    nearest64 (3 / 10) = 5404319552844595 / 18014398509481984
    ∧ boot_pick 10 (nearest64 (3 / 10)) = 3
    ∧ ⌊nearest64 (3 / 10) * 10⌋ = 2 := by
  decide!

/-! ## Bilinear: reading a sorted table -/

theorem rdz_ofNat (p : List ℚ) (k : ℕ) : rdz p (k : ℤ) = rd p k := by
  simp [rdz]

theorem rd_eq_getElem (p : List ℚ) (k : ℕ) (h : k < p.length) : rd p k = p[k] :=
  List.getD_eq_getElem p 0 h

theorem sorted_lt_rdz (p : List ℚ) (hs : p.Sorted (· < ·)) (i j : ℤ) (h0 : 0 ≤ i)
    (hij : i < j) (hj : j < (p.length : ℤ)) : rdz p i < rdz p j := by
  lift i to ℕ using h0
  lift j to ℕ using (by omega)
  have hij2 : i < j := by exact_mod_cast hij
  have hj2 : j < p.length := by exact_mod_cast hj
  rw [rdz_ofNat, rdz_ofNat, rd_eq_getElem p i (by omega), rd_eq_getElem p j hj2]
  exact List.pairwise_iff_getElem.mp hs i j (by omega) hj2 hij2

theorem sorted_le_rdz (p : List ℚ) (hs : p.Sorted (· ≤ ·)) (i j : ℤ) (h0 : 0 ≤ i)
    (hij : i ≤ j) (hj : j < (p.length : ℤ)) : rdz p i ≤ rdz p j := by
  rcases eq_or_lt_of_le hij with h | h
  · rw [h]
  · lift i to ℕ using h0
    lift j to ℕ using (by omega)
    have hij2 : i < j := by exact_mod_cast h
    have hj2 : j < p.length := by exact_mod_cast hj
    rw [rdz_ofNat, rdz_ofNat, rd_eq_getElem p i (by omega), rd_eq_getElem p j hj2]
    exact List.pairwise_iff_getElem.mp hs i j (by omega) hj2 hij2

theorem sorted_lt_sorted_le (p : List ℚ) (hs : p.Sorted (· < ·)) : p.Sorted (· ≤ ·) :=
  List.Pairwise.imp (fun h => le_of_lt h) hs

/-- The bounded input lies between the first and the last coordinate. -/
theorem Bilinear.bound_mem (p : List ℚ) (n : ℤ) (pt : ℚ) (h : rdz p 0 ≤ rdz p (n - 1)) :
    rdz p 0 ≤ Bilinear.bound p n pt ∧ Bilinear.bound p n pt ≤ rdz p (n - 1) := by
  rw [Bilinear.bound_eq]
  exact ⟨le_min (le_max_right _ _) h, min_le_right _ _⟩

/-- An input already between the first and the last coordinate is not changed. -/
theorem Bilinear.bound_of_mem (p : List ℚ) (n : ℤ) (pt : ℚ) (h1 : rdz p 0 ≤ pt)
    (h2 : pt ≤ rdz p (n - 1)) : Bilinear.bound p n pt = pt := by
  rw [Bilinear.bound_eq, max_eq_left h1, min_eq_left h2]

/-! ## Bilinear: the binary search -/

theorem tdiv_two_between (klo khi : ℤ) (h : khi > klo + 1) :
    klo < Int.tdiv (khi + klo) 2 ∧ Int.tdiv (khi + klo) 2 < khi := by
  rcases le_or_lt 0 (khi + klo) with h0 | h0
  · rw [Int.tdiv_eq_ediv h0 (by norm_num)]
    omega
  · have hneg : khi + klo = -(-(khi + klo)) := by ring
    rw [hneg, Int.neg_tdiv, Int.tdiv_eq_ediv (by omega) (by norm_num)]
    omega

/-- One turn of the loop `while (khi > klo+1)`. -/
theorem Bilinear.search_step (p : List ℚ) (pt : ℚ) (klo khi : ℤ) (h : khi > klo + 1) :
    Bilinear.search p pt klo khi
      = if pt < rdz p (Int.tdiv (khi + klo) 2)
          then Bilinear.search p pt klo (Int.tdiv (khi + klo) 2)
          else Bilinear.search p pt (Int.tdiv (khi + klo) 2) khi := by
  rw [Bilinear.search, if_pos h]

/-- The exit of the loop `while (khi > klo+1)`. -/
theorem Bilinear.search_exit (p : List ℚ) (pt : ℚ) (klo khi : ℤ) (h : ¬ khi > klo + 1) :
    Bilinear.search p pt klo khi = (klo, khi) := by
  rw [Bilinear.search, if_neg h]

/-- One turn of the loop `while (khi > klo+1)`, on doubles. -/
theorem Bilinear.search64_step (p : List F64) (pt : F64) (klo khi : ℤ) (h : khi > klo + 1) :
    Bilinear.search64 p pt klo khi
      = if F64.lt pt (rdz64 p (Int.tdiv (khi + klo) 2)) = true
          then Bilinear.search64 p pt klo (Int.tdiv (khi + klo) 2)
          else Bilinear.search64 p pt (Int.tdiv (khi + klo) 2) khi := by
  rw [Bilinear.search64, if_pos h]

/-- The exit of the loop `while (khi > klo+1)`, on doubles. -/
theorem Bilinear.search64_exit (p : List F64) (pt : F64) (klo khi : ℤ)
    (h : ¬ khi > klo + 1) : Bilinear.search64 p pt klo khi = (klo, khi) := by
  rw [Bilinear.search64, if_neg h]

/-- On a table of three nodes the loop takes one turn: the bracket is `(0, 1)`
for an input below the middle node and `(1, 2)` otherwise. -/
theorem Bilinear.search64_three (p : List F64) (pt : F64) :
    Bilinear.search64 p pt 0 (3 - 1)
      = if F64.lt pt (rdz64 p 1) = true then (0, 1) else (1, 2) := by
  rw [Bilinear.search64_step p pt 0 (3 - 1) (by decide)]
  have h : Int.tdiv (3 - 1 + 0) 2 = 1 := by decide
  rw [h, Bilinear.search64_exit p pt 0 1 (by decide),
    Bilinear.search64_exit p pt 1 (3 - 1) (by decide)]
  rfl

/-- On a table of two nodes the loop takes no turn. -/
theorem Bilinear.search64_two (p : List F64) (pt : F64) :
    Bilinear.search64 p pt 0 (2 - 1) = (0, 1) :=
  Bilinear.search64_exit p pt 0 (2 - 1) (by decide)

/-- On doubles, from any `klo < khi` the loop ends with a bracket of two
neighbouring indices between them, whatever the comparisons answer. -/
theorem Bilinear.search64_bracket (p : List F64) (pt : F64) :
    ∀ (d : ℕ) (klo khi : ℤ), (khi - klo).toNat = d → klo < khi →
      klo ≤ (Bilinear.search64 p pt klo khi).1
      ∧ (Bilinear.search64 p pt klo khi).2 = (Bilinear.search64 p pt klo khi).1 + 1
      ∧ (Bilinear.search64 p pt klo khi).2 ≤ khi := by
  intro d
  induction d using Nat.strong_induction_on with
  | _ d ih =>
    intro klo khi hd hlt
    by_cases h : khi > klo + 1
    · obtain ⟨hk1, hk2⟩ := tdiv_two_between klo khi h
      rw [Bilinear.search64_step p pt klo khi h]
      by_cases hc : F64.lt pt (rdz64 p (Int.tdiv (khi + klo) 2)) = true
      · rw [if_pos hc]
        obtain ⟨a1, a2, a3⟩ := ih ((Int.tdiv (khi + klo) 2 - klo).toNat) (by omega)
          klo (Int.tdiv (khi + klo) 2) rfl hk1
        exact ⟨a1, a2, by omega⟩
      · rw [if_neg hc]
        obtain ⟨a1, a2, a3⟩ := ih ((khi - Int.tdiv (khi + klo) 2).toNat) (by omega)
          (Int.tdiv (khi + klo) 2) khi rfl hk2
        exact ⟨by omega, a2, a3⟩
    · rw [Bilinear.search64_exit p pt klo khi h]
      exact ⟨le_refl _, by simp only []; omega, le_refl _⟩

/-- On doubles, for `n ≥ 3`, the three indices chosen along one coordinate are
consecutive and inside `0 .. n - 1`, for every array and every input, a NaN
included: the choice rests on comparisons of indices alone. -/
theorem Bilinear.triple64_spec (p : List F64) (n : ℤ) (pt : F64) (hn : 3 ≤ n) :
    0 ≤ (Bilinear.triple64 p n pt).1
    ∧ (Bilinear.triple64 p n pt).2.1 = (Bilinear.triple64 p n pt).1 + 1
    ∧ (Bilinear.triple64 p n pt).2.2 = (Bilinear.triple64 p n pt).1 + 2
    ∧ (Bilinear.triple64 p n pt).2.2 ≤ n - 1 := by
  obtain ⟨h0, h1, h2⟩ := Bilinear.search64_bracket p pt _ 0 (n - 1) rfl (by omega)
  unfold Bilinear.triple64 Bilinear.third64
  split_ifs with a b c
  · dsimp only; omega
  · dsimp only; omega
  · dsimp only; omega
  · dsimp only; omega

/-- What the loop keeps and reaches, from any `klo < khi` that bracket the
input. -/
theorem Bilinear.search_bracket (p : List ℚ) (pt : ℚ) :
    ∀ (d : ℕ) (klo khi : ℤ), (khi - klo).toNat = d → klo < khi →
      rdz p klo ≤ pt → pt ≤ rdz p khi →
      klo ≤ (Bilinear.search p pt klo khi).1
      ∧ (Bilinear.search p pt klo khi).2 = (Bilinear.search p pt klo khi).1 + 1
      ∧ (Bilinear.search p pt klo khi).2 ≤ khi
      ∧ rdz p (Bilinear.search p pt klo khi).1 ≤ pt
      ∧ pt ≤ rdz p (Bilinear.search p pt klo khi).2 := by
  intro d
  induction d using Nat.strong_induction_on with
  | _ d ih =>
    intro klo khi hd hlt hlo hhi
    by_cases h : khi > klo + 1
    · obtain ⟨hk1, hk2⟩ := tdiv_two_between klo khi h
      rw [Bilinear.search_step p pt klo khi h]
      by_cases hc : pt < rdz p (Int.tdiv (khi + klo) 2)
      · rw [if_pos hc]
        obtain ⟨a1, a2, a3, a4, a5⟩ := ih ((Int.tdiv (khi + klo) 2 - klo).toNat) (by omega)
          klo (Int.tdiv (khi + klo) 2) rfl hk1 hlo hc.le
        exact ⟨a1, a2, by omega, a4, a5⟩
      · rw [if_neg hc]
        obtain ⟨a1, a2, a3, a4, a5⟩ := ih ((khi - Int.tdiv (khi + klo) 2).toNat) (by omega)
          (Int.tdiv (khi + klo) 2) khi rfl hk2 (not_lt.mp hc) hhi
        exact ⟨by omega, a2, a3, a4, a5⟩
    · rw [Bilinear.search_exit p pt klo khi h]
      exact ⟨le_refl _, by simp only []; omega, le_refl _, hlo, hhi⟩

/-- C23: for an ascending coordinate array of length `n ≥ 2` and every query
point, the binary search of `Bilinear::evaluate` (a total function: the loop
terminates) ends with `0 ≤ klo`, `khi = klo + 1 ≤ n - 1` and
`p[klo] ≤ pt ≤ p[khi]` for the bounded input `pt`; this holds for `x` with `nx`
and for `y` with `ny`. -/
theorem Bilinear.search_spec (self : Bilinear) (xpt ypt : ℚ)
    (hnx : 2 ≤ self.nx) (hny : 2 ≤ self.ny)
    (hxl : (self.x.length : ℤ) = self.nx) (hyl : (self.y.length : ℤ) = self.ny)
    (hx : self.x.Sorted (· ≤ ·)) (hy : self.y.Sorted (· ≤ ·)) :
    (0 ≤ (Bilinear.search self.x (Bilinear.bound self.x self.nx xpt) 0 (self.nx - 1)).1
      ∧ (Bilinear.search self.x (Bilinear.bound self.x self.nx xpt) 0 (self.nx - 1)).2
          = (Bilinear.search self.x (Bilinear.bound self.x self.nx xpt) 0 (self.nx - 1)).1 + 1
      ∧ (Bilinear.search self.x (Bilinear.bound self.x self.nx xpt) 0 (self.nx - 1)).2
          ≤ self.nx - 1
      ∧ rdz self.x (Bilinear.search self.x (Bilinear.bound self.x self.nx xpt) 0
            (self.nx - 1)).1 ≤ Bilinear.bound self.x self.nx xpt
      ∧ Bilinear.bound self.x self.nx xpt
          ≤ rdz self.x (Bilinear.search self.x (Bilinear.bound self.x self.nx xpt) 0
            (self.nx - 1)).2)
    ∧ (0 ≤ (Bilinear.search self.y (Bilinear.bound self.y self.ny ypt) 0 (self.ny - 1)).1
      ∧ (Bilinear.search self.y (Bilinear.bound self.y self.ny ypt) 0 (self.ny - 1)).2
          = (Bilinear.search self.y (Bilinear.bound self.y self.ny ypt) 0 (self.ny - 1)).1 + 1
      ∧ (Bilinear.search self.y (Bilinear.bound self.y self.ny ypt) 0 (self.ny - 1)).2
          ≤ self.ny - 1
      ∧ rdz self.y (Bilinear.search self.y (Bilinear.bound self.y self.ny ypt) 0
            (self.ny - 1)).1 ≤ Bilinear.bound self.y self.ny ypt
      ∧ Bilinear.bound self.y self.ny ypt
          ≤ rdz self.y (Bilinear.search self.y (Bilinear.bound self.y self.ny ypt) 0
            (self.ny - 1)).2) := by
  have hx0 : rdz self.x 0 ≤ rdz self.x (self.nx - 1) :=
    sorted_le_rdz self.x hx 0 (self.nx - 1) (le_refl _) (by omega) (by omega)
  have hy0 : rdz self.y 0 ≤ rdz self.y (self.ny - 1) :=
    sorted_le_rdz self.y hy 0 (self.ny - 1) (le_refl _) (by omega) (by omega)
  obtain ⟨bx1, bx2⟩ := Bilinear.bound_mem self.x self.nx xpt hx0
  obtain ⟨by1, by2⟩ := Bilinear.bound_mem self.y self.ny ypt hy0
  exact ⟨Bilinear.search_bracket self.x _ _ 0 (self.nx - 1) rfl (by omega) bx1 bx2,
    Bilinear.search_bracket self.y _ _ 0 (self.ny - 1) rfl (by omega) by1 by2⟩

theorem Bilinear.search_spec_witness :
    (2 ≤ gridTable.nx) ∧ (2 ≤ gridTable.ny)
    ∧ ((gridTable.x.length : ℤ) = gridTable.nx) ∧ ((gridTable.y.length : ℤ) = gridTable.ny)
    ∧ gridTable.x.Sorted (· ≤ ·) ∧ gridTable.y.Sorted (· ≤ ·)
    ∧ (Bilinear.search gridTable.x (Bilinear.bound gridTable.x gridTable.nx (5 / 2)) 0
          (gridTable.nx - 1)).2
        = (Bilinear.search gridTable.x (Bilinear.bound gridTable.x gridTable.nx (5 / 2)) 0
          (gridTable.nx - 1)).1 + 1 :=
  ⟨by decide, by decide, rfl, rfl, by simp [gridTable], by simp [gridTable],
   (Bilinear.search_spec gridTable (5 / 2) 7 (by decide) (by decide) rfl rfl
      (by simp [gridTable]) (by simp [gridTable])).1.2.1⟩

/-! ## Bilinear: the third point and the coefficients -/

/-- The three indices chosen from a bracket `klo`, `khi = klo + 1` inside
`0 .. n - 1`, for `n ≥ 3`: consecutive, inside `0 .. n - 1`, and containing the
bracket. -/
theorem Bilinear.third_spec (p : List ℚ) (n : ℤ) (pt : ℚ) (klo khi : ℤ) (hn : 3 ≤ n)
    (h0 : 0 ≤ klo) (h1 : khi = klo + 1) (h2 : khi ≤ n - 1) :
    0 ≤ (Bilinear.third p n pt klo khi).1
    ∧ (Bilinear.third p n pt klo khi).2.1 = (Bilinear.third p n pt klo khi).1 + 1
    ∧ (Bilinear.third p n pt klo khi).2.2 = (Bilinear.third p n pt klo khi).1 + 2
    ∧ (Bilinear.third p n pt klo khi).2.2 ≤ n - 1
    ∧ (((Bilinear.third p n pt klo khi).1 = klo ∧ (Bilinear.third p n pt klo khi).2.1 = khi)
      ∨ ((Bilinear.third p n pt klo khi).2.1 = klo
          ∧ (Bilinear.third p n pt klo khi).2.2 = khi)) := by
  unfold Bilinear.third
  split_ifs with a b c
  · dsimp only; omega
  · dsimp only; omega
  · dsimp only; omega
  · dsimp only; omega

/-- The three coefficients, when the three coordinates are distinct. -/
theorem Bilinear.coefs3_some (p : List ℚ) (pt : ℚ) (klo kmid khi : ℤ)
    (h1 : rdz p klo ≠ rdz p kmid) (h2 : rdz p klo ≠ rdz p khi)
    (h3 : rdz p kmid ≠ rdz p khi) :
    Bilinear.coefs3 p pt klo kmid khi
      = some (quadLo (rdz p klo) (rdz p kmid) (rdz p khi) pt,
              quadMid (rdz p klo) (rdz p kmid) (rdz p khi) pt,
              quadHi (rdz p klo) (rdz p kmid) (rdz p khi) pt) := by
  have d1 : (rdz p klo - rdz p kmid) * (rdz p klo - rdz p khi) ≠ 0 :=
    mul_ne_zero (sub_ne_zero.mpr h1) (sub_ne_zero.mpr h2)
  have d2 : (-(rdz p klo - rdz p kmid)) * (rdz p kmid - rdz p khi) ≠ 0 :=
    mul_ne_zero (neg_ne_zero.mpr (sub_ne_zero.mpr h1)) (sub_ne_zero.mpr h3)
  have d3 : (rdz p klo - rdz p khi) * (rdz p kmid - rdz p khi) ≠ 0 :=
    mul_ne_zero (sub_ne_zero.mpr h2) (sub_ne_zero.mpr h3)
  simp only [Bilinear.coefs3, fdiv_of_ne_zero _ _ d1, fdiv_of_ne_zero _ _ d2,
    fdiv_of_ne_zero _ _ d3, quadLo, quadMid, quadHi]
  rfl

/-! ## Bilinear: the two modes of the interpolation -/

/-- The value in bilinear mode, when the two divisors are not zero. -/
theorem Bilinear.interpolate_bilinear (self : Bilinear) (xpt ypt : ℚ)
    (hq : self.quadratic = 0)
    (hdx : rdz self.x (Bilinear.bracket self.x self.nx xpt).2
      - rdz self.x (Bilinear.bracket self.x self.nx xpt).1 ≠ 0)
    (hdy : rdz self.y (Bilinear.bracket self.y self.ny ypt).2
      - rdz self.y (Bilinear.bracket self.y self.ny ypt).1 ≠ 0) :
    Bilinear.interpolate self xpt ypt
      = some (
          (1 - (xpt - rdz self.x (Bilinear.bracket self.x self.nx xpt).1)
                / (rdz self.x (Bilinear.bracket self.x self.nx xpt).2
                    - rdz self.x (Bilinear.bracket self.x self.nx xpt).1))
            * (1 - (ypt - rdz self.y (Bilinear.bracket self.y self.ny ypt).1)
                / (rdz self.y (Bilinear.bracket self.y self.ny ypt).2
                    - rdz self.y (Bilinear.bracket self.y self.ny ypt).1))
            * rdz self.z ((Bilinear.bracket self.x self.nx xpt).1 * self.ny
                + (Bilinear.bracket self.y self.ny ypt).1)
          + (xpt - rdz self.x (Bilinear.bracket self.x self.nx xpt).1)
                / (rdz self.x (Bilinear.bracket self.x self.nx xpt).2
                    - rdz self.x (Bilinear.bracket self.x self.nx xpt).1)
            * (1 - (ypt - rdz self.y (Bilinear.bracket self.y self.ny ypt).1)
                / (rdz self.y (Bilinear.bracket self.y self.ny ypt).2
                    - rdz self.y (Bilinear.bracket self.y self.ny ypt).1))
            * rdz self.z ((Bilinear.bracket self.x self.nx xpt).2 * self.ny
                + (Bilinear.bracket self.y self.ny ypt).1)
          + (xpt - rdz self.x (Bilinear.bracket self.x self.nx xpt).1)
                / (rdz self.x (Bilinear.bracket self.x self.nx xpt).2
                    - rdz self.x (Bilinear.bracket self.x self.nx xpt).1)
            * ((ypt - rdz self.y (Bilinear.bracket self.y self.ny ypt).1)
                / (rdz self.y (Bilinear.bracket self.y self.ny ypt).2
                    - rdz self.y (Bilinear.bracket self.y self.ny ypt).1))
            * rdz self.z ((Bilinear.bracket self.x self.nx xpt).2 * self.ny
                + (Bilinear.bracket self.y self.ny ypt).2)
          + (1 - (xpt - rdz self.x (Bilinear.bracket self.x self.nx xpt).1)
                / (rdz self.x (Bilinear.bracket self.x self.nx xpt).2
                    - rdz self.x (Bilinear.bracket self.x self.nx xpt).1))
            * ((ypt - rdz self.y (Bilinear.bracket self.y self.ny ypt).1)
                / (rdz self.y (Bilinear.bracket self.y self.ny ypt).2
                    - rdz self.y (Bilinear.bracket self.y self.ny ypt).1))
            * rdz self.z ((Bilinear.bracket self.x self.nx xpt).1 * self.ny
                + (Bilinear.bracket self.y self.ny ypt).2)) := by
  have hq2 : ¬ self.quadratic ≠ 0 := not_not.mpr hq
  unfold Bilinear.interpolate
  rw [if_neg hq2]
  simp only [Bilinear.bracket] at hdx hdy
  simp only [Bilinear.bracket, fdiv_of_ne_zero _ _ hdx, fdiv_of_ne_zero _ _ hdy]
  rfl

/-- The value in quadratic mode, when the coefficients along both coordinates
are numbers. -/
theorem Bilinear.interpolate_quadratic (self : Bilinear) (xpt ypt : ℚ)
    (hq : self.quadratic ≠ 0) (cx cy : ℚ × ℚ × ℚ)
    (hcx : Bilinear.coefs3 self.x xpt (Bilinear.triple self.x self.nx xpt).1
      (Bilinear.triple self.x self.nx xpt).2.1 (Bilinear.triple self.x self.nx xpt).2.2
        = some cx)
    (hcy : Bilinear.coefs3 self.y ypt (Bilinear.triple self.y self.ny ypt).1
      (Bilinear.triple self.y self.ny ypt).2.1 (Bilinear.triple self.y self.ny ypt).2.2
        = some cy) :
    Bilinear.interpolate self xpt ypt
      = some (
          cy.1 * (cx.1 * rdz self.z ((Bilinear.triple self.x self.nx xpt).1 * self.ny
                      + (Bilinear.triple self.y self.ny ypt).1)
                + cx.2.1 * rdz self.z ((Bilinear.triple self.x self.nx xpt).2.1 * self.ny
                      + (Bilinear.triple self.y self.ny ypt).1)
                + cx.2.2 * rdz self.z ((Bilinear.triple self.x self.nx xpt).2.2 * self.ny
                      + (Bilinear.triple self.y self.ny ypt).1))
          + cy.2.1 * (cx.1 * rdz self.z ((Bilinear.triple self.x self.nx xpt).1 * self.ny
                      + (Bilinear.triple self.y self.ny ypt).2.1)
                + cx.2.1 * rdz self.z ((Bilinear.triple self.x self.nx xpt).2.1 * self.ny
                      + (Bilinear.triple self.y self.ny ypt).2.1)
                + cx.2.2 * rdz self.z ((Bilinear.triple self.x self.nx xpt).2.2 * self.ny
                      + (Bilinear.triple self.y self.ny ypt).2.1))
          + cy.2.2 * (cx.1 * rdz self.z ((Bilinear.triple self.x self.nx xpt).1 * self.ny
                      + (Bilinear.triple self.y self.ny ypt).2.2)
                + cx.2.1 * rdz self.z ((Bilinear.triple self.x self.nx xpt).2.1 * self.ny
                      + (Bilinear.triple self.y self.ny ypt).2.2)
                + cx.2.2 * rdz self.z ((Bilinear.triple self.x self.nx xpt).2.2 * self.ny
                      + (Bilinear.triple self.y self.ny ypt).2.2))) := by
  unfold Bilinear.interpolate
  rw [if_pos hq]
  simp only [Bilinear.triple, Bilinear.bracket] at hcx hcy
  simp only [Bilinear.triple, Bilinear.bracket, hcx, hcy]
  rfl

/-! ## Bilinear: indices inside the table -/

/-- The bracket of the bounded input in a sorted coordinate array. -/
theorem Bilinear.bracket_spec (p : List ℚ) (n : ℤ) (pt : ℚ) (hn : 2 ≤ n)
    (hl : (p.length : ℤ) = n) (hs : p.Sorted (· ≤ ·)) :
    0 ≤ (Bilinear.bracket p n (Bilinear.bound p n pt)).1
    ∧ (Bilinear.bracket p n (Bilinear.bound p n pt)).2
        = (Bilinear.bracket p n (Bilinear.bound p n pt)).1 + 1
    ∧ (Bilinear.bracket p n (Bilinear.bound p n pt)).2 ≤ n - 1
    ∧ rdz p (Bilinear.bracket p n (Bilinear.bound p n pt)).1 ≤ Bilinear.bound p n pt
    ∧ Bilinear.bound p n pt ≤ rdz p (Bilinear.bracket p n (Bilinear.bound p n pt)).2 := by
  have h0 : rdz p 0 ≤ rdz p (n - 1) :=
    sorted_le_rdz p hs 0 (n - 1) (le_refl _) (by omega) (by omega)
  obtain ⟨b1, b2⟩ := Bilinear.bound_mem p n pt h0
  exact Bilinear.search_bracket p _ _ 0 (n - 1) rfl (by omega) b1 b2

/-- The triple of the bounded input in a strictly sorted coordinate array of
at least three cells: consecutive indices inside the array, with distinct
coordinates, that contain the bracket. -/
theorem Bilinear.triple_spec (p : List ℚ) (n : ℤ) (pt : ℚ) (hn : 3 ≤ n)
    (hl : (p.length : ℤ) = n) (hs : p.Sorted (· < ·)) :
    0 ≤ (Bilinear.triple p n (Bilinear.bound p n pt)).1
    ∧ (Bilinear.triple p n (Bilinear.bound p n pt)).2.1
        = (Bilinear.triple p n (Bilinear.bound p n pt)).1 + 1
    ∧ (Bilinear.triple p n (Bilinear.bound p n pt)).2.2
        = (Bilinear.triple p n (Bilinear.bound p n pt)).1 + 2
    ∧ (Bilinear.triple p n (Bilinear.bound p n pt)).2.2 ≤ n - 1
    ∧ rdz p (Bilinear.triple p n (Bilinear.bound p n pt)).1
        < rdz p (Bilinear.triple p n (Bilinear.bound p n pt)).2.1
    ∧ rdz p (Bilinear.triple p n (Bilinear.bound p n pt)).2.1
        < rdz p (Bilinear.triple p n (Bilinear.bound p n pt)).2.2
    ∧ (((Bilinear.triple p n (Bilinear.bound p n pt)).1
            = (Bilinear.bracket p n (Bilinear.bound p n pt)).1
          ∧ (Bilinear.triple p n (Bilinear.bound p n pt)).2.1
            = (Bilinear.bracket p n (Bilinear.bound p n pt)).2)
      ∨ ((Bilinear.triple p n (Bilinear.bound p n pt)).2.1
            = (Bilinear.bracket p n (Bilinear.bound p n pt)).1
          ∧ (Bilinear.triple p n (Bilinear.bound p n pt)).2.2
            = (Bilinear.bracket p n (Bilinear.bound p n pt)).2)) := by
  obtain ⟨b0, b1, b2, _, _⟩ := Bilinear.bracket_spec p n pt (by omega) hl
    (sorted_lt_sorted_le p hs)
  obtain ⟨t0, t1, t2, t3, t4⟩ := Bilinear.third_spec p n (Bilinear.bound p n pt)
    (Bilinear.bracket p n (Bilinear.bound p n pt)).1
    (Bilinear.bracket p n (Bilinear.bound p n pt)).2 hn b0 b1 b2
  have e : Bilinear.triple p n (Bilinear.bound p n pt)
      = Bilinear.third p n (Bilinear.bound p n pt)
          (Bilinear.bracket p n (Bilinear.bound p n pt)).1
          (Bilinear.bracket p n (Bilinear.bound p n pt)).2 := rfl
  rw [e]
  refine ⟨t0, t1, t2, t3, ?_, ?_, t4⟩
  · exact sorted_lt_rdz p hs _ _ t0 (by omega) (by omega)
  · exact sorted_lt_rdz p hs _ _ (by omega) (by omega) (by omega)

theorem index_in_table (nx ny a b : ℤ) (ha0 : 0 ≤ a) (ha : a ≤ nx - 1) (hb0 : 0 ≤ b)
    (hb : b ≤ ny - 1) : 0 ≤ a * ny + b ∧ a * ny + b < nx * ny := by
  have hny : 0 ≤ ny := by omega
  have h1 : 0 ≤ a * ny := mul_nonneg ha0 hny
  have h2 : a * ny ≤ (nx - 1) * ny := mul_le_mul_of_nonneg_right ha hny
  have h3 : (nx - 1) * ny = nx * ny - ny := by ring
  constructor
  · omega
  · omega

/-- The value of `evaluate` in quadratic mode on a strictly sorted table. -/
theorem Bilinear.evaluate_quadratic (self : Bilinear) (xpt ypt : ℚ)
    (hnx : 3 ≤ self.nx) (hny : 3 ≤ self.ny)
    (hxl : (self.x.length : ℤ) = self.nx) (hyl : (self.y.length : ℤ) = self.ny)
    (hx : self.x.Sorted (· < ·)) (hy : self.y.Sorted (· < ·)) :
    Bilinear.evaluate self xpt ypt
      = Bilinear.interpolate self (Bilinear.bound self.x self.nx xpt)
          (Bilinear.bound self.y self.ny ypt)
    ∧ Bilinear.coefs3 self.x (Bilinear.bound self.x self.nx xpt)
        (Bilinear.triple self.x self.nx (Bilinear.bound self.x self.nx xpt)).1
        (Bilinear.triple self.x self.nx (Bilinear.bound self.x self.nx xpt)).2.1
        (Bilinear.triple self.x self.nx (Bilinear.bound self.x self.nx xpt)).2.2
      = some
        (quadLo
          (rdz self.x (Bilinear.triple self.x self.nx (Bilinear.bound self.x self.nx xpt)).1)
          (rdz self.x (Bilinear.triple self.x self.nx (Bilinear.bound self.x self.nx xpt)).2.1)
          (rdz self.x (Bilinear.triple self.x self.nx (Bilinear.bound self.x self.nx xpt)).2.2)
          (Bilinear.bound self.x self.nx xpt),
         quadMid
          (rdz self.x (Bilinear.triple self.x self.nx (Bilinear.bound self.x self.nx xpt)).1)
          (rdz self.x (Bilinear.triple self.x self.nx (Bilinear.bound self.x self.nx xpt)).2.1)
          (rdz self.x (Bilinear.triple self.x self.nx (Bilinear.bound self.x self.nx xpt)).2.2)
          (Bilinear.bound self.x self.nx xpt),
         quadHi
          (rdz self.x (Bilinear.triple self.x self.nx (Bilinear.bound self.x self.nx xpt)).1)
          (rdz self.x (Bilinear.triple self.x self.nx (Bilinear.bound self.x self.nx xpt)).2.1)
          (rdz self.x (Bilinear.triple self.x self.nx (Bilinear.bound self.x self.nx xpt)).2.2)
          (Bilinear.bound self.x self.nx xpt))
    ∧ Bilinear.coefs3 self.y (Bilinear.bound self.y self.ny ypt)
        (Bilinear.triple self.y self.ny (Bilinear.bound self.y self.ny ypt)).1
        (Bilinear.triple self.y self.ny (Bilinear.bound self.y self.ny ypt)).2.1
        (Bilinear.triple self.y self.ny (Bilinear.bound self.y self.ny ypt)).2.2
      = some
        (quadLo
          (rdz self.y (Bilinear.triple self.y self.ny (Bilinear.bound self.y self.ny ypt)).1)
          (rdz self.y (Bilinear.triple self.y self.ny (Bilinear.bound self.y self.ny ypt)).2.1)
          (rdz self.y (Bilinear.triple self.y self.ny (Bilinear.bound self.y self.ny ypt)).2.2)
          (Bilinear.bound self.y self.ny ypt),
         quadMid
          (rdz self.y (Bilinear.triple self.y self.ny (Bilinear.bound self.y self.ny ypt)).1)
          (rdz self.y (Bilinear.triple self.y self.ny (Bilinear.bound self.y self.ny ypt)).2.1)
          (rdz self.y (Bilinear.triple self.y self.ny (Bilinear.bound self.y self.ny ypt)).2.2)
          (Bilinear.bound self.y self.ny ypt),
         quadHi
          (rdz self.y (Bilinear.triple self.y self.ny (Bilinear.bound self.y self.ny ypt)).1)
          (rdz self.y (Bilinear.triple self.y self.ny (Bilinear.bound self.y self.ny ypt)).2.1)
          (rdz self.y (Bilinear.triple self.y self.ny (Bilinear.bound self.y self.ny ypt)).2.2)
          (Bilinear.bound self.y self.ny ypt)) := by
  obtain ⟨_, _, _, _, x1, x2, _⟩ := Bilinear.triple_spec self.x self.nx xpt hnx hxl hx
  obtain ⟨_, _, _, _, y1, y2, _⟩ := Bilinear.triple_spec self.y self.ny ypt hny hyl hy
  exact ⟨rfl,
    Bilinear.coefs3_some self.x _ _ _ _ x1.ne (lt_trans x1 x2).ne x2.ne,
    Bilinear.coefs3_some self.y _ _ _ _ y1.ne (lt_trans y1 y2).ne y2.ne⟩

/-- C24, amended: in quadratic mode, with strictly ascending `x` and `y` and
`nx ≥ 3`, `ny ≥ 3`, for every query point the three indices chosen along each
axis are consecutive (`klo`, `kmid = klo + 1`, `khi = klo + 2`) and lie in
`0 .. nx - 1` (resp. `0 .. ny - 1`), so every read of `x`, `y` and `z` is inside
its array (on doubles as well, for every array and every input); and, in
exact arithmetic, no divisor of a coefficient is zero, so `evaluate` returns a
number. -/
theorem Bilinear.quadratic_safe (self : Bilinear) (xpt ypt : ℚ)
    (hq : self.quadratic ≠ 0) (hnx : 3 ≤ self.nx) (hny : 3 ≤ self.ny)
    (hxl : (self.x.length : ℤ) = self.nx) (hyl : (self.y.length : ℤ) = self.ny)
    (hzl : (self.z.length : ℤ) = self.nx * self.ny)
    (hx : self.x.Sorted (· < ·)) (hy : self.y.Sorted (· < ·)) :
    (0 ≤ (Bilinear.triple self.x self.nx (Bilinear.bound self.x self.nx xpt)).1
      ∧ (Bilinear.triple self.x self.nx (Bilinear.bound self.x self.nx xpt)).2.1
          = (Bilinear.triple self.x self.nx (Bilinear.bound self.x self.nx xpt)).1 + 1
      ∧ (Bilinear.triple self.x self.nx (Bilinear.bound self.x self.nx xpt)).2.2
          = (Bilinear.triple self.x self.nx (Bilinear.bound self.x self.nx xpt)).1 + 2
      ∧ (Bilinear.triple self.x self.nx (Bilinear.bound self.x self.nx xpt)).2.2
          ≤ self.nx - 1
      ∧ (Bilinear.triple self.x self.nx (Bilinear.bound self.x self.nx xpt)).2.2
          < (self.x.length : ℤ))
    ∧ (0 ≤ (Bilinear.triple self.y self.ny (Bilinear.bound self.y self.ny ypt)).1
      ∧ (Bilinear.triple self.y self.ny (Bilinear.bound self.y self.ny ypt)).2.1
          = (Bilinear.triple self.y self.ny (Bilinear.bound self.y self.ny ypt)).1 + 1
      ∧ (Bilinear.triple self.y self.ny (Bilinear.bound self.y self.ny ypt)).2.2
          = (Bilinear.triple self.y self.ny (Bilinear.bound self.y self.ny ypt)).1 + 2
      ∧ (Bilinear.triple self.y self.ny (Bilinear.bound self.y self.ny ypt)).2.2
          ≤ self.ny - 1
      ∧ (Bilinear.triple self.y self.ny (Bilinear.bound self.y self.ny ypt)).2.2
          < (self.y.length : ℤ))
    ∧ (∀ a b : ℤ,
        (Bilinear.triple self.x self.nx (Bilinear.bound self.x self.nx xpt)).1 ≤ a →
        a ≤ (Bilinear.triple self.x self.nx (Bilinear.bound self.x self.nx xpt)).2.2 →
        (Bilinear.triple self.y self.ny (Bilinear.bound self.y self.ny ypt)).1 ≤ b →
        b ≤ (Bilinear.triple self.y self.ny (Bilinear.bound self.y self.ny ypt)).2.2 →
        0 ≤ a * self.ny + b ∧ a * self.ny + b < (self.z.length : ℤ))
    ∧ (∃ cx, Bilinear.coefs3 self.x (Bilinear.bound self.x self.nx xpt)
        (Bilinear.triple self.x self.nx (Bilinear.bound self.x self.nx xpt)).1
        (Bilinear.triple self.x self.nx (Bilinear.bound self.x self.nx xpt)).2.1
        (Bilinear.triple self.x self.nx (Bilinear.bound self.x self.nx xpt)).2.2 = some cx)
    ∧ (∃ cy, Bilinear.coefs3 self.y (Bilinear.bound self.y self.ny ypt)
        (Bilinear.triple self.y self.ny (Bilinear.bound self.y self.ny ypt)).1
        (Bilinear.triple self.y self.ny (Bilinear.bound self.y self.ny ypt)).2.1
        (Bilinear.triple self.y self.ny (Bilinear.bound self.y self.ny ypt)).2.2 = some cy)
    ∧ (∃ v, Bilinear.evaluate self xpt ypt = some v)
    ∧ (∀ (p : List F64) (pt : F64),
        (0 ≤ (Bilinear.triple64 p self.nx pt).1
          ∧ (Bilinear.triple64 p self.nx pt).2.1 = (Bilinear.triple64 p self.nx pt).1 + 1
          ∧ (Bilinear.triple64 p self.nx pt).2.2 = (Bilinear.triple64 p self.nx pt).1 + 2
          ∧ (Bilinear.triple64 p self.nx pt).2.2 ≤ self.nx - 1)
        ∧ (0 ≤ (Bilinear.triple64 p self.ny pt).1
          ∧ (Bilinear.triple64 p self.ny pt).2.1 = (Bilinear.triple64 p self.ny pt).1 + 1
          ∧ (Bilinear.triple64 p self.ny pt).2.2 = (Bilinear.triple64 p self.ny pt).1 + 2
          ∧ (Bilinear.triple64 p self.ny pt).2.2 ≤ self.ny - 1)) := by
  obtain ⟨x0, x1, x2, x3, _, _, _⟩ := Bilinear.triple_spec self.x self.nx xpt hnx hxl hx
  obtain ⟨y0, y1, y2, y3, _, _, _⟩ := Bilinear.triple_spec self.y self.ny ypt hny hyl hy
  obtain ⟨he, hcx, hcy⟩ := Bilinear.evaluate_quadratic self xpt ypt hnx hny hxl hyl hx hy
  refine ⟨⟨x0, x1, x2, x3, by omega⟩, ⟨y0, y1, y2, y3, by omega⟩, ?_, ⟨_, hcx⟩, ⟨_, hcy⟩, ?_,
    fun p pt => ⟨Bilinear.triple64_spec p self.nx pt hnx,
      Bilinear.triple64_spec p self.ny pt hny⟩⟩
  · intro a b ha1 ha2 hb1 hb2
    rw [hzl]
    exact index_in_table self.nx self.ny a b (by omega) (by omega) (by omega) (by omega)
  · rw [he, Bilinear.interpolate_quadratic self _ _ hq _ _ hcx hcy]
    exact ⟨_, rfl⟩

theorem Bilinear.quadratic_safe_witness :
    (quadTable.quadratic ≠ 0) ∧ (3 ≤ quadTable.nx) ∧ (3 ≤ quadTable.ny)
    ∧ ((quadTable.x.length : ℤ) = quadTable.nx) ∧ ((quadTable.y.length : ℤ) = quadTable.ny)
    ∧ ((quadTable.z.length : ℤ) = quadTable.nx * quadTable.ny)
    ∧ quadTable.x.Sorted (· < ·) ∧ quadTable.y.Sorted (· < ·)
    ∧ (∃ v, Bilinear.evaluate quadTable 3 2 = some v) :=
  ⟨by decide, by decide, by decide, rfl, rfl, rfl, by norm_num [quadTable], by norm_num [quadTable],
   (Bilinear.quadratic_safe quadTable 3 2 (by decide) (by decide) (by decide) rfl rfl rfl
      (by norm_num [quadTable]) (by norm_num [quadTable])).2.2.2.2.2.1⟩

/-! ## Bilinear: the interpolation formulas -/

/-- The three coefficients over their common denominator. -/
theorem quad_forms (xl xm xh pt : ℚ) (h1 : xl ≠ xm) (h2 : xl ≠ xh) (h3 : xm ≠ xh) :
    quadLo xl xm xh pt * ((xl - xm) * (xl - xh) * (xm - xh)) = (pt - xm) * (pt - xh) * (xm - xh)
    ∧ quadMid xl xm xh pt * ((xl - xm) * (xl - xh) * (xm - xh))
        = -((pt - xl) * (pt - xh) * (xl - xh))
    ∧ quadHi xl xm xh pt * ((xl - xm) * (xl - xh) * (xm - xh))
        = (pt - xl) * (pt - xm) * (xl - xm) := by
  have d1 : xl - xm ≠ 0 := sub_ne_zero.mpr h1
  have d2 : xl - xh ≠ 0 := sub_ne_zero.mpr h2
  have d3 : xm - xh ≠ 0 := sub_ne_zero.mpr h3
  refine ⟨?_, ?_, ?_⟩
  · rw [quadLo, div_mul_eq_mul_div, div_eq_iff (mul_ne_zero d1 d2)]
    ring
  · rw [quadMid, div_mul_eq_mul_div, div_eq_iff (mul_ne_zero (neg_ne_zero.mpr d1) d3)]
    ring
  · rw [quadHi, div_mul_eq_mul_div, div_eq_iff (mul_ne_zero d2 d3)]
    ring

/-- Quadratic interpolation on three distinct coordinates reproduces a
polynomial of degree at most 2. -/
theorem quad_exact (xl xm xh pt g0 g1 g2 : ℚ) (h1 : xl ≠ xm) (h2 : xl ≠ xh) (h3 : xm ≠ xh) :
    quadLo xl xm xh pt * (g0 + g1 * xl + g2 * xl ^ 2)
      + quadMid xl xm xh pt * (g0 + g1 * xm + g2 * xm ^ 2)
      + quadHi xl xm xh pt * (g0 + g1 * xh + g2 * xh ^ 2)
      = g0 + g1 * pt + g2 * pt ^ 2 := by
  obtain ⟨f1, f2, f3⟩ := quad_forms xl xm xh pt h1 h2 h3
  have d1 : xl - xm ≠ 0 := sub_ne_zero.mpr h1
  have d2 : xl - xh ≠ 0 := sub_ne_zero.mpr h2
  have d3 : xm - xh ≠ 0 := sub_ne_zero.mpr h3
  have hD : (xl - xm) * (xl - xh) * (xm - xh) ≠ 0 := mul_ne_zero (mul_ne_zero d1 d2) d3
  apply mul_right_cancel₀ hD
  linear_combination (g0 + g1 * xl + g2 * xl ^ 2) * f1 + (g0 + g1 * xm + g2 * xm ^ 2) * f2
    + (g0 + g1 * xh + g2 * xh ^ 2) * f3

theorem biquad_as_x (c : ℕ → ℕ → ℚ) (x y : ℚ) :
    biquadFun c x y
      = (c 0 0 + c 0 1 * y + c 0 2 * y ^ 2) + (c 1 0 + c 1 1 * y + c 1 2 * y ^ 2) * x
        + (c 2 0 + c 2 1 * y + c 2 2 * y ^ 2) * x ^ 2 := by
  simp only [biquadFun, Finset.sum_range_succ, Finset.sum_range_zero]
  ring

theorem biquad_as_y (c : ℕ → ℕ → ℚ) (x y : ℚ) :
    biquadFun c x y
      = (c 0 0 + c 1 0 * x + c 2 0 * x ^ 2) + (c 0 1 + c 1 1 * x + c 2 1 * x ^ 2) * y
        + (c 0 2 + c 1 2 * x + c 2 2 * x ^ 2) * y ^ 2 := by
  simp only [biquadFun, Finset.sum_range_succ, Finset.sum_range_zero]
  ring

theorem biquad_exact_x (c : ℕ → ℕ → ℚ) (xl xm xh pt y : ℚ) (h1 : xl ≠ xm) (h2 : xl ≠ xh)
    (h3 : xm ≠ xh) :
    quadLo xl xm xh pt * biquadFun c xl y + quadMid xl xm xh pt * biquadFun c xm y
      + quadHi xl xm xh pt * biquadFun c xh y = biquadFun c pt y := by
  rw [biquad_as_x c xl, biquad_as_x c xm, biquad_as_x c xh, biquad_as_x c pt]
  exact quad_exact xl xm xh pt _ _ _ h1 h2 h3

theorem biquad_exact_y (c : ℕ → ℕ → ℚ) (yl ym yh pt x : ℚ) (h1 : yl ≠ ym) (h2 : yl ≠ yh)
    (h3 : ym ≠ yh) :
    quadLo yl ym yh pt * biquadFun c x yl + quadMid yl ym yh pt * biquadFun c x ym
      + quadHi yl ym yh pt * biquadFun c x yh = biquadFun c x pt := by
  rw [biquad_as_y c x yl, biquad_as_y c x ym, biquad_as_y c x yh, biquad_as_y c x pt]
  exact quad_exact yl ym yh pt _ _ _ h1 h2 h3

/-- Bilinear interpolation on a cell with distinct coordinates reproduces a
function `a + b*x + c*y + d*x*y`. -/
theorem bilin_exact (a b c d xl xh yl yh xpt ypt : ℚ) (hx : xh - xl ≠ 0) (hy : yh - yl ≠ 0) :
    (1 - (xpt - xl) / (xh - xl)) * (1 - (ypt - yl) / (yh - yl)) * bilinFun a b c d xl yl
      + (xpt - xl) / (xh - xl) * (1 - (ypt - yl) / (yh - yl)) * bilinFun a b c d xh yl
      + (xpt - xl) / (xh - xl) * ((ypt - yl) / (yh - yl)) * bilinFun a b c d xh yh
      + (1 - (xpt - xl) / (xh - xl)) * ((ypt - yl) / (yh - yl)) * bilinFun a b c d xl yh
      = bilinFun a b c d xpt ypt := by
  simp only [bilinFun]
  field_simp
  ring

/-- C25, amended: in exact arithmetic, interpolation is exact on its own
function class.  With strictly
ascending `x` and `y` and a point inside the table, if every node holds
`f(x[i], y[j])` then `evaluate` returns `f(xpt, ypt)`: in bilinear mode
(`nx, ny ≥ 2`) for `f(x,y) = a + b*x + c*y + d*x*y`, and in quadratic mode
(`nx, ny ≥ 3`) for `f` a polynomial of degree at most 2 in `x` and at most 2 in
`y`. -/
theorem Bilinear.evaluate_exact (self : Bilinear) (xpt ypt a b c d : ℚ) (cq : ℕ → ℕ → ℚ)
    (hxl : (self.x.length : ℤ) = self.nx) (hyl : (self.y.length : ℤ) = self.ny)
    (hx : self.x.Sorted (· < ·)) (hy : self.y.Sorted (· < ·))
    (hx1 : rdz self.x 0 ≤ xpt) (hx2 : xpt ≤ rdz self.x (self.nx - 1))
    (hy1 : rdz self.y 0 ≤ ypt) (hy2 : ypt ≤ rdz self.y (self.ny - 1)) :
    (self.quadratic = 0 → 2 ≤ self.nx → 2 ≤ self.ny →
      (∀ i j : ℤ, 0 ≤ i → i < self.nx → 0 ≤ j → j < self.ny →
        rdz self.z (i * self.ny + j) = bilinFun a b c d (rdz self.x i) (rdz self.y j)) →
      Bilinear.evaluate self xpt ypt = some (bilinFun a b c d xpt ypt))
    ∧ (self.quadratic ≠ 0 → 3 ≤ self.nx → 3 ≤ self.ny →
      (∀ i j : ℤ, 0 ≤ i → i < self.nx → 0 ≤ j → j < self.ny →
        rdz self.z (i * self.ny + j) = biquadFun cq (rdz self.x i) (rdz self.y j)) →
      Bilinear.evaluate self xpt ypt = some (biquadFun cq xpt ypt)) := by
  have hbx := Bilinear.bound_of_mem self.x self.nx xpt hx1 hx2
  have hby := Bilinear.bound_of_mem self.y self.ny ypt hy1 hy2
  have he : Bilinear.evaluate self xpt ypt = Bilinear.interpolate self xpt ypt := by
    show Bilinear.interpolate self (Bilinear.bound self.x self.nx xpt)
      (Bilinear.bound self.y self.ny ypt) = _
    rw [hbx, hby]
  constructor
  · intro hq hnx hny hz
    obtain ⟨a0, a1, a2, _, _⟩ := Bilinear.bracket_spec self.x self.nx xpt hnx hxl
      (sorted_lt_sorted_le _ hx)
    obtain ⟨b0, b1, b2, _, _⟩ := Bilinear.bracket_spec self.y self.ny ypt hny hyl
      (sorted_lt_sorted_le _ hy)
    rw [hbx] at a0 a1 a2
    rw [hby] at b0 b1 b2
    have hdx : rdz self.x (Bilinear.bracket self.x self.nx xpt).2
        - rdz self.x (Bilinear.bracket self.x self.nx xpt).1 ≠ 0 :=
      sub_ne_zero.mpr (sorted_lt_rdz self.x hx _ _ a0 (by omega) (by omega)).ne'
    have hdy : rdz self.y (Bilinear.bracket self.y self.ny ypt).2
        - rdz self.y (Bilinear.bracket self.y self.ny ypt).1 ≠ 0 :=
      sub_ne_zero.mpr (sorted_lt_rdz self.y hy _ _ b0 (by omega) (by omega)).ne'
    rw [he, Bilinear.interpolate_bilinear self xpt ypt hq hdx hdy,
      hz _ _ a0 (by omega) b0 (by omega), hz _ _ (by omega) (by omega) b0 (by omega),
      hz _ _ (by omega) (by omega) (by omega) (by omega),
      hz _ _ a0 (by omega) (by omega) (by omega),
      bilin_exact a b c d _ _ _ _ xpt ypt hdx hdy]
  · intro hq hnx hny hz
    obtain ⟨x0, x1, x2, x3, x4, x5, _⟩ := Bilinear.triple_spec self.x self.nx xpt hnx hxl hx
    obtain ⟨y0, y1, y2, y3, y4, y5, _⟩ := Bilinear.triple_spec self.y self.ny ypt hny hyl hy
    obtain ⟨_, hcx, hcy⟩ := Bilinear.evaluate_quadratic self xpt ypt hnx hny hxl hyl hx hy
    rw [hbx] at x0 x1 x2 x3 x4 x5 hcx
    rw [hby] at y0 y1 y2 y3 y4 y5 hcy
    rw [he, Bilinear.interpolate_quadratic self xpt ypt hq _ _ hcx hcy]
    simp only []
    rw [hz _ _ x0 (by omega) y0 (by omega), hz _ _ (by omega) (by omega) y0 (by omega),
      hz _ _ (by omega) (by omega) y0 (by omega),
      hz _ _ x0 (by omega) (by omega) (by omega),
      hz _ _ (by omega) (by omega) (by omega) (by omega),
      hz _ _ (by omega) (by omega) (by omega) (by omega),
      hz _ _ x0 (by omega) (by omega) (by omega),
      hz _ _ (by omega) (by omega) (by omega) (by omega),
      hz _ _ (by omega) (by omega) (by omega) (by omega),
      biquad_exact_x cq _ _ _ xpt _ x4.ne (lt_trans x4 x5).ne x5.ne,
      biquad_exact_x cq _ _ _ xpt _ x4.ne (lt_trans x4 x5).ne x5.ne,
      biquad_exact_x cq _ _ _ xpt _ x4.ne (lt_trans x4 x5).ne x5.ne,
      biquad_exact_y cq _ _ _ ypt _ y4.ne (lt_trans y4 y5).ne y5.ne]

theorem gridTable_nodes (i j : ℤ) (hi0 : 0 ≤ i) (hi : i < gridTable.nx) (hj0 : 0 ≤ j)
    (hj : j < gridTable.ny) :
    rdz gridTable.z (i * gridTable.ny + j)
      = bilinFun 0 1 2 0 (rdz gridTable.x i) (rdz gridTable.y j) := by
  have hi3 : i < 3 := hi
  have hj3 : j < 3 := hj
  interval_cases i <;> interval_cases j <;>
    norm_num [gridTable, rdz, rd, bilinFun, Int.toNat]

theorem quadTable_nodes (i j : ℤ) (hi0 : 0 ≤ i) (hi : i < quadTable.nx) (hj0 : 0 ≤ j)
    (hj : j < quadTable.ny) :
    rdz quadTable.z (i * quadTable.ny + j)
      = biquadFun squaresCoef (rdz quadTable.x i) (rdz quadTable.y j) := by
  have hi4 : i < 4 := hi
  have hj3 : j < 3 := hj
  interval_cases i <;> interval_cases j <;>
    norm_num [quadTable, rdz, rd, biquadFun, squaresCoef, Finset.sum_range_succ, Int.toNat]

theorem Bilinear.evaluate_exact_witness :
    ((gridTable.x.length : ℤ) = gridTable.nx) ∧ ((gridTable.y.length : ℤ) = gridTable.ny)
    ∧ gridTable.x.Sorted (· < ·) ∧ gridTable.y.Sorted (· < ·)
    ∧ rdz gridTable.x 0 ≤ 1 / 2 ∧ (1 / 2 : ℚ) ≤ rdz gridTable.x (gridTable.nx - 1)
    ∧ rdz gridTable.y 0 ≤ 2 ∧ (2 : ℚ) ≤ rdz gridTable.y (gridTable.ny - 1)
    ∧ gridTable.quadratic = 0 ∧ 2 ≤ gridTable.nx ∧ 2 ≤ gridTable.ny
    ∧ Bilinear.evaluate gridTable (1 / 2) 2 = some (bilinFun 0 1 2 0 (1 / 2) 2)
    ∧ quadTable.quadratic ≠ 0 ∧ 3 ≤ quadTable.nx ∧ 3 ≤ quadTable.ny
    ∧ Bilinear.evaluate quadTable 3 2 = some (biquadFun squaresCoef 3 2) :=
  ⟨rfl, rfl, by norm_num [gridTable], by norm_num [gridTable],
   by norm_num [gridTable, rdz, rd, Int.toNat], by norm_num [gridTable, rdz, rd, Int.toNat],
   by norm_num [gridTable, rdz, rd, Int.toNat], by norm_num [gridTable, rdz, rd, Int.toNat],
   rfl, by decide, by decide,
   (Bilinear.evaluate_exact gridTable (1 / 2) 2 0 1 2 0 squaresCoef rfl rfl
      (by norm_num [gridTable]) (by norm_num [gridTable])
      (by norm_num [gridTable, rdz, rd, Int.toNat]) (by norm_num [gridTable, rdz, rd, Int.toNat])
      (by norm_num [gridTable, rdz, rd, Int.toNat]) (by norm_num [gridTable, rdz, rd, Int.toNat])).1
      rfl (by decide) (by decide) gridTable_nodes,
   by decide, by decide, by decide,
   (Bilinear.evaluate_exact quadTable 3 2 0 1 2 0 squaresCoef rfl rfl
      (by norm_num [quadTable]) (by norm_num [quadTable])
      (by norm_num [quadTable, rdz, rd, Int.toNat]) (by norm_num [quadTable, rdz, rd, Int.toNat])
      (by norm_num [quadTable, rdz, rd, Int.toNat]) (by norm_num [quadTable, rdz, rd, Int.toNat])).2
      (by decide) (by decide) (by decide) quadTable_nodes⟩

/-! ## Bilinear: the value at a node -/

/-- The rounding of some constants: 1 and `2 ^ 53 + 2` are doubles, `2 ^ 53 + 1` is
halfway between two doubles and goes to the even one, 0.1 is not a double, the
largest double is `2 ^ 1024 - 2 ^ 971`, the smallest positive one is `2 ^ (-1074)`,
half of which rounds to zero, and `2 ^ 1024 - 2 ^ 970` rounds to an infinity. -/
theorem round64_values :
    round64 1 = F64.fin 1
    ∧ round64 9007199254740993 = F64.fin 9007199254740992
    ∧ round64 9007199254740994 = F64.fin 9007199254740994
    ∧ round64 (1 / 10) = F64.fin (3602879701896397 / 36028797018963968)
    ∧ round64 (pow2 1024 - pow2 971) = F64.fin (pow2 1024 - pow2 971)
    ∧ round64 (pow2 1024 - pow2 970) = F64.inf false
    ∧ round64 (pow2 (-1074)) = F64.fin (pow2 (-1074))
    ∧ round64 (pow2 (-1075)) = F64.fin 0
    ∧ round64 (-(3 * pow2 (-1075))) = F64.fin (-(2 * pow2 (-1074))) := by
  decide!

/-- Some sums, products and quotients of doubles. -/
theorem F64_values :
    (0.1 : F64) + 0.2 = F64.fin (1351079888211149 / 4503599627370496)
    ∧ (1e60 : F64) + 0.125 = 1e60
    ∧ (1e308 : F64) + 1e308 = F64.inf false
    ∧ (1e-200 : F64) * 2e-200 = 0
    ∧ (1e-300 : F64) / 1e60 = 0
    ∧ (1 : F64) / 0 = F64.inf false
    ∧ (0 : F64) / 0 = F64.nan
    ∧ F64.inf false - F64.inf false = F64.nan := by
  decide!

/-- C4, as stated, fails on doubles: with one case of target 0 and two models
answering `2e-40` and `1e-40`, the sum of squared errors of the first model is
strictly larger than that of the second, but each is absorbed by the start
value `1.e-60` of its accumulator, and the two stored weights are both 0.5. -/
theorem Weighted.antitone_counterexample :
    F64.lt (sqErr64 smallConst64 1 0 [0] 1) (sqErr64 smallConst64 1 0 [0] 0) = true
    ∧ (Weighted.ctor64 smallConst64 1 0 [0] 2).coefs = [F64.fin (1 / 2), F64.fin (1 / 2)]
    ∧ F64.lt (rd64 (Weighted.ctor64 smallConst64 1 0 [0] 2).coefs 0)
        (rd64 (Weighted.ctor64 smallConst64 1 0 [0] 2).coefs 1) = false := by
  decide!

/-- C5, as stated, fails on doubles: with two cases of target 3 and three
models answering 3, 1 and 5, the squared errors are 0, 8 and 8, the sum of the
reciprocals `1e60 + 0.125 + 0.125` is `1e60`, and the weight stored for the
perfect model is 1, not strictly below 1. -/
theorem Weighted.perfect_counterexample :
    (List.range 3).map (sqErr64 threeConst64 2 0 [3, 3]) = [0, 8, 8]
    ∧ rd64 (Weighted.ctor64 threeConst64 2 0 [3, 3] 3).coefs 0 = 1
    ∧ F64.lt (rd64 (Weighted.ctor64 threeConst64 2 0 [3, 3] 3).coefs 0) 1 = false := by
  decide!

/-- C26, as stated, fails on doubles: on the design of `demoUnbiased`, the
weights `w = (1, 3)` give the criterion 0.3125, and `c * w` for `c = 5e307`,
whose sum overflows, gives 20; `sum(w)` and `c * sum(w)` are both `≥ 1e-60`. -/
theorem unbiased_crit_scale_counterexample :
    unbiased_crit64 demoUnbiased64 [1, 3] = F64.fin (5 / 16)
    ∧ unbiased_crit64 demoUnbiased64 ([1, 3].map (fun v => 5e307 * v)) = 20
    ∧ F64.le 1e-60 ((1 : F64) + 3) = true
    ∧ F64.le 1e-60 (5e307 * ((1 : F64) + 3)) = true := by
  decide!

/-- C27, as stated, fails on doubles: with one case of target 0 and two models
answering `1e150` and 0, the reciprocal `1e-300` of the first accumulator
divided by the sum `1e60` underflows: the weight stored for the first model is
0, not strictly positive. -/
theorem Weighted.positive_counterexample :
    (Weighted.ctor64 farConst64 1 0 [0] 2).coefs = [0, 1]
    ∧ F64.lt 0 (rd64 (Weighted.ctor64 farConst64 1 0 [0] 2).coefs 0) = false := by
  decide!

/-- C28, as stated, fails on doubles: for one case of target 3 and two models
answering 2 and 4, when the optimizer leaves the weights `(1e308, 1e308)`,
which are `≥ 0` and whose sum, an infinity, is `≥ 1e-60`, the stored weights
are `(0, 0)`, which sum to 0, and `numeric_predict` returns 0, which is below
the smallest predictor output 2. -/
theorem Unbiased.between_counterexample :
    (F64.le 0 (rd64 (returnsPoint64 [1e308, 1e308] (Unbiased.call64 twoConst64 1 1 [0, 3] 2)).2 0)
        = true
      ∧ F64.le 0
          (rd64 (returnsPoint64 [1e308, 1e308] (Unbiased.call64 twoConst64 1 1 [0, 3] 2)).2 1)
        = true
      ∧ F64.le 1e-60
          (sum64 2 (returnsPoint64 [1e308, 1e308] (Unbiased.call64 twoConst64 1 1 [0, 3] 2)).2)
        = true)
    ∧ (Unbiased.ctor64 (returnsPoint64 [1e308, 1e308]) twoConst64 1 1 [0, 3] 2).coefs = [0, 0]
    ∧ sum64 2 (Unbiased.ctor64 (returnsPoint64 [1e308, 1e308]) twoConst64 1 1 [0, 3] 2).coefs
        = 0
    ∧ Unbiased.numeric_predict64 twoConst64
        (Unbiased.ctor64 (returnsPoint64 [1e308, 1e308]) twoConst64 1 1 [0, 3] 2) [7] = 0
    ∧ F64.le 2 (Unbiased.numeric_predict64 twoConst64
        (Unbiased.ctor64 (returnsPoint64 [1e308, 1e308]) twoConst64 1 1 [0, 3] 2) [7])
        = false := by
  decide!

/-- C24, as stated, fails on doubles in its last part: in quadratic mode, on
the strictly ascending nodes `0 < 1e-200 < 2e-200`, the indices chosen along
`x` for the query point `1.5e-200` are the consecutive `0, 1, 2`, and each of
the three divisors of the coefficients, a product of two differences of nodes,
underflows to 0. -/
theorem Bilinear.denominator_counterexample :
    (F64.lt (rdz64 closeTable.x 0) (rdz64 closeTable.x 1) = true
      ∧ F64.lt (rdz64 closeTable.x 1) (rdz64 closeTable.x 2) = true)
    ∧ Bilinear.triple64 closeTable.x closeTable.nx
        (Bilinear.bound64 closeTable.x closeTable.nx 1.5e-200) = (0, 1, 2)
    ∧ Bilinear.denoms64 closeTable.x 0 1 2 = (0, 0, 0) := by
  refine ⟨by decide!, ?_, by decide!⟩
  unfold Bilinear.triple64
  simp only [show closeTable.nx = 3 from rfl, Bilinear.search64_three]
  decide!

/-- C25, as stated, fails on doubles.  In quadratic mode, a table of the
constant 5 on the strictly ascending nodes `0 < 1e-200 < 2e-200` gives a NaN at
the point `(1.5e-200, 0.5)` inside the table.  In bilinear mode, a table of
`f(x, y) = x` on the nodes `x = 0, 49` gives, at the point `(1, 0)` inside the
table, the double just below 1: the quotient `1 / 49` is rounded, and so is its
product with 49. -/
theorem Bilinear.exact_counterexample :
    (F64.le (rdz64 flatTable.x 0) 1.5e-200 = true
      ∧ F64.le 1.5e-200 (rdz64 flatTable.x 2) = true)
    ∧ Bilinear.evaluate64 flatTable 1.5e-200 0.5 = F64.nan
    ∧ (∀ i j : ℕ, i < 2 → j < 2 →
        rdz64 rampTable.z ((i : ℤ) * rampTable.ny + (j : ℤ)) = rdz64 rampTable.x (i : ℤ))
    ∧ Bilinear.evaluate64 rampTable 1 0 = F64.fin (9007199254740991 / 9007199254740992)
    ∧ Bilinear.evaluate64 rampTable 1 0 ≠ 1 := by
  have hq : Bilinear.evaluate64 flatTable 1.5e-200 0.5 = F64.nan := by
    unfold Bilinear.evaluate64
    simp only [show flatTable.nx = 3 from rfl, show flatTable.ny = 3 from rfl,
      Bilinear.search64_three]
    decide!
  have hb : Bilinear.evaluate64 rampTable 1 0
      = F64.fin (9007199254740991 / 9007199254740992) := by
    unfold Bilinear.evaluate64
    simp only [show rampTable.nx = 2 from rfl, show rampTable.ny = 2 from rfl,
      Bilinear.search64_two]
    decide!
  refine ⟨by decide!, hq, ?_, hb, ?_⟩
  · intro i j hi hj
    interval_cases i <;> interval_cases j <;> decide!
  · rw [hb]
    decide!

end MultPred
